import Mathlib

/-!
# CPU scheduling simulator (`project2.c`): embedding and verification

The C program keeps its whole state in globals.  Here that state is one record,
`Sim`, passed explicitly.  A `job_t *` is modelled by an address (`Nat`); the
memory holding the `job_t` records is the function `Sim.heap`.  The `i`-th block
returned by `calloc` in `load_jobs` is given address `i`.  The linked list
`rtr_queue` is the list of its nodes, head first.  C `int` values are modelled by
`Int`; signed overflow is undefined behaviour in C and is not modelled.
-/

namespace Project2

/-- Quantum length of round-robin (`#define RR_QUANTUM_LENGTH 10`). -/
def RR_QUANTUM_LENGTH : Int := 10

/-- The `enum states` of the source: ready-to-run, on the CPU, in IO, done.  The
enumerator `IO` is written `IO_` here. -/
inductive states where
  | RTR
  | CPU
  | IO_
  | DONE
  deriving DecidableEq, Repr

/-- The `enum algs` of the source. -/
inductive algs where
  | FCFS
  | PS
  | SJF
  | RR
  deriving DecidableEq, Repr

/-- The `struct job` of the source. -/
structure job_t where
  id : Int
  priority : Int
  start_time : Int
  end_time : Int
  wait_time : Int
  state : states
  burst_countdown : Int
  cpu_burst_length : Int
  io_burst_length : Int
  quant_countdown : Int
  reps : Int
  deriving DecidableEq, Repr

/-- The `struct node` of the source; `job` is the address of the job, the `next`
pointer is the tail of the list the node heads. -/
structure node_t where
  priority : Int
  job : Nat
  deriving DecidableEq, Repr

/-- A block as `calloc` returns it: every field zero (`RTR` is the enumerator 0). -/
def calloc_job : job_t :=
  { id := 0, priority := 0, start_time := 0, end_time := 0, wait_time := 0,
    state := states.RTR, burst_countdown := 0, cpu_burst_length := 0,
    io_burst_length := 0, quant_countdown := 0, reps := 0 }

/-- The global variables of the program. -/
structure Sim where
  alg_id : algs
  heap : Nat → job_t
  rtr_queue : List node_t
  jobs : List Nat
  active : Option Nat
  num_jobs : Int
  finished_jobs : Int
  time : Int
  cpu_busy_time : Int
  cpu_idle_time : Int

/-- The function `getpri`: the rank of a job under the selected algorithm at the
current value of `time`. -/
def getpri (alg_id : algs) (time : Int) (j : job_t) : Int :=
  let p : Int := -1
  let p := if alg_id = algs.PS then j.priority else p
  let p := if alg_id = algs.SJF then j.cpu_burst_length * j.reps else p
  let p := if alg_id = algs.RR then time else p
  p

/-- The `while` loop of `push` together with the two assignments after it, as a
function of the list `cur->next`: skip the nodes whose priority is below the new
one, then link the new node in. -/
def link_after (new : node_t) : List node_t → List node_t
  | [] => [new]
  | nxt :: rest =>
    if new.priority > nxt.priority then nxt :: link_after new rest
    else new :: nxt :: rest

/-- The function `push` on the list headed by `*head`. -/
def push (alg_id : algs) (time : Int) (heap : Nat → job_t) (head : List node_t) (j : Nat) :
    List node_t :=
  let new : node_t := { priority := getpri alg_id time (heap j), job := j }
  match head with
  | [] => [new]
  | hd :: tl =>
    if new.priority < hd.priority then new :: hd :: tl
    else hd :: link_after new tl

/-- The function `pop`: the job of the first node (`none` for `NULL`) and the new
value of `*head`. -/
def pop (head : List node_t) : Option Nat × List node_t :=
  match head with
  | [] => (none, [])
  | cur :: next => (some cur.job, next)

/-- The function `set_next_job`: the returned pointer and the globals afterwards. -/
def set_next_job (s : Sim) : Option Nat × Sim :=
  match pop s.rtr_queue with
  | (none, q) => (none, { s with rtr_queue := q })
  | (some p, q) =>
    let j : job_t := s.heap p
    let j : job_t := { j with state := states.CPU }
    let j : job_t := if j.start_time = (0 : Int) then { j with start_time := s.time } else j
    let j : job_t := if j.burst_countdown ≤ (0 : Int) then
        { j with burst_countdown := j.cpu_burst_length, reps := j.reps - 1 }
      else j
    let j : job_t :=
      { j with quant_countdown := if s.alg_id = algs.RR then RR_QUANTUM_LENGTH else -1 }
    (some p, { s with rtr_queue := q, heap := Function.update s.heap p j })

/-- The first part of the loop body of `run` (the `if (active) ... else ...`). -/
def cpu_phase (s : Sim) : Sim :=
  match s.active with
  | some a =>
    let j : job_t := s.heap a
    let j : job_t :=
      { j with burst_countdown := j.burst_countdown - 1,
               quant_countdown := j.quant_countdown - 1 }
    let s := { s with heap := Function.update s.heap a j }
    let s :=
      if j.burst_countdown = (0 : Int) then
        let j : job_t := { j with state := states.IO_, burst_countdown := j.io_burst_length }
        let s := { s with heap := Function.update s.heap a j }
        let r := set_next_job s
        { r.2 with active := r.1 }
      else if j.quant_countdown = (0 : Int) then
        let j : job_t := { j with state := states.RTR }
        let s := { s with heap := Function.update s.heap a j }
        let s := { s with rtr_queue := push s.alg_id s.time s.heap s.rtr_queue a }
        let r := set_next_job s
        { r.2 with active := r.1 }
      else s
    { s with cpu_busy_time := s.cpu_busy_time + 1 }
  | none =>
    let r := set_next_job s
    let s := { r.2 with active := r.1 }
    if r.1 = none then { s with cpu_idle_time := s.cpu_idle_time + 1 } else s

/-- One iteration of the inner `for` loop of `run`, for the job at address `p`. -/
def scan_job (s : Sim) (p : Nat) : Sim :=
  let j : job_t := s.heap p
  let s :=
    if j.state = states.IO_ then
      let old := j.burst_countdown
      let j : job_t := { j with burst_countdown := j.burst_countdown - 1 }
      let s := { s with heap := Function.update s.heap p j }
      if old = (0 : Int) then
        if j.reps = (0 : Int) then
          let j : job_t := { j with state := states.DONE, end_time := s.time }
          { s with heap := Function.update s.heap p j,
                   finished_jobs := s.finished_jobs + 1 }
        else
          let j : job_t := { j with state := states.RTR }
          let s := { s with heap := Function.update s.heap p j }
          { s with rtr_queue := push s.alg_id s.time s.heap s.rtr_queue p }
      else s
    else s
  let j : job_t := s.heap p
  if j.state = states.RTR then
    { s with heap := Function.update s.heap p { j with wait_time := j.wait_time + 1 } }
  else s

/-- The inner `for` loop of `run` over `jobs[0 .. num_jobs-1]`. -/
def scan (s : Sim) : Sim :=
  (s.jobs.take s.num_jobs.toNat).foldl scan_job s

/-- The body of the `for (;;)` loop of `run`, up to the test of `finished_jobs`. -/
def tick (s : Sim) : Sim :=
  scan (cpu_phase s)

/-- The loop of `run`: `fuel` bounds the number of iterations, `none` means the
bound was reached before the `break`.  The result is the state at the `break`. -/
def run_loop : Nat → Sim → Option Sim
  | 0, _ => none
  | fuel + 1, s =>
    let s := tick s
    if s.finished_jobs < s.num_jobs then run_loop fuel { s with time := s.time + 1 }
    else some s

/-- One line of the input file that is not a comment: the five numbers read by
`sscanf`. -/
structure record where
  id : Int
  cpu_burst_length : Int
  io_burst_length : Int
  reps : Int
  priority : Int
  deriving DecidableEq, Repr

/-- The job that `load_jobs` builds from one line. -/
def job_of (r : record) : job_t :=
  { calloc_job with id := r.id, cpu_burst_length := r.cpu_burst_length,
                    io_burst_length := r.io_burst_length, reps := r.reps,
                    priority := r.priority }

/-- The globals as initialised at program start, with `alg_id` as set by `main`. -/
def init (alg_id : algs) : Sim :=
  { alg_id := alg_id, heap := fun _ => calloc_job, rtr_queue := [], jobs := [],
    active := none, num_jobs := 0, finished_jobs := 0, time := 1,
    cpu_busy_time := 0, cpu_idle_time := 0 }

/-- The body of the `while` loop of `load_jobs` for one line: the new job gets the
next free address, which is the number of jobs allocated so far. -/
def load_line (s : Sim) (r : record) : Sim :=
  let p := s.num_jobs.toNat
  let s := { s with heap := Function.update s.heap p (job_of r) }
  { s with rtr_queue := push s.alg_id s.time s.heap s.rtr_queue p,
           num_jobs := s.num_jobs + 1 }

/-- The function `load_jobs`: push every line, then copy the job pointers of the
queue, in queue order, into the array `jobs`. -/
def load_jobs (alg_id : algs) (recs : List record) : Sim :=
  let s := recs.foldl load_line (init alg_id)
  { s with jobs := s.rtr_queue.map node_t.job }

/-- The ranks stored in the queue are ascending from the head. -/
def Sorted (q : List node_t) : Prop :=
  List.Pairwise (fun a b => a.priority ≤ b.priority) q

instance (q : List node_t) : Decidable (Sorted q) := by
  unfold Sorted; infer_instance

/-- Push the jobs at the given addresses one after another. -/
def push_all (alg_id : algs) (time : Int) (heap : Nat → job_t) (q : List node_t)
    (js : List Nat) : List node_t :=
  js.foldl (push alg_id time heap) q

/-- Pop until the queue is empty, collecting the returned jobs in order. -/
def pop_all : List node_t → List Nat
  | [] => []
  | cur :: next => cur.job :: pop_all next

/-- A sample input line: id 7, CPU burst 3, IO burst 2, one repetition, priority 0. -/
def sample_record : record :=
  { id := 7, cpu_burst_length := 3, io_burst_length := 2, reps := 1, priority := 0 }

/-- The shortest possible job: id 1, CPU burst 1, IO burst 0, one repetition. -/
def unit_record : record :=
  { id := 1, cpu_burst_length := 1, io_burst_length := 0, reps := 1, priority := 0 }

/-- The insertion the specification describes: immediately before the first entry
whose rank is at least the new one, at the tail when there is none. -/
def insert_before_first_ge (new : node_t) (q : List node_t) : List node_t :=
  q.takeWhile (fun e => decide (e.priority < new.priority)) ++
    new :: q.dropWhile (fun e => decide (e.priority < new.priority))

/-- Is 1 when the tick that starts in `s` finds no active job and a non-empty ready
queue (it dispatches a job onto the free CPU), 0 otherwise. -/
def idle_dispatch (s : Sim) : Int :=
  match s.active, s.rtr_queue with
  | none, _ :: _ => 1
  | _, _ => 0

/-- The number of ticks of the run from `s`, within `fuel` iterations, that start
with no active job and a non-empty ready queue. -/
def idle_dispatch_ticks : Nat → Sim → Int
  | 0, _ => 0
  | fuel + 1, s =>
    idle_dispatch s +
      (if (tick s).finished_jobs < (tick s).num_jobs then
        idle_dispatch_ticks fuel { tick s with time := (tick s).time + 1 }
      else 0)

/-! ## Invariants, measures and counts used in the statements and proofs -/

/-- Is 1 for a job in state `DONE`, 0 otherwise. -/
def done_ind (j : job_t) : Int := if j.state = states.DONE then 1 else 0

/-- The link between the array `jobs`, the ready queue, the heap and
`finished_jobs`: `jobs` holds no address twice, the queue holds no job twice, the
jobs in the queue are exactly the jobs of the array in state `RTR`, and
`finished_jobs` counts the jobs of the array in state `DONE`. -/
def QInv (jobs : List Nat) (q : List node_t) (heap : Nat → job_t) (fin : Int) : Prop :=
  jobs.Nodup ∧ (q.map node_t.job).Nodup ∧
  (∀ p, p ∈ q.map node_t.job ↔ p ∈ jobs ∧ (heap p).state = states.RTR) ∧
  fin = (jobs.map fun p => done_ind (heap p)).sum

/-- The invariant of the run loop: `QInv`, `num_jobs` is the length of `jobs`, and
`active` points to a job exactly when that job is in the array and in state `CPU`. -/
def Inv (s : Sim) : Prop :=
  QInv s.jobs s.rtr_queue s.heap s.finished_jobs ∧ (s.jobs.length : Int) = s.num_jobs ∧
  ∀ p, s.active = some p ↔ p ∈ s.jobs ∧ (s.heap p).state = states.CPU

/-- The states at the end of a tick (after the inner loop, before the test of
`finished_jobs`) of the run that starts in `s0`: the end of the first tick, and
the end of the tick that follows an unfinished one after `++time`. -/
inductive TickEnd (s0 : Sim) : Sim → Prop
  | first : TickEnd s0 (tick s0)
  | next (s : Sim) : TickEnd s0 s → s.finished_jobs < s.num_jobs →
      TickEnd s0 (tick { s with time := s.time + 1 })

/-- The globals at the moment `set_next_job` is called during the first part of the
loop body started in `s`; `none` when it is not called (a job is active, and
neither its burst nor its quantum ends on this tick). -/
def dispatch_state (s : Sim) : Option Sim :=
  match s.active with
  | some a =>
    let j : job_t := s.heap a
    let j : job_t :=
      { j with burst_countdown := j.burst_countdown - 1,
               quant_countdown := j.quant_countdown - 1 }
    if j.burst_countdown = (0 : Int) then
      some { s with heap := Function.update s.heap a
                      { j with state := states.IO_, burst_countdown := j.io_burst_length } }
    else if j.quant_countdown = (0 : Int) then
      some { s with heap := Function.update s.heap a { j with state := states.RTR },
                    rtr_queue := push s.alg_id s.time
                      (Function.update s.heap a { j with state := states.RTR }) s.rtr_queue a }
    else none
  | none => some s

/-- The record `set_next_job` leaves for the job it pops, as a function of the
record it finds. -/
def dispatched (alg_id : algs) (time : Int) (j : job_t) : job_t :=
  { j with
    state := states.CPU,
    start_time := if j.start_time = 0 then time else j.start_time,
    burst_countdown := if j.burst_countdown ≤ 0 then j.cpu_burst_length else j.burst_countdown,
    reps := if j.burst_countdown ≤ 0 then j.reps - 1 else j.reps,
    quant_countdown := if alg_id = algs.RR then 10 else -1 }

/-- The job whose `reps` a call of `set_next_job` in state `d` decrements: the job
of the first node of the queue, when its `burst_countdown` is `≤ 0`. -/
def decremented (d : Sim) : Option Nat :=
  match d.rtr_queue with
  | [] => none
  | n :: _ => if (d.heap n.job).burst_countdown ≤ 0 then some n.job else none

/-- The job whose `reps` is decremented during the tick started in `s`, if any. -/
def fresh_dispatch (s : Sim) : Option Nat :=
  (dispatch_state s).bind decremented

/-- The number of decrements of a `reps` field during the run from `s`, within
`fuel` iterations. -/
def reps_decrements : Nat → Sim → Int
  | 0, _ => 0
  | fuel + 1, s =>
    (if fresh_dispatch s = none then 0 else 1) +
      (if (tick s).finished_jobs < (tick s).num_jobs then
        reps_decrements fuel { tick s with time := (tick s).time + 1 }
      else 0)

/-- Every done job has no repetitions left. -/
def DoneZero (s : Sim) : Prop := ∀ p, (s.heap p).state = states.DONE → (s.heap p).reps = 0

/-- The invariant of the loop of `load_jobs`: the queue holds the addresses below
`num_jobs`, each once, and every block of the heap is ready to run with
`burst_countdown` 0. -/
def LoadInv (s : Sim) : Prop :=
  (s.rtr_queue.map node_t.job).Nodup ∧
  (∀ p, p ∈ s.rtr_queue.map node_t.job ↔ p < s.num_jobs.toNat) ∧
  0 ≤ s.num_jobs ∧ (s.rtr_queue.length : Int) = s.num_jobs ∧
  (∀ p, (s.heap p).state = states.RTR) ∧ (∀ p, (s.heap p).burst_countdown = 0)

/-- What the termination argument needs of a job: a positive CPU burst, a
non-negative IO burst, no negative `reps`, a positive countdown on the CPU, a
non-negative one in IO, and a repetition left when it waits for a new burst. -/
def JobOK (j : job_t) : Prop :=
  1 ≤ j.cpu_burst_length ∧ 0 ≤ j.io_burst_length ∧ 0 ≤ j.reps ∧
  (j.state = states.CPU → 1 ≤ j.burst_countdown) ∧
  (j.state = states.IO_ → 0 ≤ j.burst_countdown) ∧
  (j.state = states.RTR → j.burst_countdown ≤ 0 → 1 ≤ j.reps)

/-- A bound on the cost, in units of `remaining`, of one full repetition of a job. -/
def cycle_cost (j : job_t) : Int := 2 * j.cpu_burst_length + j.io_burst_length + 3

/-- The termination measure of one job: it goes down whenever the job is touched
by the loop body in a way other than counting its wait time. -/
def remaining (j : job_t) : Int :=
  match j.state with
  | states.DONE => 0
  | states.IO_ => j.burst_countdown + 1 + j.reps * cycle_cost j
  | states.CPU => 2 * j.burst_countdown + j.io_burst_length + 1 + j.reps * cycle_cost j
  | states.RTR =>
    if j.burst_countdown ≤ 0 then j.reps * cycle_cost j
    else 2 * j.burst_countdown + j.io_burst_length + 2 + j.reps * cycle_cost j

/-- Every job of the array satisfies `JobOK`. -/
def AllOK (jobs : List Nat) (heap : Nat → job_t) : Prop := ∀ p ∈ jobs, JobOK (heap p)

/-- The termination measure of the run loop. -/
def remaining_sum (jobs : List Nat) (heap : Nat → job_t) : Int :=
  (jobs.map fun p => remaining (heap p)).sum

/-! ## Start-of-tick states, the steps of one job, and the counts of further claims -/

/-- The states at the start of a tick (at the top of the loop body) of the run that
starts in `s0`: `s0` itself, and the state after `++time` that follows a tick
whose end did not pass the test for the `break`. -/
inductive TickStart (s0 : Sim) : Sim → Prop
  | init : TickStart s0 s0
  | next (s : Sim) : TickStart s0 s → (tick s).finished_jobs < (tick s).num_jobs →
      TickStart s0 { tick s with time := (tick s).time + 1 }

/-- The state at the start of tick `n + 1` of the run from `s0`, `none` when the
loop has left through its `break` before. -/
def tick_start (s0 : Sim) : Nat → Option Sim
  | 0 => some s0
  | n + 1 =>
    match tick_start s0 n with
    | none => none
    | some s =>
      if (tick s).finished_jobs < (tick s).num_jobs then
        some { tick s with time := (tick s).time + 1 }
      else none

/-- The state at the end of the `i`-th tick after the tick that starts in `s`, the
loop being taken to go on in between. -/
def later (s : Sim) : Nat → Sim
  | 0 => tick s
  | i + 1 => tick { later s i with time := (later s i).time + 1 }

/-- The record of the active job after a tick on the CPU that ends neither its
burst nor its quantum: the two decrements at the top of the loop body. -/
def ran (j : job_t) : job_t :=
  { j with burst_countdown := j.burst_countdown - 1,
           quant_countdown := j.quant_countdown - 1 }

/-- The record of the active job after the tick that ends its CPU burst: the two
decrements, state `IO`, and the countdown set to the IO burst length. -/
def blocked (j : job_t) : job_t :=
  { j with burst_countdown := j.io_burst_length,
           quant_countdown := j.quant_countdown - 1, state := states.IO_ }

/-- The record of the active job after the tick that ends its quantum: the two
decrements and state `RTR`. -/
def preempted (j : job_t) : job_t :=
  { j with burst_countdown := j.burst_countdown - 1,
           quant_countdown := j.quant_countdown - 1, state := states.RTR }

/-- What the first part of the loop body (the `if (active) ... else ...`) can do to
the record of one job, under algorithm `alg_id` at clock value `time`. -/
inductive CpuStep (alg_id : algs) (time : Int) : job_t → job_t → Prop
  | run (j : job_t) : j.state = states.CPU → j.burst_countdown - 1 ≠ 0 →
      j.quant_countdown - 1 ≠ 0 → CpuStep alg_id time j (ran j)
  | block (j : job_t) : j.state = states.CPU → j.burst_countdown - 1 = 0 →
      CpuStep alg_id time j (blocked j)
  | preempt (j : job_t) : j.state = states.CPU → j.burst_countdown - 1 ≠ 0 →
      j.quant_countdown - 1 = 0 → CpuStep alg_id time j (preempted j)
  | dispatch (j : job_t) : j.state = states.RTR →
      CpuStep alg_id time j (dispatched alg_id time j)

/-- The record one iteration of the inner `for` loop leaves for the job it looks
at, as a function of the record it finds and of `time`. -/
def scanned (time : Int) (j : job_t) : job_t :=
  if j.state = states.IO_ then
    if j.burst_countdown = 0 then
      if j.reps = 0 then
        { j with burst_countdown := -1, state := states.DONE, end_time := time }
      else
        { j with burst_countdown := -1, state := states.RTR, wait_time := j.wait_time + 1 }
    else { j with burst_countdown := j.burst_countdown - 1 }
  else if j.state = states.RTR then { j with wait_time := j.wait_time + 1 }
  else j

/-- The tick that starts in `s` takes the branch `else if (active->quant_countdown
== 0)`: a job is active, and after the two decrements its burst countdown is not
0 and its quantum countdown is 0. -/
def quantum_expired (s : Sim) : Bool :=
  match s.active with
  | some a =>
    decide ((s.heap a).burst_countdown - 1 ≠ 0 ∧ (s.heap a).quant_countdown - 1 = 0)
  | none => false

/-- The number of ticks among the first `n` of the run from `s0` that take the
quantum-expiry branch. -/
def preempt_count (s0 : Sim) : Nat → Nat
  | 0 => 0
  | n + 1 =>
    preempt_count s0 n +
      (match tick_start s0 n with
        | some s => if quantum_expired s then 1 else 0
        | none => 0)

/-- The number of ticks of the run from `s`, within `fuel` iterations, at whose end
the job at address `p` is in state `RTR`. -/
def ready_ticks : Nat → Sim → Nat → Int
  | 0, _, _ => 0
  | fuel + 1, s, p =>
    (if ((tick s).heap p).state = states.RTR then 1 else 0) +
      (if (tick s).finished_jobs < (tick s).num_jobs then
        ready_ticks fuel { tick s with time := (tick s).time + 1 } p
      else 0)

/-- The times recorded in a job are consistent with the clock `t`: `start_time` is
0 or between 1 and `t`, it is at least 1 once the job has left the ready state,
and a done job has `start_time ≤ end_time ≤ t`. -/
def TimeOK (t : Int) (j : job_t) : Prop :=
  (j.start_time = 0 ∨ (1 ≤ j.start_time ∧ j.start_time ≤ t)) ∧
  (j.state ≠ states.RTR → 1 ≤ j.start_time) ∧
  (j.state = states.DONE → j.start_time ≤ j.end_time ∧ j.end_time ≤ t)

/-- On the CPU the quantum countdown is negative. -/
def NegQuant (j : job_t) : Prop := j.state = states.CPU → j.quant_countdown < 0

/-- A job that can never finish: it is not done, `reps` is not positive, and `reps`
is negative once the job has been dispatched. -/
def Stuck (j : job_t) : Prop :=
  j.state ≠ states.DONE ∧ j.reps ≤ 0 ∧
  ((j.state = states.CPU ∨ j.state = states.IO_ ∨ 0 < j.burst_countdown) → j.reps < 0)

/-- The state of a lone round-robin job at the start of its `k`-th tick on the CPU. -/
def AloneOnCpu (C k : Nat) (s : Sim) : Prop :=
  s.alg_id = algs.RR ∧ s.jobs = [0] ∧ s.time = (k : Int) + 1 ∧
  (s.heap 0).state = states.CPU ∧ (s.heap 0).burst_countdown = (C : Int) - k + 1 ∧
  (s.heap 0).quant_countdown = 10 - (((k - 1) % 10 : Nat) : Int) ∧ (s.heap 0).reps = 0

/-- The lone job is off the CPU for good: it is in IO or done, with no repetition
left. -/
def OffCpu (s : Sim) : Prop :=
  s.jobs = [0] ∧ (s.heap 0).state ≠ states.CPU ∧ (s.heap 0).state ≠ states.RTR ∧
  (s.heap 0).reps = 0

/-- The state of two FCFS jobs at the start of the `k`-th tick the first one spends
on the CPU while the second one has not been dispatched yet. -/
def FirstOnCpu (cA k : Nat) (s : Sim) : Prop :=
  s.alg_id = algs.FCFS ∧ s.jobs = [0, 1] ∧ s.time = (k : Int) + 1 ∧
  (s.heap 0).state = states.CPU ∧ (s.heap 0).burst_countdown = (cA : Int) - k + 1 ∧
  (s.heap 0).quant_countdown < 0 ∧
  (s.heap 1).state = states.RTR ∧ (s.heap 1).start_time = 0

/-- A second sample line: id 8, CPU burst 3, IO burst 2, one repetition, priority 0. -/
def second_record : record :=
  { id := 8, cpu_burst_length := 3, io_burst_length := 2, reps := 1, priority := 0 }

/-- A line with a CPU burst of 25 ticks: id 9, IO burst 0, one repetition. -/
def long_record : record :=
  { id := 9, cpu_burst_length := 25, io_burst_length := 0, reps := 1, priority := 0 }

/-- A line with no repetition: id 5, CPU burst 2, IO burst 1, `reps` 0. -/
def no_reps_record : record :=
  { id := 5, cpu_burst_length := 2, io_burst_length := 1, reps := 0, priority := 0 }

/-- A line with a CPU burst of one tick and an IO burst of two: id 6, one repetition. -/
def short_cpu_record : record :=
  { id := 6, cpu_burst_length := 1, io_burst_length := 2, reps := 1, priority := 0 }

/-- The state at the start of the next tick, the loop being taken to go on. -/
def advance (s : Sim) : Sim := { tick s with time := (tick s).time + 1 }

/-! ## The ready queue: `push`, `pop`, `getpri` -/

theorem getpri_fcfs (time : Int) (j : job_t) : getpri algs.FCFS time j = -1 := by
  simp [getpri]

theorem pop_all_eq_map (q : List node_t) : pop_all q = q.map node_t.job := by
  induction q with
  | nil => rfl
  | cons a l ih => simp [pop_all, ih]

theorem link_after_decomp (new : node_t) (l : List node_t) :
    ∃ pre post, l = pre ++ post ∧ link_after new l = pre ++ new :: post ∧
      (∀ e ∈ pre, e.priority < new.priority) ∧
      (∀ e, post.head? = some e → new.priority ≤ e.priority) := by
  induction l with
  | nil => exact ⟨[], [], rfl, rfl, by simp, by simp⟩
  | cons nxt rest ih =>
    by_cases h : new.priority > nxt.priority
    · obtain ⟨pre, post, h1, h2, h3, h4⟩ := ih
      refine ⟨nxt :: pre, post, by simp [h1], by simp [link_after, h, h2], ?_, h4⟩
      intro e he
      rcases List.mem_cons.1 he with rfl | he
      · exact h
      · exact h3 e he
    · refine ⟨[], nxt :: rest, rfl, by simp [link_after, h], by simp, ?_⟩
      intro e he
      simp only [List.head?_cons, Option.some.injEq] at he
      subst he
      exact not_lt.1 h

theorem push_decomp (alg_id : algs) (time : Int) (heap : Nat → job_t) (q : List node_t)
    (j : Nat) :
    ∃ pre post, q = pre ++ post ∧
      push alg_id time heap q j
        = pre ++ { priority := getpri alg_id time (heap j), job := j } :: post ∧
      (∀ e ∈ pre, e.priority ≤ getpri alg_id time (heap j)) ∧
      (∀ e, post.head? = some e → getpri alg_id time (heap j) ≤ e.priority) := by
  cases q with
  | nil => exact ⟨[], [], rfl, rfl, by simp, by simp⟩
  | cons hd tl =>
    by_cases h : getpri alg_id time (heap j) < hd.priority
    · refine ⟨[], hd :: tl, rfl, by simp [push, h], by simp, ?_⟩
      intro e he
      simp only [List.head?_cons, Option.some.injEq] at he
      subst he
      exact le_of_lt h
    · obtain ⟨pre, post, h1, h2, h3, h4⟩ :=
        link_after_decomp { priority := getpri alg_id time (heap j), job := j } tl
      refine ⟨hd :: pre, post, by simp [h1], by simp [push, h, h2], ?_, h4⟩
      intro e he
      rcases List.mem_cons.1 he with rfl | he
      · exact not_lt.1 h
      · exact le_of_lt (h3 e he)

theorem sorted_tail_bound {post : List node_t} {r : Int}
    (hs : Sorted post) (hh : ∀ e, post.head? = some e → r ≤ e.priority) :
    ∀ e ∈ post, r ≤ e.priority := by
  cases post with
  | nil => simp
  | cons x xs =>
    intro e he
    have hx : r ≤ x.priority := hh x rfl
    rcases List.mem_cons.1 he with rfl | he
    · exact hx
    · exact le_trans hx (List.rel_of_pairwise_cons hs he)

theorem sorted_insert {pre post : List node_t} {n : node_t}
    (hs : Sorted (pre ++ post)) (h1 : ∀ e ∈ pre, e.priority ≤ n.priority)
    (h2 : ∀ e ∈ post, n.priority ≤ e.priority) : Sorted (pre ++ n :: post) := by
  unfold Sorted at *
  rw [List.pairwise_append] at hs ⊢
  obtain ⟨hpre, hpost, hcross⟩ := hs
  refine ⟨hpre, List.pairwise_cons.2 ⟨h2, hpost⟩, ?_⟩
  intro a ha b hb
  rcases List.mem_cons.1 hb with rfl | hb
  · exact h1 a ha
  · exact hcross a ha b hb

theorem push_shape (alg_id : algs) (time : Int) (heap : Nat → job_t) (q : List node_t)
    (j : Nat) (hs : Sorted q) :
    ∃ pre post, q = pre ++ post ∧
      push alg_id time heap q j
        = pre ++ { priority := getpri alg_id time (heap j), job := j } :: post ∧
      (∀ e ∈ pre, e.priority ≤ getpri alg_id time (heap j)) ∧
      (∀ e ∈ post, getpri alg_id time (heap j) ≤ e.priority) := by
  obtain ⟨pre, post, h1, h2, h3, h4⟩ := push_decomp alg_id time heap q j
  refine ⟨pre, post, h1, h2, h3, sorted_tail_bound ?_ h4⟩
  rw [h1] at hs
  exact (List.pairwise_append.1 hs).2.1

theorem push_sorted (alg_id : algs) (time : Int) (heap : Nat → job_t) (q : List node_t)
    (j : Nat) (hs : Sorted q) : Sorted (push alg_id time heap q j) := by
  obtain ⟨pre, post, h1, h2, h3, h4⟩ := push_shape alg_id time heap q j hs
  rw [h2]
  exact sorted_insert (h1 ▸ hs) h3 h4

theorem push_fcfs_cons (time : Int) (heap : Nat → job_t) (hd : node_t) (tl : List node_t)
    (j : Nat) (hhd : hd.priority = -1) (htl : ∀ e ∈ tl, e.priority = -1) :
    push algs.FCFS time heap (hd :: tl) j = hd :: { priority := -1, job := j } :: tl := by
  cases tl with
  | nil => simp [push, getpri_fcfs, hhd, link_after]
  | cons x xs =>
    have hx : x.priority = -1 := htl x (List.mem_cons_self _ _)
    simp [push, getpri_fcfs, hhd, link_after, hx]

theorem push_all_fcfs_cons (time : Int) (heap : Nat → job_t) (js : List Nat) :
    ∀ (hd : node_t) (tl : List node_t), hd.priority = -1 → (∀ e ∈ tl, e.priority = -1) →
      push_all algs.FCFS time heap (hd :: tl) js
        = hd :: (js.reverse.map fun j => ({ priority := -1, job := j } : node_t)) ++ tl := by
  induction js with
  | nil => intro hd tl _ _; simp [push_all]
  | cons j js ih =>
    intro hd tl hhd htl
    have h := ih hd ({ priority := -1, job := j } :: tl) hhd (by
      intro e he
      rcases List.mem_cons.1 he with rfl | he
      · rfl
      · exact htl e he)
    simp only [push_all, List.foldl_cons] at h ⊢
    rw [push_fcfs_cons time heap hd tl j hhd htl, h]
    simp

/-- C1: for every algorithm, tick value, sorted ready queue and job `j`, `push`
yields a sorted queue that consists of the old entries in their old order with
one new entry for `j`, carrying rank `getpri j`, inserted somewhere. -/
theorem push_keeps_sorted (alg_id : algs) (time : Int) (heap : Nat → job_t)
    (q : List node_t) (j : Nat) (hs : Sorted q) :
    Sorted (push alg_id time heap q j) ∧
    ∃ pre post, q = pre ++ post ∧
      push alg_id time heap q j
        = pre ++ { priority := getpri alg_id time (heap j), job := j } :: post := by
  refine ⟨push_sorted alg_id time heap q j hs, ?_⟩
  obtain ⟨pre, post, h1, h2, _, _⟩ := push_decomp alg_id time heap q j
  exact ⟨pre, post, h1, h2⟩

/-- Witness of C1: a job of priority 2 pushed under static priority onto a queue
with ranks 1 and 3. -/
theorem push_keeps_sorted_witness :
    Sorted [{ priority := 1, job := 0 }, { priority := 3, job := 1 }] ∧
    (Sorted (push algs.PS 5 (fun _ => { calloc_job with priority := 2 })
        [{ priority := 1, job := 0 }, { priority := 3, job := 1 }] 2) ∧
     ∃ pre post, [({ priority := 1, job := 0 } : node_t), { priority := 3, job := 1 }]
        = pre ++ post ∧
      push algs.PS 5 (fun _ => { calloc_job with priority := 2 })
        [{ priority := 1, job := 0 }, { priority := 3, job := 1 }] 2
        = pre ++ { priority := getpri algs.PS 5 { calloc_job with priority := 2 },
                   job := 2 } :: post) :=
  ⟨by decide, push_keeps_sorted algs.PS 5 (fun _ => { calloc_job with priority := 2 })
      [{ priority := 1, job := 0 }, { priority := 3, job := 1 }] 2 (by decide)⟩

/-- C2, as stated, fails: under SJF two jobs with `cpu_burst_length = 2` and
`reps = 3` (rank 6) are pushed at tick 1 onto the empty queue.  The second one is
linked in behind the first, not before it as insertion before the first entry of
rank `≥ 6` would have it, and `pop` returns the first one. -/
theorem push_tie_counterexample :
    Sorted (push algs.SJF 1 (fun _ => { calloc_job with cpu_burst_length := 2, reps := 3 })
      [] 0) ∧
    push algs.SJF 1 (fun _ => { calloc_job with cpu_burst_length := 2, reps := 3 })
        (push algs.SJF 1 (fun _ => { calloc_job with cpu_burst_length := 2, reps := 3 })
          [] 0) 1
      = [{ priority := 6, job := 0 }, { priority := 6, job := 1 }] ∧
    push algs.SJF 1 (fun _ => { calloc_job with cpu_burst_length := 2, reps := 3 })
        (push algs.SJF 1 (fun _ => { calloc_job with cpu_burst_length := 2, reps := 3 })
          [] 0) 1
      ≠ insert_before_first_ge { priority := 6, job := 1 }
          (push algs.SJF 1 (fun _ => { calloc_job with cpu_burst_length := 2, reps := 3 })
            [] 0) ∧
    (pop (push algs.SJF 1 (fun _ => { calloc_job with cpu_burst_length := 2, reps := 3 })
        (push algs.SJF 1 (fun _ => { calloc_job with cpu_burst_length := 2, reps := 3 })
          [] 0) 1)).1 = some 0 := by
  decide

/-- C2, amended: on a sorted queue `push` places `j` behind every entry of smaller
rank and ahead of every entry of larger rank; an existing head whose rank is not
above the new rank stays at the front; so two jobs of identical rank pushed at
the same tick onto the empty queue are popped in the order they were pushed. -/
theorem push_position (alg_id : algs) (time : Int) (heap : Nat → job_t)
    (q : List node_t) (j : Nat) (hs : Sorted q) :
    (∃ pre post, q = pre ++ post ∧
      push alg_id time heap q j
        = pre ++ { priority := getpri alg_id time (heap j), job := j } :: post ∧
      (∀ e ∈ pre, e.priority ≤ getpri alg_id time (heap j)) ∧
      (∀ e ∈ post, getpri alg_id time (heap j) ≤ e.priority)) ∧
    (∀ hd tl, q = hd :: tl → hd.priority ≤ getpri alg_id time (heap j) →
      (pop (push alg_id time heap q j)).1 = some hd.job) ∧
    (∀ a b, getpri alg_id time (heap a) = getpri alg_id time (heap b) →
      pop_all (push alg_id time heap (push alg_id time heap [] a) b) = [a, b]) := by
  refine ⟨push_shape alg_id time heap q j hs, ?_, ?_⟩
  · intro hd tl hq hle
    subst hq
    simp [push, not_lt.2 hle, pop]
  · intro a b hab
    simp [push, hab, link_after, pop_all]

/-- Witness of C2 (amended): the queue with ranks 1 and 3 and a job of priority 2. -/
theorem push_position_witness :
    Sorted [{ priority := 1, job := 0 }, { priority := 3, job := 1 }] ∧
    (pop (push algs.PS 5 (fun _ => { calloc_job with priority := 2 })
        [{ priority := 1, job := 0 }, { priority := 3, job := 1 }] 2)).1 = some 0 :=
  ⟨by decide,
   (push_position algs.PS 5 (fun _ => { calloc_job with priority := 2 })
      [{ priority := 1, job := 0 }, { priority := 3, job := 1 }] 2 (by decide)).2.1
      { priority := 1, job := 0 } [{ priority := 3, job := 1 }] rfl (by decide)⟩

/-- C3 (what the code does): under FCFS the jobs pushed one after another onto the
empty queue are popped as the first job followed by the others in reverse order
of pushing; three jobs 0, 1, 2 come out as 0, 2, 1, which is not arrival order. -/
theorem fcfs_pop_order :
    (∀ (time : Int) (heap : Nat → job_t) (a : Nat) (rest : List Nat),
      pop_all (push_all algs.FCFS time heap [] (a :: rest)) = a :: rest.reverse) ∧
    pop_all (push_all algs.FCFS 1 (fun _ => calloc_job) [] [0, 1, 2]) = [0, 2, 1] ∧
    pop_all (push_all algs.FCFS 1 (fun _ => calloc_job) [] [0, 1, 2]) ≠ [0, 1, 2] := by
  refine ⟨?_, by decide, by decide⟩
  intro time heap a rest
  have h0 : push_all algs.FCFS time heap [] (a :: rest)
      = push_all algs.FCFS time heap [{ priority := -1, job := a }] rest := by
    simp [push_all, push, getpri_fcfs]
  rw [h0, push_all_fcfs_cons time heap rest _ [] rfl (by simp), pop_all_eq_map]
  simp [Function.comp_def]

/-- C9: with a non-empty ready queue `set_next_job` removes the front node and
returns its job; the job gets state `CPU`, `start_time` becomes the current tick
if it was 0, `burst_countdown` is reset to `cpu_burst_length` and `reps` goes down
by one if `burst_countdown` was `≤ 0`, `quant_countdown` becomes 10 under
round-robin and -1 otherwise; the other fields of the job, all other jobs and all
other globals are unchanged. -/
theorem set_next_job_spec (s : Sim) (n : node_t) (rest : List node_t)
    (hq : s.rtr_queue = n :: rest) :
    (set_next_job s).1 = some n.job ∧
    (set_next_job s).2.rtr_queue = rest ∧
    (set_next_job s).2.heap n.job =
      { s.heap n.job with
        state := states.CPU,
        start_time := if (s.heap n.job).start_time = 0 then s.time
                      else (s.heap n.job).start_time,
        burst_countdown := if (s.heap n.job).burst_countdown ≤ 0
                           then (s.heap n.job).cpu_burst_length
                           else (s.heap n.job).burst_countdown,
        reps := if (s.heap n.job).burst_countdown ≤ 0 then (s.heap n.job).reps - 1
                else (s.heap n.job).reps,
        quant_countdown := if s.alg_id = algs.RR then 10 else -1 } ∧
    (∀ p, p ≠ n.job → (set_next_job s).2.heap p = s.heap p) ∧
    (set_next_job s).2.alg_id = s.alg_id ∧
    (set_next_job s).2.jobs = s.jobs ∧
    (set_next_job s).2.active = s.active ∧
    (set_next_job s).2.num_jobs = s.num_jobs ∧
    (set_next_job s).2.finished_jobs = s.finished_jobs ∧
    (set_next_job s).2.time = s.time ∧
    (set_next_job s).2.cpu_busy_time = s.cpu_busy_time ∧
    (set_next_job s).2.cpu_idle_time = s.cpu_idle_time := by
  refine ⟨?_, ?_, ?_, ?_, ?_, ?_, ?_, ?_, ?_, ?_, ?_, ?_⟩ <;>
    simp only [set_next_job, hq, pop]
  · simp only [Function.update_same, RR_QUANTUM_LENGTH]
    split_ifs <;> rfl
  · intro p hp
    simp [Function.update_noteq hp]

/-- Witness of C9: the state right after loading one job under round-robin. -/
theorem set_next_job_spec_witness :
    (load_jobs algs.RR [sample_record]).rtr_queue = { priority := 1, job := 0 } :: [] ∧
    (set_next_job (load_jobs algs.RR [sample_record])).1 = some 0 :=
  ⟨by decide,
   (set_next_job_spec (load_jobs algs.RR [sample_record])
      { priority := 1, job := 0 } [] (by decide)).1⟩

/-- C10: on a non-empty queue `pop` removes the first node and returns its job,
leaving the remaining nodes in their order; if the queue is sorted, the rank
stored with the returned job is at most the rank of every remaining node; on the
empty queue `pop` returns none and the queue stays empty. -/
theorem pop_spec (q : List node_t) (hs : Sorted q) :
    (∀ cur next, q = cur :: next →
      pop q = (some cur.job, next) ∧ ∀ e ∈ next, cur.priority ≤ e.priority) ∧
    pop [] = (none, []) := by
  refine ⟨?_, rfl⟩
  intro cur next hq
  subst hq
  exact ⟨rfl, fun e he => List.rel_of_pairwise_cons hs he⟩

/-- Witness of C10: the queue with ranks 1 and 3. -/
theorem pop_spec_witness :
    Sorted [{ priority := 1, job := 4 }, { priority := 3, job := 5 }] ∧
    pop [{ priority := 1, job := 4 }, { priority := 3, job := 5 }]
      = (some 4, [{ priority := 3, job := 5 }]) :=
  ⟨by decide,
   ((pop_spec [{ priority := 1, job := 4 }, { priority := 3, job := 5 }] (by decide)).1
      { priority := 1, job := 4 } [{ priority := 3, job := 5 }] rfl).1⟩

/-! ## Counters of the run loop -/

/-- Every global except `heap`, `rtr_queue` and `finished_jobs` is left alone by one
scan iteration. -/
theorem scan_job_frame (s : Sim) (p : Nat) :
    (scan_job s p).alg_id = s.alg_id ∧ (scan_job s p).jobs = s.jobs ∧
    (scan_job s p).active = s.active ∧ (scan_job s p).num_jobs = s.num_jobs ∧
    (scan_job s p).time = s.time ∧ (scan_job s p).cpu_busy_time = s.cpu_busy_time ∧
    (scan_job s p).cpu_idle_time = s.cpu_idle_time := by
  unfold scan_job
  simp only []
  split_ifs <;> simp

theorem scan_fold_frame (l : List Nat) : ∀ (s : Sim),
    (l.foldl scan_job s).alg_id = s.alg_id ∧ (l.foldl scan_job s).jobs = s.jobs ∧
    (l.foldl scan_job s).active = s.active ∧ (l.foldl scan_job s).num_jobs = s.num_jobs ∧
    (l.foldl scan_job s).time = s.time ∧
    (l.foldl scan_job s).cpu_busy_time = s.cpu_busy_time ∧
    (l.foldl scan_job s).cpu_idle_time = s.cpu_idle_time := by
  induction l with
  | nil => intro s; simp
  | cons p l ih =>
    intro s
    obtain ⟨h1, h2, h3, h4, h5, h6, h7⟩ := ih (scan_job s p)
    obtain ⟨g1, g2, g3, g4, g5, g6, g7⟩ := scan_job_frame s p
    simp only [List.foldl_cons]
    exact ⟨h1.trans g1, h2.trans g2, h3.trans g3, h4.trans g4, h5.trans g5, h6.trans g6,
      h7.trans g7⟩

theorem set_next_job_frame (s : Sim) :
    (set_next_job s).2.alg_id = s.alg_id ∧ (set_next_job s).2.jobs = s.jobs ∧
    (set_next_job s).2.active = s.active ∧ (set_next_job s).2.num_jobs = s.num_jobs ∧
    (set_next_job s).2.finished_jobs = s.finished_jobs ∧
    (set_next_job s).2.time = s.time ∧
    (set_next_job s).2.cpu_busy_time = s.cpu_busy_time ∧
    (set_next_job s).2.cpu_idle_time = s.cpu_idle_time := by
  unfold set_next_job pop
  cases s.rtr_queue <;> simp

theorem set_next_job_none_iff (s : Sim) : (set_next_job s).1 = none ↔ s.rtr_queue = [] := by
  unfold set_next_job pop
  cases s.rtr_queue <;> simp

theorem cpu_phase_frame (s : Sim) :
    (cpu_phase s).alg_id = s.alg_id ∧ (cpu_phase s).jobs = s.jobs ∧
    (cpu_phase s).num_jobs = s.num_jobs ∧
    (cpu_phase s).finished_jobs = s.finished_jobs ∧ (cpu_phase s).time = s.time := by
  unfold cpu_phase
  cases s.active with
  | none =>
    simp only []
    split_ifs <;> simp [set_next_job_frame]
  | some a =>
    simp only []
    split_ifs <;> simp [set_next_job_frame]

theorem cpu_phase_counters (s : Sim) :
    (cpu_phase s).cpu_busy_time + (cpu_phase s).cpu_idle_time + idle_dispatch s
      = s.cpu_busy_time + s.cpu_idle_time + 1 := by
  unfold cpu_phase idle_dispatch
  cases ha : s.active with
  | none =>
    cases hq : s.rtr_queue with
    | nil =>
      have h : (set_next_job s).1 = none := (set_next_job_none_iff s).2 hq
      simp [h, set_next_job_frame]
      ring
    | cons n rest =>
      have h : (set_next_job s).1 ≠ none := fun h => by
        rw [set_next_job_none_iff] at h; simp [hq] at h
      simp [h, set_next_job_frame]
  | some a =>
    simp only []
    split_ifs <;> simp [set_next_job_frame] <;> ring

theorem tick_frame (s : Sim) :
    (tick s).alg_id = s.alg_id ∧ (tick s).jobs = s.jobs ∧ (tick s).num_jobs = s.num_jobs ∧
    (tick s).time = s.time := by
  obtain ⟨h1, h2, _, h4, h5, _, _⟩ :=
    scan_fold_frame ((cpu_phase s).jobs.take (cpu_phase s).num_jobs.toNat) (cpu_phase s)
  obtain ⟨g1, g2, g3, _, g5⟩ := cpu_phase_frame s
  exact ⟨h1.trans g1, h2.trans g2, h4.trans g3, h5.trans g5⟩

theorem tick_counters (s : Sim) :
    (tick s).cpu_busy_time + (tick s).cpu_idle_time + idle_dispatch s
      = s.cpu_busy_time + s.cpu_idle_time + 1 := by
  obtain ⟨_, _, _, _, _, h6, h7⟩ :=
    scan_fold_frame ((cpu_phase s).jobs.take (cpu_phase s).num_jobs.toNat) (cpu_phase s)
  unfold tick scan
  rw [h6, h7]
  exact cpu_phase_counters s

theorem idle_dispatch_nonneg (s : Sim) : 0 ≤ idle_dispatch s := by
  unfold idle_dispatch
  split <;> decide

theorem idle_dispatch_ticks_nonneg (fuel : Nat) : ∀ s, 0 ≤ idle_dispatch_ticks fuel s := by
  induction fuel with
  | zero => intro s; simp [idle_dispatch_ticks]
  | succ n ih =>
    intro s
    simp only [idle_dispatch_ticks]
    split_ifs
    · exact add_nonneg (idle_dispatch_nonneg s) (ih _)
    · simpa using idle_dispatch_nonneg s

theorem run_loop_counters (fuel : Nat) : ∀ (s s' : Sim), run_loop fuel s = some s' →
    s'.cpu_busy_time + s'.cpu_idle_time + idle_dispatch_ticks fuel s - s'.time
      = s.cpu_busy_time + s.cpu_idle_time + 1 - s.time := by
  induction fuel with
  | zero => intro s s' h; simp [run_loop] at h
  | succ n ih =>
    intro s s' h
    simp only [run_loop] at h
    simp only [idle_dispatch_ticks]
    have hc := tick_counters s
    have ht := (tick_frame s).2.2.2
    split_ifs at h with hfin
    · have := ih _ _ h
      simp only [hfin, if_true]
      simp only [] at this
      linarith
    · simp only [Option.some.injEq] at h
      subst h
      simp only [hfin, if_false]
      linarith

theorem load_line_frame (s : Sim) (r : record) :
    (load_line s r).alg_id = s.alg_id ∧ (load_line s r).active = s.active ∧
    (load_line s r).finished_jobs = s.finished_jobs ∧ (load_line s r).time = s.time ∧
    (load_line s r).cpu_busy_time = s.cpu_busy_time ∧
    (load_line s r).cpu_idle_time = s.cpu_idle_time := by
  simp [load_line]

theorem load_fold_frame (recs : List record) : ∀ (s : Sim),
    (recs.foldl load_line s).alg_id = s.alg_id ∧ (recs.foldl load_line s).active = s.active ∧
    (recs.foldl load_line s).finished_jobs = s.finished_jobs ∧
    (recs.foldl load_line s).time = s.time ∧
    (recs.foldl load_line s).cpu_busy_time = s.cpu_busy_time ∧
    (recs.foldl load_line s).cpu_idle_time = s.cpu_idle_time := by
  induction recs with
  | nil => intro s; simp
  | cons r recs ih =>
    intro s
    obtain ⟨h1, h2, h3, h4, h5, h6⟩ := ih (load_line s r)
    obtain ⟨g1, g2, g3, g4, g5, g6⟩ := load_line_frame s r
    simp only [List.foldl_cons]
    exact ⟨h1.trans g1, h2.trans g2, h3.trans g3, h4.trans g4, h5.trans g5, h6.trans g6⟩

theorem load_jobs_frame (alg_id : algs) (recs : List record) :
    (load_jobs alg_id recs).alg_id = alg_id ∧ (load_jobs alg_id recs).active = none ∧
    (load_jobs alg_id recs).finished_jobs = 0 ∧ (load_jobs alg_id recs).time = 1 ∧
    (load_jobs alg_id recs).cpu_busy_time = 0 ∧ (load_jobs alg_id recs).cpu_idle_time = 0 := by
  simpa [load_jobs, init] using load_fold_frame recs (init alg_id)

/-- C4, as stated, fails: one job with CPU burst 1, IO burst 0 and one repetition
under FCFS.  The run ends at tick 2 with `cpu_busy_time = 1` and
`cpu_idle_time = 0`: tick 1, on which the job is dispatched onto the free CPU, is
counted neither as busy nor as idle. -/
theorem busy_idle_counterexample :
    (run_loop 2 (load_jobs algs.FCFS [unit_record])).map
      (fun s => (s.cpu_busy_time, s.cpu_idle_time, s.time)) = some (1, 0, 2) ∧
    (run_loop 2 (load_jobs algs.FCFS [unit_record])).map
      (fun s => decide (s.cpu_busy_time + s.cpu_idle_time = s.time)) = some false := by
  decide

/-- C4, amended: when the run loop terminates, `cpu_busy_time + cpu_idle_time` plus
the number of ticks that started with no active job and a non-empty ready queue
equals the final value of `time`; so `cpu_busy_time + cpu_idle_time` is at most
the final value of `time`. -/
theorem busy_idle_partition (alg_id : algs) (recs : List record) (fuel : Nat) (s' : Sim)
    (h : run_loop fuel (load_jobs alg_id recs) = some s') :
    s'.cpu_busy_time + s'.cpu_idle_time
        + idle_dispatch_ticks fuel (load_jobs alg_id recs) = s'.time ∧
    s'.cpu_busy_time + s'.cpu_idle_time ≤ s'.time := by
  have hc := run_loop_counters fuel _ _ h
  obtain ⟨_, _, _, h4, h5, h6⟩ := load_jobs_frame alg_id recs
  rw [h4, h5, h6] at hc
  have hn := idle_dispatch_ticks_nonneg fuel (load_jobs alg_id recs)
  constructor <;> linarith

/-- Witness of C4 (amended): the run of the sample job under FCFS ends within 6
iterations. -/
theorem busy_idle_partition_witness :
    run_loop 6 (load_jobs algs.FCFS [sample_record])
      = some (tick { tick { tick { tick { tick { tick (load_jobs algs.FCFS [sample_record])
          with time := 2 } with time := 3 } with time := 4 } with time := 5 }
          with time := 6 }) ∧
    (tick { tick { tick { tick { tick { tick (load_jobs algs.FCFS [sample_record])
          with time := 2 } with time := 3 } with time := 4 } with time := 5 }
          with time := 6 }).cpu_busy_time
      + (tick { tick { tick { tick { tick { tick (load_jobs algs.FCFS [sample_record])
          with time := 2 } with time := 3 } with time := 4 } with time := 5 }
          with time := 6 }).cpu_idle_time
      ≤ (tick { tick { tick { tick { tick { tick (load_jobs algs.FCFS [sample_record])
          with time := 2 } with time := 3 } with time := 4 } with time := 5 }
          with time := 6 }).time :=
  ⟨rfl, (busy_idle_partition algs.FCFS [sample_record] 6 _ rfl).2⟩

/-! ## The invariant of the run loop, termination and the `reps` count -/

theorem sum_update_not_mem (f : job_t → Int) (h : Nat → job_t) (a : Nat) (j : job_t) :
    ∀ (l : List Nat), a ∉ l →
      (l.map fun p => f (Function.update h a j p)).sum = (l.map fun p => f (h p)).sum := by
  intro l hl
  congr 1
  apply List.map_congr_left
  intro p hp
  have : p ≠ a := fun e => hl (e ▸ hp)
  simp [Function.update_noteq this]

theorem sum_update (f : job_t → Int) (h : Nat → job_t) (a : Nat) (j : job_t) :
    ∀ (l : List Nat), l.Nodup → a ∈ l →
      (l.map fun p => f (Function.update h a j p)).sum
        = (l.map fun p => f (h p)).sum - f (h a) + f j := by
  intro l
  induction l with
  | nil => intro _ h; simp at h
  | cons x l ih =>
    intro hnd hmem
    obtain ⟨hx, hnd'⟩ := List.nodup_cons.1 hnd
    simp only [List.map_cons, List.sum_cons]
    by_cases hxa : x = a
    · subst hxa
      rw [sum_update_not_mem f h x j l hx]
      simp
      ring
    · have hal : a ∈ l := by
        rcases List.mem_cons.1 hmem with e | e
        · exact absurd e.symm hxa
        · exact e
      rw [ih hnd' hal, Function.update_noteq hxa]
      ring

theorem push_jobs_perm (alg_id : algs) (time : Int) (heap : Nat → job_t) (q : List node_t)
    (j : Nat) : ((push alg_id time heap q j).map node_t.job).Perm (j :: q.map node_t.job) := by
  obtain ⟨pre, post, h1, h2, _, _⟩ := push_decomp alg_id time heap q j
  rw [h2, h1]
  simp only [List.map_append, List.map_cons]
  exact List.perm_middle

theorem QInv_keep {jobs : List Nat} {q : List node_t} {h : Nat → job_t} {fin : Int}
    (hi : QInv jobs q h fin) (a : Nat) (j : job_t)
    (h1 : j.state = states.RTR ↔ (h a).state = states.RTR)
    (h2 : j.state = states.DONE ↔ (h a).state = states.DONE) :
    QInv jobs q (Function.update h a j) fin := by
  obtain ⟨i1, i2, i3, i4⟩ := hi
  refine ⟨i1, i2, ?_, ?_⟩
  · intro p
    rw [i3 p]
    by_cases hp : p = a
    · subst hp; simp [h1]
    · simp [Function.update_noteq hp]
  · rw [i4]
    congr 1
    apply List.map_congr_left
    intro p _
    by_cases hp : p = a
    · subst hp; simp [done_ind, h2]
    · simp [Function.update_noteq hp]

theorem QInv_push {jobs : List Nat} {q : List node_t} {h : Nat → job_t} {fin : Int}
    (hi : QInv jobs q h fin) (a : Nat) (j : job_t) (ha : a ∈ jobs)
    (h1 : (h a).state ≠ states.RTR) (h2 : (h a).state ≠ states.DONE)
    (h3 : j.state = states.RTR) (alg_id : algs) (time : Int) (h' : Nat → job_t) :
    QInv jobs (push alg_id time h' q a) (Function.update h a j) fin := by
  obtain ⟨i1, i2, i3, i4⟩ := hi
  have hperm := push_jobs_perm alg_id time h' q a
  have haq : a ∉ q.map node_t.job := fun hm => h1 ((i3 a).1 hm).2
  refine ⟨i1, ?_, ?_, ?_⟩
  · exact (List.Perm.nodup_iff hperm).2 (List.nodup_cons.2 ⟨haq, i2⟩)
  · intro p
    rw [List.Perm.mem_iff hperm, List.mem_cons, i3 p]
    by_cases hp : p = a
    · subst hp; simp [h3, ha]
    · simp [Function.update_noteq hp, hp]
  · rw [i4]
    congr 1
    apply List.map_congr_left
    intro p _
    by_cases hp : p = a
    · subst hp; simp [done_ind, h2, h3]
    · simp [Function.update_noteq hp]

theorem QInv_pop {jobs : List Nat} {n : node_t} {rest : List node_t} {h : Nat → job_t}
    {fin : Int} (hi : QInv jobs (n :: rest) h fin) (j : job_t)
    (h1 : j.state ≠ states.RTR) (h2 : j.state ≠ states.DONE) :
    QInv jobs rest (Function.update h n.job j) fin := by
  obtain ⟨i1, i2, i3, i4⟩ := hi
  simp only [List.map_cons, List.nodup_cons] at i2
  have hn := (i3 n.job).1 (by simp)
  refine ⟨i1, i2.2, ?_, ?_⟩
  · intro p
    by_cases hp : p = n.job
    · subst hp; simp [h1, i2.1]
    · have := i3 p
      simp only [List.map_cons, List.mem_cons, hp, false_or] at this
      simp [Function.update_noteq hp, this]
  · rw [i4]
    congr 1
    apply List.map_congr_left
    intro p _
    by_cases hp : p = n.job
    · subst hp; simp [done_ind, h2, hn.2]
    · simp [Function.update_noteq hp]

theorem QInv_done {jobs : List Nat} {q : List node_t} {h : Nat → job_t} {fin : Int}
    (hi : QInv jobs q h fin) (a : Nat) (j : job_t) (ha : a ∈ jobs)
    (h1 : (h a).state ≠ states.RTR) (h2 : (h a).state ≠ states.DONE)
    (h3 : j.state = states.DONE) :
    QInv jobs q (Function.update h a j) (fin + 1) := by
  obtain ⟨i1, i2, i3, i4⟩ := hi
  refine ⟨i1, i2, ?_, ?_⟩
  · intro p
    rw [i3 p]
    by_cases hp : p = a
    · subst hp; simp [h1, h3]
    · simp [Function.update_noteq hp]
  · rw [i4, sum_update done_ind h a j jobs i1 ha]
    simp [done_ind, h2, h3]

theorem set_next_job_nil (s : Sim) (hq : s.rtr_queue = []) :
    (set_next_job s).1 = none ∧ (set_next_job s).2.heap = s.heap ∧
    (set_next_job s).2.rtr_queue = [] := by
  simp [set_next_job, pop, hq]

theorem set_next_job_cons (s : Sim) (n : node_t) (rest : List node_t)
    (hq : s.rtr_queue = n :: rest) :
    (set_next_job s).1 = some n.job ∧
    (set_next_job s).2.heap
      = Function.update s.heap n.job (dispatched s.alg_id s.time (s.heap n.job)) ∧
    (set_next_job s).2.rtr_queue = rest := by
  refine ⟨?_, ?_, ?_⟩ <;> simp only [set_next_job, pop, hq]
  simp only [dispatched, RR_QUANTUM_LENGTH]
  split_ifs <;> rfl

theorem cpu_phase_dispatch (s d : Sim) (hd : dispatch_state s = some d) :
    (cpu_phase s).heap = (set_next_job d).2.heap ∧
    (cpu_phase s).rtr_queue = (set_next_job d).2.rtr_queue ∧
    (cpu_phase s).active = (set_next_job d).1 := by
  unfold dispatch_state at hd
  unfold cpu_phase
  cases ha : s.active with
  | none =>
    simp only [ha, Option.some.injEq] at hd
    subst hd
    simp only []
    split_ifs <;> simp
  | some a =>
    simp only [ha] at hd
    simp only []
    split_ifs at hd with h1 h2
    · simp only [Option.some.injEq] at hd
      subst hd
      simp [h1]
    · simp only [Option.some.injEq] at hd
      subst hd
      simp [h1, h2]

theorem cpu_phase_no_dispatch (s : Sim) (hd : dispatch_state s = none) :
    ∃ a, s.active = some a ∧
      (s.heap a).burst_countdown - 1 ≠ 0 ∧
      (cpu_phase s).heap = Function.update s.heap a
        { s.heap a with burst_countdown := (s.heap a).burst_countdown - 1,
                        quant_countdown := (s.heap a).quant_countdown - 1 } ∧
      (cpu_phase s).rtr_queue = s.rtr_queue ∧ (cpu_phase s).active = some a := by
  unfold dispatch_state at hd
  unfold cpu_phase
  cases ha : s.active with
  | none => simp [ha] at hd
  | some a =>
    simp only [ha] at hd
    split_ifs at hd with h1 h2
    refine ⟨a, rfl, h1, ?_⟩
    simp [h1, h2, ha]

/-- What holds of the state in which `set_next_job` is called. -/
theorem dispatch_state_inv (s d : Sim) (hi : Inv s) (hd : dispatch_state s = some d) :
    QInv d.jobs d.rtr_queue d.heap d.finished_jobs ∧ (d.jobs.length : Int) = d.num_jobs ∧
    (∀ p ∈ d.jobs, (d.heap p).state ≠ states.CPU) ∧
    d.jobs = s.jobs ∧ d.num_jobs = s.num_jobs ∧ d.finished_jobs = s.finished_jobs ∧
    d.alg_id = s.alg_id ∧ d.time = s.time := by
  obtain ⟨hq, hl, hact⟩ := hi
  unfold dispatch_state at hd
  cases ha : s.active with
  | none =>
    simp only [ha, Option.some.injEq] at hd
    subst hd
    refine ⟨hq, hl, ?_, rfl, rfl, rfl, rfl, rfl⟩
    intro p hp hc
    have := (hact p).2 ⟨hp, hc⟩
    simp [ha] at this
  | some a =>
    have haj := (hact a).1 ha
    have huniq : ∀ p ∈ s.jobs, (s.heap p).state = states.CPU → p = a := by
      intro p hp hc
      have := (hact p).2 ⟨hp, hc⟩
      rw [ha] at this
      exact (Option.some.inj this).symm
    simp only [ha] at hd
    split_ifs at hd with h1 h2
    · simp only [Option.some.injEq] at hd
      subst hd
      refine ⟨?_, hl, ?_, rfl, rfl, rfl, rfl, rfl⟩
      · exact QInv_keep hq a _ (by simp [haj.2]) (by simp [haj.2])
      · intro p hp
        by_cases hpa : p = a
        · subst hpa; simp
        · simp only [Function.update_noteq hpa]
          exact fun hc => hpa (huniq p hp hc)
    · simp only [Option.some.injEq] at hd
      subst hd
      refine ⟨?_, hl, ?_, rfl, rfl, rfl, rfl, rfl⟩
      · exact QInv_push hq a _ haj.1 (by simp [haj.2]) (by simp [haj.2]) rfl _ _ _
      · intro p hp
        by_cases hpa : p = a
        · subst hpa; simp
        · simp only [Function.update_noteq hpa]
          exact fun hc => hpa (huniq p hp hc)

theorem dispatched_state (alg_id : algs) (time : Int) (j : job_t) :
    (dispatched alg_id time j).state = states.CPU := rfl

/-- Calling `set_next_job` on a state without a job on the CPU and storing the result
in `active` gives a state that satisfies the invariant. -/
theorem dispatch_inv (d : Sim) (hq : QInv d.jobs d.rtr_queue d.heap d.finished_jobs)
    (hn : ∀ p ∈ d.jobs, (d.heap p).state ≠ states.CPU) :
    QInv d.jobs (set_next_job d).2.rtr_queue (set_next_job d).2.heap d.finished_jobs ∧
    ∀ p, (set_next_job d).1 = some p ↔
      p ∈ d.jobs ∧ ((set_next_job d).2.heap p).state = states.CPU := by
  cases hqq : d.rtr_queue with
  | nil =>
    obtain ⟨h1, h2, h3⟩ := set_next_job_nil d hqq
    rw [h1, h2, h3, ← hqq]
    refine ⟨hq, ?_⟩
    intro p
    constructor
    · intro h; cases h
    · rintro ⟨hp, hc⟩; exact absurd hc (hn p hp)
  | cons n rest =>
    obtain ⟨h1, h2, h3⟩ := set_next_job_cons d n rest hqq
    rw [h1, h2, h3]
    rw [hqq] at hq
    have hnj := (hq.2.2.1 n.job).1 (by simp)
    refine ⟨QInv_pop hq _ (by simp [dispatched_state]) (by simp [dispatched_state]), ?_⟩
    intro p
    by_cases hp : p = n.job
    · subst hp
      simp [dispatched_state, hnj.1]
    · simp only [Function.update_noteq hp, Option.some.injEq]
      constructor
      · intro h; exact absurd h.symm hp
      · rintro ⟨hpj, hc⟩; exact absurd hc (hn p hpj)

theorem cpu_phase_inv (s : Sim) (hi : Inv s) : Inv (cpu_phase s) := by
  obtain ⟨f1, f2, f3, f4, f5⟩ := cpu_phase_frame s
  cases hd : dispatch_state s with
  | some d =>
    obtain ⟨c1, c2, c3⟩ := cpu_phase_dispatch s d hd
    obtain ⟨d1, d2, d3, d4, d5, d6, _, _⟩ := dispatch_state_inv s d hi hd
    obtain ⟨e1, e2⟩ := dispatch_inv d d1 d3
    unfold Inv
    rw [c1, c2, c3, f2, f3, f4, ← d4, ← d6]
    exact ⟨e1, d5 ▸ d2, e2⟩
  | none =>
    obtain ⟨a, ha, _, c1, c2, c3⟩ := cpu_phase_no_dispatch s hd
    obtain ⟨hq, hl, hact⟩ := hi
    unfold Inv
    rw [c1, c2, c3, f2, f3, f4]
    refine ⟨QInv_keep hq a _ (by simp) (by simp), hl, ?_⟩
    intro p
    rw [← ha, hact p]
    by_cases hp : p = a
    · subst hp; simp
    · simp [Function.update_noteq hp]

theorem scan_job_cases (s : Sim) (p : Nat) :
    ((s.heap p).state = states.IO_ ∧ (s.heap p).burst_countdown ≠ 0 ∧
      (scan_job s p).heap = Function.update s.heap p
        { s.heap p with burst_countdown := (s.heap p).burst_countdown - 1 } ∧
      (scan_job s p).rtr_queue = s.rtr_queue ∧
      (scan_job s p).finished_jobs = s.finished_jobs) ∨
    ((s.heap p).state = states.IO_ ∧ (s.heap p).burst_countdown = 0 ∧ (s.heap p).reps = 0 ∧
      (scan_job s p).heap = Function.update s.heap p
        { s.heap p with burst_countdown := -1, state := states.DONE,
                        end_time := s.time } ∧
      (scan_job s p).rtr_queue = s.rtr_queue ∧
      (scan_job s p).finished_jobs = s.finished_jobs + 1) ∨
    ((s.heap p).state = states.IO_ ∧ (s.heap p).burst_countdown = 0 ∧ (s.heap p).reps ≠ 0 ∧
      (scan_job s p).heap = Function.update s.heap p
        { s.heap p with burst_countdown := -1, state := states.RTR,
                        wait_time := (s.heap p).wait_time + 1 } ∧
      (scan_job s p).rtr_queue = push s.alg_id s.time
        (Function.update s.heap p
          { s.heap p with burst_countdown := -1, state := states.RTR }) s.rtr_queue p ∧
      (scan_job s p).finished_jobs = s.finished_jobs) ∨
    ((s.heap p).state = states.RTR ∧
      (scan_job s p).heap = Function.update s.heap p
        { s.heap p with wait_time := (s.heap p).wait_time + 1 } ∧
      (scan_job s p).rtr_queue = s.rtr_queue ∧
      (scan_job s p).finished_jobs = s.finished_jobs) ∨
    ((s.heap p).state ≠ states.IO_ ∧ (s.heap p).state ≠ states.RTR ∧
      (scan_job s p).heap = s.heap ∧
      (scan_job s p).rtr_queue = s.rtr_queue ∧
      (scan_job s p).finished_jobs = s.finished_jobs) := by
  unfold scan_job
  by_cases hio : (s.heap p).state = states.IO_
  · by_cases hb : (s.heap p).burst_countdown = 0
    · by_cases hr : (s.heap p).reps = 0
      · right; left
        simp [hio, hb, hr]
      · right; right; left
        simp [hio, hb, hr]
    · left
      simp [hio, hb]
  · by_cases hr : (s.heap p).state = states.RTR
    · right; right; right; left
      simp [hio, hr]
    · right; right; right; right
      simp [hio, hr]

theorem scan_job_inv (s : Sim) (p : Nat) (hi : Inv s) (hp : p ∈ s.jobs) :
    Inv (scan_job s p) := by
  obtain ⟨_, f2, f3, f4, _, _, _⟩ := scan_job_frame s p
  obtain ⟨hq, hl, hact⟩ := hi
  unfold Inv
  rw [f2, f3, f4]
  rcases scan_job_cases s p with ⟨h1, _, c1, c2, c3⟩ | ⟨h1, _, _, c1, c2, c3⟩ |
      ⟨h1, _, _, c1, c2, c3⟩ | ⟨h1, c1, c2, c3⟩ | ⟨h1, h2, c1, c2, c3⟩
  · rw [c1, c2, c3]
    refine ⟨QInv_keep hq p _ (by simp) (by simp), hl, ?_⟩
    intro x
    rw [hact x]
    by_cases hx : x = p
    · subst hx; simp
    · simp [Function.update_noteq hx]
  · rw [c1, c2, c3]
    refine ⟨QInv_done hq p _ hp (by simp [h1]) (by simp [h1]) rfl, hl, ?_⟩
    intro x
    rw [hact x]
    by_cases hx : x = p
    · subst hx; simp [h1]
    · simp [Function.update_noteq hx]
  · rw [c1, c2, c3]
    refine ⟨QInv_push hq p _ hp (by simp [h1]) (by simp [h1]) rfl _ _ _, hl, ?_⟩
    intro x
    rw [hact x]
    by_cases hx : x = p
    · subst hx; simp [h1]
    · simp [Function.update_noteq hx]
  · rw [c1, c2, c3]
    refine ⟨QInv_keep hq p _ (by simp) (by simp), hl, ?_⟩
    intro x
    rw [hact x]
    by_cases hx : x = p
    · subst hx; simp
    · simp [Function.update_noteq hx]
  · rw [c1, c2, c3]
    exact ⟨hq, hl, hact⟩

theorem scan_fold_inv (l : List Nat) : ∀ (s : Sim), Inv s → (∀ p ∈ l, p ∈ s.jobs) →
    Inv (l.foldl scan_job s) := by
  induction l with
  | nil => intro s hi _; exact hi
  | cons p l ih =>
    intro s hi hl
    simp only [List.foldl_cons]
    apply ih _ (scan_job_inv s p hi (hl p (List.mem_cons_self _ _)))
    intro x hx
    rw [(scan_job_frame s p).2.1]
    exact hl x (List.mem_cons_of_mem _ hx)

theorem tick_inv (s : Sim) (hi : Inv s) : Inv (tick s) := by
  unfold tick scan
  apply scan_fold_inv _ _ (cpu_phase_inv s hi)
  intro p hp
  exact List.mem_of_mem_take hp

theorem Inv_time (s : Sim) (t : Int) (hi : Inv s) : Inv { s with time := t } := hi

theorem load_line_spec (s : Sim) (r : record) (hs : LoadInv s) :
    LoadInv (load_line s r) ∧ (load_line s r).num_jobs = s.num_jobs + 1 ∧
    (∀ P : job_t → Prop, P (job_of r) → (∀ p < s.num_jobs.toNat, P (s.heap p)) →
      ∀ p < (load_line s r).num_jobs.toNat, P ((load_line s r).heap p)) ∧
    (∀ f : job_t → Int,
      ((load_line s r).rtr_queue.map fun n => f ((load_line s r).heap n.job)).sum
        = (s.rtr_queue.map fun n => f (s.heap n.job)).sum + f (job_of r)) := by
  obtain ⟨h1, h2, h3, h4, h5, h6⟩ := hs
  have hperm := push_jobs_perm s.alg_id s.time
      (Function.update s.heap s.num_jobs.toNat (job_of r)) s.rtr_queue s.num_jobs.toNat
  have hnew : s.num_jobs.toNat ∉ s.rtr_queue.map node_t.job := by
    rw [h2]; exact lt_irrefl _
  have hsucc : (s.num_jobs + 1).toNat = s.num_jobs.toNat + 1 := by omega
  refine ⟨⟨?_, ?_, ?_, ?_, ?_, ?_⟩, rfl, ?_, ?_⟩
  · simp only [load_line]
    exact (List.Perm.nodup_iff hperm).2 (List.nodup_cons.2 ⟨hnew, h1⟩)
  · intro p
    simp only [load_line]
    rw [List.Perm.mem_iff hperm, List.mem_cons, h2, hsucc]
    omega
  · simp only [load_line]; omega
  · simp only [load_line]
    have := hperm.length_eq
    simp only [List.length_map, List.length_cons] at this
    rw [this]; push_cast; omega
  · intro p
    simp only [load_line]
    by_cases hp : p = s.num_jobs.toNat
    · subst hp; simp [job_of, calloc_job]
    · simp [Function.update_noteq hp, h5]
  · intro p
    simp only [load_line]
    by_cases hp : p = s.num_jobs.toNat
    · subst hp; simp [job_of, calloc_job]
    · simp [Function.update_noteq hp, h6]
  · intro P hr hP p hp
    simp only [load_line] at hp ⊢
    rw [hsucc] at hp
    by_cases hpn : p = s.num_jobs.toNat
    · subst hpn; simpa using hr
    · simp only [Function.update_noteq hpn]
      exact hP p (by omega)
  · intro f
    simp only [load_line]
    have e1 : ((push s.alg_id s.time (Function.update s.heap s.num_jobs.toNat (job_of r))
          s.rtr_queue s.num_jobs.toNat).map
          fun n => f (Function.update s.heap s.num_jobs.toNat (job_of r) n.job))
        = ((push s.alg_id s.time (Function.update s.heap s.num_jobs.toNat (job_of r))
          s.rtr_queue s.num_jobs.toNat).map node_t.job).map
          fun p => f (Function.update s.heap s.num_jobs.toNat (job_of r) p) := by
      simp [Function.comp_def]
    have e2 : (s.rtr_queue.map fun n => f (s.heap n.job))
        = (s.rtr_queue.map node_t.job).map fun p => f (s.heap p) := by
      simp [Function.comp_def]
    rw [e1, e2, (hperm.map _).sum_eq, List.map_cons, List.sum_cons,
      sum_update_not_mem f s.heap _ _ _ hnew]
    simp
    ring

theorem load_fold_spec (recs : List record) : ∀ (s : Sim), LoadInv s →
    LoadInv (recs.foldl load_line s) ∧
    (recs.foldl load_line s).num_jobs = s.num_jobs + recs.length ∧
    (∀ P : job_t → Prop, (∀ r ∈ recs, P (job_of r)) → (∀ p < s.num_jobs.toNat, P (s.heap p)) →
      ∀ p < (recs.foldl load_line s).num_jobs.toNat, P ((recs.foldl load_line s).heap p)) ∧
    (∀ f : job_t → Int,
      ((recs.foldl load_line s).rtr_queue.map
          fun n => f ((recs.foldl load_line s).heap n.job)).sum
        = (s.rtr_queue.map fun n => f (s.heap n.job)).sum
          + (recs.map fun r => f (job_of r)).sum) := by
  induction recs with
  | nil => intro s hs; exact ⟨hs, by simp, fun P _ h => h, by simp⟩
  | cons r recs ih =>
    intro s hs
    obtain ⟨a1, a2, a3, a4⟩ := load_line_spec s r hs
    obtain ⟨b1, b2, b3, b4⟩ := ih (load_line s r) a1
    simp only [List.foldl_cons]
    refine ⟨b1, ?_, ?_, ?_⟩
    · rw [b2, a2]; simp only [List.length_cons]; push_cast; ring
    · intro P hr hP
      exact b3 P (fun r' hr' => hr r' (List.mem_cons_of_mem _ hr'))
        (a3 P (hr r (List.mem_cons_self _ _)) hP)
    · intro f
      rw [b4 f, a4 f]
      simp only [List.map_cons, List.sum_cons]
      ring

theorem init_LoadInv (alg_id : algs) : LoadInv (init alg_id) := by
  simp [LoadInv, init, calloc_job]

/-- What `load_jobs` establishes. -/
theorem load_jobs_spec (alg_id : algs) (recs : List record) :
    Inv (load_jobs alg_id recs) ∧ (load_jobs alg_id recs).num_jobs = recs.length ∧
    (∀ p, p ∈ (load_jobs alg_id recs).jobs ↔ p < recs.length) ∧
    (∀ P : job_t → Prop, (∀ r ∈ recs, P (job_of r)) →
      ∀ p ∈ (load_jobs alg_id recs).jobs, P ((load_jobs alg_id recs).heap p)) ∧
    (∀ f : job_t → Int,
      ((load_jobs alg_id recs).jobs.map fun p => f ((load_jobs alg_id recs).heap p)).sum
        = (recs.map fun r => f (job_of r)).sum) := by
  obtain ⟨⟨h1, h2, h3, h4, h5, h6⟩, k2, k3, k4⟩ :=
    load_fold_spec recs (init alg_id) (init_LoadInv alg_id)
  obtain ⟨_, g2, g3, _, _, _⟩ := load_fold_frame recs (init alg_id)
  have g2' : (recs.foldl load_line (init alg_id)).active = none := g2
  have g3' : (recs.foldl load_line (init alg_id)).finished_jobs = 0 := g3
  have k2' : (recs.foldl load_line (init alg_id)).num_jobs = recs.length := by
    rw [k2]; simp [init]
  have k3' : ∀ P : job_t → Prop, (∀ r ∈ recs, P (job_of r)) →
      ∀ p < (recs.foldl load_line (init alg_id)).num_jobs.toNat,
        P ((recs.foldl load_line (init alg_id)).heap p) :=
    fun P hP => k3 P hP (by simp [init])
  have k4' : ∀ f : job_t → Int,
      ((recs.foldl load_line (init alg_id)).rtr_queue.map
          fun n => f ((recs.foldl load_line (init alg_id)).heap n.job)).sum
        = (recs.map fun r => f (job_of r)).sum := by
    intro f; rw [k4 f]; simp [init]
  unfold load_jobs
  generalize recs.foldl load_line (init alg_id) = S at h1 h2 h3 h4 h5 g2' g3' k2' k3' k4'
  refine ⟨⟨⟨h1, h1, ?_, ?_⟩, ?_, ?_⟩, k2', ?_, ?_, ?_⟩
  · intro p; simp [h5]
  · simp only [g3']
    symm
    apply List.sum_eq_zero
    intro x hx
    obtain ⟨p, _, rfl⟩ := List.mem_map.1 hx
    simp [done_ind, h5]
  · simpa using h4
  · intro p
    simp [g2', h5]
  · intro p
    simp only []
    rw [h2 p, k2']
    simp
  · intro P hP p hp
    simp only [] at hp ⊢
    exact k3' P hP p ((h2 p).1 hp)
  · intro f
    simp only []
    rw [← k4' f]
    simp [Function.comp_def]

theorem load_jobs_inv (alg_id : algs) (recs : List record) : Inv (load_jobs alg_id recs) :=
  (load_jobs_spec alg_id recs).1

theorem TickEnd_inv (s0 s : Sim) (h0 : Inv s0) (h : TickEnd s0 s) : Inv s := by
  induction h with
  | first => exact tick_inv s0 h0
  | next s _ _ ih => exact tick_inv _ (Inv_time s _ ih)

theorem remaining_pos (j : job_t) (hj : JobOK j) (hs : j.state ≠ states.DONE) :
    0 < remaining j := by
  obtain ⟨h1, h2, h3, h4, h5, h6⟩ := hj
  have hk : 0 ≤ j.reps * cycle_cost j :=
    mul_nonneg h3 (by unfold cycle_cost; linarith)
  unfold remaining
  cases hst : j.state with
  | DONE => exact absurd hst hs
  | IO_ => have := h5 hst; simp only []; linarith
  | CPU => have := h4 hst; simp only []; linarith
  | RTR =>
    simp only []
    split_ifs with hb
    · have := h6 hst hb
      have : cycle_cost j ≤ j.reps * cycle_cost j := by
        have hc : 0 ≤ cycle_cost j := by unfold cycle_cost; linarith
        nlinarith
      unfold cycle_cost at this ⊢
      linarith
    · linarith

theorem remaining_nonneg (j : job_t) (hj : JobOK j) : 0 ≤ remaining j := by
  by_cases hs : j.state = states.DONE
  · simp [remaining, hs]
  · exact le_of_lt (remaining_pos j hj hs)

theorem rem_dispatched (alg_id : algs) (time : Int) (j : job_t) (hj : JobOK j)
    (hs : j.state = states.RTR) :
    JobOK (dispatched alg_id time j) ∧ remaining (dispatched alg_id time j) < remaining j := by
  obtain ⟨h1, h2, h3, h4, h5, h6⟩ := hj
  by_cases hb : j.burst_countdown ≤ 0
  · have := h6 hs hb
    refine ⟨⟨h1, h2, ?_, ?_, ?_, ?_⟩, ?_⟩
    · simp only [dispatched, hb, if_true]; linarith
    · intro _; simp only [dispatched, hb, if_true]; exact h1
    · intro h; simp [dispatched] at h
    · intro h; simp [dispatched] at h
    · simp only [remaining, dispatched, hb, if_true, hs, cycle_cost]
      ring_nf
      linarith
  · refine ⟨⟨h1, h2, ?_, ?_, ?_, ?_⟩, ?_⟩
    · simp only [dispatched, hb, if_false]; exact h3
    · intro _; simp only [dispatched, hb, if_false]; linarith
    · intro h; simp [dispatched] at h
    · intro h; simp [dispatched] at h
    · simp only [remaining, dispatched, hb, if_false, hs, cycle_cost]
      linarith

theorem rem_cpu_tick (j : job_t) (hj : JobOK j) (hs : j.state = states.CPU)
    (hb : j.burst_countdown - 1 ≠ 0) (q : Int) :
    JobOK { j with burst_countdown := j.burst_countdown - 1, quant_countdown := q } ∧
    remaining { j with burst_countdown := j.burst_countdown - 1, quant_countdown := q }
      < remaining j := by
  obtain ⟨h1, h2, h3, h4, h5, h6⟩ := hj
  have := h4 hs
  refine ⟨⟨h1, h2, h3, ?_, ?_, ?_⟩, ?_⟩
  · intro _; simp only []; omega
  · intro h; simp [hs] at h
  · intro h; simp [hs] at h
  · simp only [remaining, hs, cycle_cost]; linarith

theorem rem_cpu_io (j : job_t) (hj : JobOK j) (hs : j.state = states.CPU)
    (hb : j.burst_countdown - 1 = 0) (q : Int) :
    JobOK { j with burst_countdown := j.io_burst_length, quant_countdown := q,
                   state := states.IO_ } ∧
    remaining { j with burst_countdown := j.io_burst_length, quant_countdown := q,
                       state := states.IO_ } < remaining j := by
  obtain ⟨h1, h2, h3, h4, h5, h6⟩ := hj
  refine ⟨⟨h1, h2, h3, ?_, ?_, ?_⟩, ?_⟩
  · intro h; simp at h
  · intro _; exact h2
  · intro h; simp at h
  · simp only [remaining, hs, cycle_cost]; linarith

theorem rem_preempt (j : job_t) (hj : JobOK j) (hs : j.state = states.CPU)
    (hb : j.burst_countdown - 1 ≠ 0) (q : Int) :
    JobOK { j with burst_countdown := j.burst_countdown - 1, quant_countdown := q,
                   state := states.RTR } ∧
    remaining { j with burst_countdown := j.burst_countdown - 1, quant_countdown := q,
                       state := states.RTR } < remaining j := by
  obtain ⟨h1, h2, h3, h4, h5, h6⟩ := hj
  have := h4 hs
  refine ⟨⟨h1, h2, h3, ?_, ?_, ?_⟩, ?_⟩
  · intro h; simp at h
  · intro h; simp at h
  · intro _ h; simp only [] at h; omega
  · have hb' : ¬ (j.burst_countdown - 1 ≤ 0) := by omega
    simp only [remaining, hs, cycle_cost, hb', if_false]; linarith

theorem rem_io_wait (j : job_t) (hj : JobOK j) (hs : j.state = states.IO_)
    (hb : j.burst_countdown ≠ 0) :
    JobOK { j with burst_countdown := j.burst_countdown - 1 } ∧
    remaining { j with burst_countdown := j.burst_countdown - 1 } < remaining j := by
  obtain ⟨h1, h2, h3, h4, h5, h6⟩ := hj
  have := h5 hs
  refine ⟨⟨h1, h2, h3, ?_, ?_, ?_⟩, ?_⟩
  · intro h; simp [hs] at h
  · intro _; simp only []; omega
  · intro h; simp [hs] at h
  · simp only [remaining, hs, cycle_cost]; linarith

theorem rem_io_done (j : job_t) (hj : JobOK j) (hs : j.state = states.IO_)
    (hb : j.burst_countdown = 0) (t : Int) :
    JobOK { j with burst_countdown := -1, state := states.DONE, end_time := t } ∧
    remaining { j with burst_countdown := -1, state := states.DONE, end_time := t }
      < remaining j := by
  obtain ⟨h1, h2, h3, h4, h5, h6⟩ := hj
  refine ⟨⟨h1, h2, h3, ?_, ?_, ?_⟩, ?_⟩
  · intro h; simp at h
  · intro h; simp at h
  · intro h; simp at h
  · have hk : 0 ≤ j.reps * cycle_cost j :=
      mul_nonneg h3 (by unfold cycle_cost; linarith)
    simp only [remaining, hs, hb]; linarith

theorem rem_io_ready (j : job_t) (hj : JobOK j) (hs : j.state = states.IO_)
    (hb : j.burst_countdown = 0) (hr : j.reps ≠ 0) (w : Int) :
    JobOK { j with burst_countdown := -1, state := states.RTR, wait_time := w } ∧
    remaining { j with burst_countdown := -1, state := states.RTR, wait_time := w }
      < remaining j := by
  obtain ⟨h1, h2, h3, h4, h5, h6⟩ := hj
  refine ⟨⟨h1, h2, h3, ?_, ?_, ?_⟩, ?_⟩
  · intro h; simp at h
  · intro h; simp at h
  · intro _ _; simp only []; omega
  · simp only [remaining, hs, hb, cycle_cost]
    simp

theorem rem_wait (j : job_t) (hj : JobOK j) (w : Int) :
    JobOK { j with wait_time := w } ∧ remaining { j with wait_time := w } = remaining j := by
  exact ⟨hj, rfl⟩

theorem upd_live {jobs : List Nat} {h : Nat → job_t} (hnd : jobs.Nodup) (a : Nat)
    (ha : a ∈ jobs) (hok : AllOK jobs h) (j : job_t) (hj : JobOK j) :
    AllOK jobs (Function.update h a j) ∧
    remaining_sum jobs (Function.update h a j)
      = remaining_sum jobs h - remaining (h a) + remaining j := by
  refine ⟨?_, sum_update remaining h a j jobs hnd ha⟩
  intro p hp
  by_cases hpa : p = a
  · subst hpa; simpa using hj
  · simpa [Function.update_noteq hpa] using hok p hp

theorem remaining_sum_nonneg {jobs : List Nat} {h : Nat → job_t} (hok : AllOK jobs h) :
    0 ≤ remaining_sum jobs h := by
  apply List.sum_nonneg
  intro x hx
  obtain ⟨p, hp, rfl⟩ := List.mem_map.1 hx
  exact remaining_nonneg _ (hok p hp)

theorem dispatch_state_live (s d : Sim) (hi : Inv s) (hok : AllOK s.jobs s.heap)
    (hd : dispatch_state s = some d) :
    AllOK d.jobs d.heap ∧ remaining_sum d.jobs d.heap ≤ remaining_sum s.jobs s.heap ∧
    (s.active ≠ none → remaining_sum d.jobs d.heap < remaining_sum s.jobs s.heap) := by
  obtain ⟨hq, hl, hact⟩ := hi
  unfold dispatch_state at hd
  cases ha : s.active with
  | none =>
    simp only [ha, Option.some.injEq] at hd
    subst hd
    exact ⟨hok, le_refl _, fun h => absurd rfl h⟩
  | some a =>
    have haj := (hact a).1 ha
    simp only [ha] at hd
    split_ifs at hd with h1 h2
    · simp only [Option.some.injEq] at hd
      subst hd
      obtain ⟨k1, k2⟩ := rem_cpu_io (s.heap a) (hok a haj.1) haj.2 h1
        ((s.heap a).quant_countdown - 1)
      obtain ⟨u1, u2⟩ := upd_live hq.1 a haj.1 hok _ k1
      refine ⟨u1, ?_, fun _ => ?_⟩ <;> simp only [] <;> rw [u2] <;> linarith
    · simp only [Option.some.injEq] at hd
      subst hd
      obtain ⟨k1, k2⟩ := rem_preempt (s.heap a) (hok a haj.1) haj.2 h1
        ((s.heap a).quant_countdown - 1)
      obtain ⟨u1, u2⟩ := upd_live hq.1 a haj.1 hok _ k1
      refine ⟨u1, ?_, fun _ => ?_⟩ <;> simp only [] <;> rw [u2] <;> linarith

theorem dispatch_live (d : Sim) (hq : QInv d.jobs d.rtr_queue d.heap d.finished_jobs)
    (hok : AllOK d.jobs d.heap) :
    AllOK d.jobs (set_next_job d).2.heap ∧
    remaining_sum d.jobs (set_next_job d).2.heap ≤ remaining_sum d.jobs d.heap ∧
    (d.rtr_queue ≠ [] →
      remaining_sum d.jobs (set_next_job d).2.heap < remaining_sum d.jobs d.heap) := by
  cases hqq : d.rtr_queue with
  | nil =>
    obtain ⟨_, h2, _⟩ := set_next_job_nil d hqq
    rw [h2]
    exact ⟨hok, le_refl _, fun h => absurd rfl h⟩
  | cons n rest =>
    obtain ⟨_, h2, _⟩ := set_next_job_cons d n rest hqq
    rw [h2]
    have hnj := (hq.2.2.1 n.job).1 (by simp [hqq])
    obtain ⟨k1, k2⟩ := rem_dispatched d.alg_id d.time (d.heap n.job) (hok _ hnj.1) hnj.2
    obtain ⟨u1, u2⟩ := upd_live hq.1 n.job hnj.1 hok _ k1
    refine ⟨u1, ?_, fun _ => ?_⟩ <;> rw [u2] <;> linarith

theorem cpu_phase_live (s : Sim) (hi : Inv s) (hok : AllOK s.jobs s.heap) :
    AllOK s.jobs (cpu_phase s).heap ∧
    remaining_sum s.jobs (cpu_phase s).heap ≤ remaining_sum s.jobs s.heap ∧
    ((s.active ≠ none ∨ s.rtr_queue ≠ []) →
      remaining_sum s.jobs (cpu_phase s).heap < remaining_sum s.jobs s.heap) := by
  cases hd : dispatch_state s with
  | some d =>
    obtain ⟨c1, _, _⟩ := cpu_phase_dispatch s d hd
    obtain ⟨d1, _, _, d4, _, _, _, _⟩ := dispatch_state_inv s d hi hd
    obtain ⟨l1, l2, l3⟩ := dispatch_state_live s d hi hok hd
    obtain ⟨e1, e2, e3⟩ := dispatch_live d d1 l1
    rw [c1]
    rw [d4] at l1 l2 l3 e1 e2 e3
    refine ⟨e1, le_trans e2 l2, ?_⟩
    rintro (h | h)
    · exact lt_of_le_of_lt e2 (l3 h)
    · by_cases ha : s.active = none
      · have : d = s := by
          unfold dispatch_state at hd
          simp only [ha, Option.some.injEq] at hd
          exact hd.symm
        subst this
        exact lt_of_lt_of_le (e3 h) l2
      · exact lt_of_le_of_lt e2 (l3 ha)
  | none =>
    obtain ⟨a, ha, hb, c1, _, _⟩ := cpu_phase_no_dispatch s hd
    have haj := (hi.2.2 a).1 ha
    obtain ⟨k1, k2⟩ := rem_cpu_tick (s.heap a) (hok a haj.1) haj.2 hb
      ((s.heap a).quant_countdown - 1)
    obtain ⟨u1, u2⟩ := upd_live hi.1.1 a haj.1 hok _ k1
    rw [c1]
    refine ⟨u1, ?_, fun _ => ?_⟩ <;> rw [u2] <;> linarith

theorem scan_job_live (s : Sim) (p : Nat) (hi : Inv s) (hok : AllOK s.jobs s.heap)
    (hp : p ∈ s.jobs) :
    AllOK s.jobs (scan_job s p).heap ∧
    remaining_sum s.jobs (scan_job s p).heap ≤ remaining_sum s.jobs s.heap ∧
    ((s.heap p).state = states.IO_ →
      remaining_sum s.jobs (scan_job s p).heap < remaining_sum s.jobs s.heap) := by
  have hnd := hi.1.1
  have hj := hok p hp
  rcases scan_job_cases s p with ⟨h1, h2, c1, _, _⟩ | ⟨h1, h2, _, c1, _, _⟩ |
      ⟨h1, h2, h3, c1, _, _⟩ | ⟨h1, c1, _, _⟩ | ⟨h1, _, c1, _, _⟩
  · obtain ⟨k1, k2⟩ := rem_io_wait _ hj h1 h2
    obtain ⟨u1, u2⟩ := upd_live hnd p hp hok _ k1
    rw [c1]
    refine ⟨u1, ?_, fun _ => ?_⟩ <;> rw [u2] <;> linarith
  · obtain ⟨k1, k2⟩ := rem_io_done _ hj h1 h2 s.time
    obtain ⟨u1, u2⟩ := upd_live hnd p hp hok _ k1
    rw [c1]
    refine ⟨u1, ?_, fun _ => ?_⟩ <;> rw [u2] <;> linarith
  · obtain ⟨k1, k2⟩ := rem_io_ready _ hj h1 h2 h3 ((s.heap p).wait_time + 1)
    obtain ⟨u1, u2⟩ := upd_live hnd p hp hok _ k1
    rw [c1]
    refine ⟨u1, ?_, fun _ => ?_⟩ <;> rw [u2] <;> linarith
  · obtain ⟨k1, k2⟩ := rem_wait _ hj ((s.heap p).wait_time + 1)
    obtain ⟨u1, u2⟩ := upd_live hnd p hp hok _ k1
    rw [c1]
    refine ⟨u1, ?_, fun h => ?_⟩
    · rw [u2]; linarith
    · rw [h1] at h; cases h
  · rw [c1]
    exact ⟨hok, le_refl _, fun h => absurd h h1⟩

theorem scan_job_heap_other (s : Sim) (p x : Nat) (hx : x ≠ p) :
    (scan_job s p).heap x = s.heap x := by
  rcases scan_job_cases s p with ⟨_, _, c1, _, _⟩ | ⟨_, _, _, c1, _, _⟩ |
      ⟨_, _, _, c1, _, _⟩ | ⟨_, c1, _, _⟩ | ⟨_, _, c1, _, _⟩ <;>
    rw [c1] <;> simp [Function.update_noteq hx]

theorem scan_fold_live (l : List Nat) : ∀ (s : Sim), Inv s → AllOK s.jobs s.heap →
    (∀ p ∈ l, p ∈ s.jobs) →
    AllOK s.jobs (l.foldl scan_job s).heap ∧
    remaining_sum s.jobs (l.foldl scan_job s).heap ≤ remaining_sum s.jobs s.heap ∧
    ((∃ p ∈ l, (s.heap p).state = states.IO_) →
      remaining_sum s.jobs (l.foldl scan_job s).heap < remaining_sum s.jobs s.heap) := by
  induction l with
  | nil =>
    intro s _ hok _
    exact ⟨hok, le_refl _, fun ⟨p, hp, _⟩ => by cases hp⟩
  | cons p l ih =>
    intro s hi hok hl
    have hp := hl p (List.mem_cons_self _ _)
    have hj : (scan_job s p).jobs = s.jobs := (scan_job_frame s p).2.1
    obtain ⟨a1, a2, a3⟩ := scan_job_live s p hi hok hp
    obtain ⟨b1, b2, b3⟩ := ih (scan_job s p) (scan_job_inv s p hi hp) (hj ▸ a1)
      (fun x hx => hj ▸ hl x (List.mem_cons_of_mem _ hx))
    rw [hj] at b1 b2 b3
    simp only [List.foldl_cons]
    refine ⟨b1, le_trans b2 a2, ?_⟩
    rintro ⟨x, hx, hio⟩
    by_cases hxp : (s.heap p).state = states.IO_
    · exact lt_of_le_of_lt b2 (a3 hxp)
    · have hne : x ≠ p := fun e => hxp (e ▸ hio)
      have hxl : x ∈ l := by
        rcases List.mem_cons.1 hx with e | e
        · exact absurd e hne
        · exact e
      exact lt_of_lt_of_le (b3 ⟨x, hxl, by rw [scan_job_heap_other s p x hne]; exact hio⟩) a2

theorem scan_list (s : Sim) (hi : Inv s) : s.jobs.take s.num_jobs.toNat = s.jobs := by
  apply List.take_of_length_le
  have := hi.2.1
  omega

theorem tick_live (s : Sim) (hi : Inv s) (hok : AllOK s.jobs s.heap) :
    AllOK (tick s).jobs (tick s).heap ∧
    remaining_sum (tick s).jobs (tick s).heap ≤ remaining_sum s.jobs s.heap ∧
    ((∃ p ∈ s.jobs, (s.heap p).state ≠ states.DONE) →
      remaining_sum (tick s).jobs (tick s).heap < remaining_sum s.jobs s.heap) := by
  have hj : (tick s).jobs = s.jobs := (tick_frame s).2.1
  have hcj : (cpu_phase s).jobs = s.jobs := (cpu_phase_frame s).2.1
  have hci := cpu_phase_inv s hi
  obtain ⟨a1, a2, a3⟩ := cpu_phase_live s hi hok
  obtain ⟨b1, b2, b3⟩ := scan_fold_live (cpu_phase s).jobs (cpu_phase s) hci (hcj ▸ a1)
    (fun _ h => h)
  rw [hj]
  unfold tick scan
  rw [scan_list _ hci]
  rw [hcj] at b1 b2 b3 ⊢
  refine ⟨b1, le_trans b2 a2, ?_⟩
  rintro ⟨p, hp, hnd⟩
  by_cases hc : s.active ≠ none ∨ s.rtr_queue ≠ []
  · exact lt_of_le_of_lt b2 (a3 hc)
  · push_neg at hc
    obtain ⟨hc1, hc2⟩ := hc
    have hd : dispatch_state s = some s := by simp [dispatch_state, hc1]
    have hheap : (cpu_phase s).heap = s.heap := by
      rw [(cpu_phase_dispatch s s hd).1, (set_next_job_nil s hc2).2.1]
    have hio : (s.heap p).state = states.IO_ := by
      have h1 : (s.heap p).state ≠ states.CPU := fun h => by
        have := (hi.2.2 p).2 ⟨hp, h⟩
        rw [hc1] at this; cases this
      have h2 : (s.heap p).state ≠ states.RTR := fun h => by
        have := (hi.1.2.2.1 p).2 ⟨hp, h⟩
        rw [hc2] at this; cases this
      cases hst : (s.heap p).state with
      | RTR => exact absurd hst h2
      | CPU => exact absurd hst h1
      | IO_ => rfl
      | DONE => exact absurd hst hnd
    exact lt_of_lt_of_le (b3 ⟨p, hp, by rw [hheap]; exact hio⟩) a2

theorem done_sum_le (h : Nat → job_t) (l : List Nat) :
    (l.map fun p => done_ind (h p)).sum ≤ l.length ∧
    ((l.map fun p => done_ind (h p)).sum = l.length → ∀ p ∈ l, (h p).state = states.DONE) := by
  induction l with
  | nil => simp
  | cons x l ih =>
    obtain ⟨i1, i2⟩ := ih
    simp only [List.map_cons, List.sum_cons, List.length_cons, Nat.cast_add, Nat.cast_one]
    by_cases hx : (h x).state = states.DONE
    · have hx1 : done_ind (h x) = 1 := by simp [done_ind, hx]
      rw [hx1]
      refine ⟨by linarith, ?_⟩
      intro he p hp
      rcases List.mem_cons.1 hp with rfl | hp
      · exact hx
      · exact i2 (by linarith) p hp
    · have hx0 : done_ind (h x) = 0 := by simp [done_ind, hx]
      rw [hx0]
      refine ⟨by linarith, ?_⟩
      intro he
      exfalso
      linarith

/-- At the `break` every job is done. -/
theorem finished_all_done (s : Sim) (hi : Inv s) (hf : ¬ s.finished_jobs < s.num_jobs) :
    s.finished_jobs = s.num_jobs ∧ ∀ p ∈ s.jobs, (s.heap p).state = states.DONE := by
  obtain ⟨⟨_, _, _, h4⟩, hl, _⟩ := hi
  obtain ⟨d1, d2⟩ := done_sum_le s.heap s.jobs
  rw [← h4, hl] at d1
  have he : s.finished_jobs = s.num_jobs := le_antisymm d1 (not_lt.1 hf)
  exact ⟨he, d2 (by rw [← h4, hl, he])⟩

theorem remaining_sum_pos {jobs : List Nat} {h : Nat → job_t} (hok : AllOK jobs h)
    (p : Nat) (hp : p ∈ jobs) (hs : (h p).state ≠ states.DONE) : 0 < remaining_sum jobs h := by
  have h1 : remaining (h p) ≤ remaining_sum jobs h := by
    apply List.single_le_sum
    · intro x hx
      obtain ⟨q, hq, rfl⟩ := List.mem_map.1 hx
      exact remaining_nonneg _ (hok q hq)
    · exact List.mem_map.2 ⟨p, hp, rfl⟩
  exact lt_of_lt_of_le (remaining_pos _ (hok p hp) hs) h1

theorem remaining_sum_zero {jobs : List Nat} {h : Nat → job_t}
    (hd : ∀ p ∈ jobs, (h p).state = states.DONE) : remaining_sum jobs h = 0 := by
  apply List.sum_eq_zero
  intro x hx
  obtain ⟨q, hq, rfl⟩ := List.mem_map.1 hx
  simp [remaining, hd q hq]

/-- While the loop goes on, some job is not done. -/
theorem unfinished_exists (s : Sim) (hi : Inv s) (hf : s.finished_jobs < s.num_jobs) :
    ∃ p ∈ s.jobs, (s.heap p).state ≠ states.DONE := by
  by_contra hall
  push_neg at hall
  obtain ⟨⟨_, _, _, h4⟩, hl, _⟩ := hi
  have : s.finished_jobs = s.num_jobs := by
    rw [h4, ← hl]
    have e : (s.jobs.map fun p => done_ind (s.heap p)) = s.jobs.map fun _ => (1 : Int) := by
      apply List.map_congr_left
      intro p hp
      simp [done_ind, hall p hp]
    rw [e]; simp
  omega

theorem run_loop_terminates (n : Nat) : ∀ (s : Sim), Inv s → AllOK s.jobs s.heap →
    remaining_sum s.jobs s.heap ≤ n →
    ∃ s', run_loop (n + 1) s = some s' ∧ Inv s' ∧ ¬ s'.finished_jobs < s'.num_jobs ∧
      s'.jobs = s.jobs ∧ s'.num_jobs = s.num_jobs := by
  induction n with
  | zero =>
    intro s hi hok hn
    have hti := tick_inv s hi
    obtain ⟨t1, t2, t3⟩ := tick_live s hi hok
    by_cases hf : (tick s).finished_jobs < (tick s).num_jobs
    · exfalso
      have hex := unfinished_exists (tick s) hti hf
      obtain ⟨p, hp, hnd⟩ := hex
      have := remaining_sum_pos t1 p hp hnd
      simp only [Nat.cast_zero] at hn
      linarith
    · exact ⟨tick s, by simp [run_loop, hf], hti, hf, (tick_frame s).2.1, (tick_frame s).2.2.1⟩
  | succ n ih =>
    intro s hi hok hn
    have hti := tick_inv s hi
    obtain ⟨t1, t2, t3⟩ := tick_live s hi hok
    by_cases hf : (tick s).finished_jobs < (tick s).num_jobs
    · have hex := unfinished_exists (tick s) hti hf
      obtain ⟨p, hp, hnd⟩ := hex
      have hpos := remaining_sum_pos t1 p hp hnd
      have hex0 : ∃ p ∈ s.jobs, (s.heap p).state ≠ states.DONE := by
        by_contra hall
        push_neg at hall
        have := remaining_sum_zero hall
        linarith
      have hlt := t3 hex0
      obtain ⟨s', r1, r2, r3, r4, r5⟩ := ih { tick s with time := (tick s).time + 1 }
        (Inv_time _ _ hti) t1 (by
          simp only []
          push_cast at hn
          linarith)
      refine ⟨s', ?_, r2, r3, r4.trans (tick_frame s).2.1, r5.trans (tick_frame s).2.2.1⟩
      rw [run_loop]
      simp only [hf, if_true]
      exact r1
    · exact ⟨tick s, by simp [run_loop, hf], hti, hf, (tick_frame s).2.1, (tick_frame s).2.2.1⟩

theorem job_of_ok (r : record)
    (h : 1 ≤ r.cpu_burst_length ∧ 0 ≤ r.io_burst_length ∧ 1 ≤ r.reps) : JobOK (job_of r) := by
  obtain ⟨h1, h2, h3⟩ := h
  refine ⟨h1, h2, ?_, ?_, ?_, ?_⟩
  · simp only [job_of]; linarith
  · intro h; simp [job_of, calloc_job] at h
  · intro h; simp [job_of, calloc_job] at h
  · intro _ _; exact h3

theorem TickEnd_jobs (s0 s : Sim) (h : TickEnd s0 s) : s.jobs = s0.jobs := by
  induction h with
  | first => exact (tick_frame s0).2.1
  | next s _ _ ih => exact ((tick_frame _).2.1).trans ih

/-- The array `jobs` holds exactly the loaded jobs at the end of every tick. -/
theorem TickEnd_jobs_loaded (alg_id : algs) (recs : List record) (s : Sim)
    (h : TickEnd (load_jobs alg_id recs) s) : ∀ p, p ∈ s.jobs ↔ p < recs.length := by
  intro p
  rw [TickEnd_jobs _ s h]
  exact (load_jobs_spec alg_id recs).2.2.1 p

/-! ## How `reps` changes -/

theorem set_next_job_reps (s : Sim) (p : Nat) :
    ((set_next_job s).2.heap p).reps
      = (s.heap p).reps - (if decremented s = some p then 1 else 0) := by
  cases hq : s.rtr_queue with
  | nil =>
    rw [(set_next_job_nil s hq).2.1]
    simp [decremented, hq]
  | cons n rest =>
    rw [(set_next_job_cons s n rest hq).2.1]
    by_cases hp : p = n.job
    · subst hp
      by_cases hb : (s.heap n.job).burst_countdown ≤ 0 <;>
        simp [decremented, hq, dispatched, hb]
    · have hp' : n.job ≠ p := fun e => hp e.symm
      by_cases hb : (s.heap n.job).burst_countdown ≤ 0 <;>
        simp [decremented, hq, hb, Function.update_noteq hp, hp']

theorem set_next_job_state (s : Sim) (p : Nat) :
    (decremented s = some p → ((set_next_job s).2.heap p).state = states.CPU) ∧
    (((set_next_job s).2.heap p).state = states.DONE → (s.heap p).state = states.DONE) := by
  cases hq : s.rtr_queue with
  | nil =>
    rw [(set_next_job_nil s hq).2.1]
    simp [decremented, hq]
  | cons n rest =>
    rw [(set_next_job_cons s n rest hq).2.1]
    by_cases hp : p = n.job
    · subst hp
      simp [dispatched]
    · have hp' : n.job ≠ p := fun e => hp e.symm
      refine ⟨?_, by simp [Function.update_noteq hp]⟩
      intro h
      simp only [decremented, hq] at h
      split_ifs at h
      exact absurd (Option.some.inj h) hp'

theorem dispatch_state_heap (s d : Sim) (hd : dispatch_state s = some d) (p : Nat) :
    (d.heap p).reps = (s.heap p).reps ∧
    ((d.heap p).state = states.DONE → (s.heap p).state = states.DONE) := by
  unfold dispatch_state at hd
  cases ha : s.active with
  | none =>
    simp only [ha, Option.some.injEq] at hd
    subst hd
    exact ⟨rfl, id⟩
  | some a =>
    simp only [ha] at hd
    split_ifs at hd with h1 h2 <;>
    · simp only [Option.some.injEq] at hd
      subst hd
      by_cases hp : p = a
      · subst hp; simp
      · simp [Function.update_noteq hp]

theorem cpu_phase_reps (s : Sim) (p : Nat) :
    ((cpu_phase s).heap p).reps
      = (s.heap p).reps - (if fresh_dispatch s = some p then 1 else 0) ∧
    (fresh_dispatch s = some p → ((cpu_phase s).heap p).state = states.CPU) ∧
    (((cpu_phase s).heap p).state = states.DONE → (s.heap p).state = states.DONE) := by
  unfold fresh_dispatch
  cases hd : dispatch_state s with
  | some d =>
    rw [(cpu_phase_dispatch s d hd).1]
    simp only [Option.some_bind]
    refine ⟨?_, (set_next_job_state d p).1,
      fun h => (dispatch_state_heap s d hd p).2 ((set_next_job_state d p).2 h)⟩
    rw [set_next_job_reps d p, (dispatch_state_heap s d hd p).1]
  | none =>
    obtain ⟨a, _, _, c1, _, _⟩ := cpu_phase_no_dispatch s hd
    rw [c1]
    by_cases hp : p = a
    · subst hp; simp
    · simp [Function.update_noteq hp]

theorem scan_job_heap (s : Sim) (p x : Nat) :
    ((scan_job s p).heap x).reps = (s.heap x).reps ∧
    ((s.heap x).state = states.CPU → ((scan_job s p).heap x).state = states.CPU) ∧
    (((scan_job s p).heap x).state = states.DONE →
      (s.heap x).state = states.DONE ∨ ((scan_job s p).heap x).reps = 0) := by
  by_cases hx : x = p
  · subst hx
    rcases scan_job_cases s x with ⟨h1, _, c1, _, _⟩ | ⟨h1, _, h3, c1, _, _⟩ |
        ⟨h1, _, _, c1, _, _⟩ | ⟨h1, c1, _, _⟩ | ⟨_, _, c1, _, _⟩ <;>
      rw [c1] <;> simp_all
  · rw [scan_job_heap_other s p x hx]
    exact ⟨rfl, id, Or.inl⟩

theorem scan_fold_heap (l : List Nat) : ∀ (s : Sim) (x : Nat),
    ((l.foldl scan_job s).heap x).reps = (s.heap x).reps ∧
    ((s.heap x).state = states.CPU → ((l.foldl scan_job s).heap x).state = states.CPU) ∧
    (((l.foldl scan_job s).heap x).state = states.DONE →
      (s.heap x).state = states.DONE ∨ ((l.foldl scan_job s).heap x).reps = 0) := by
  induction l with
  | nil => intro s x; exact ⟨rfl, id, Or.inl⟩
  | cons p l ih =>
    intro s x
    obtain ⟨a1, a2, a3⟩ := scan_job_heap s p x
    obtain ⟨b1, b2, b3⟩ := ih (scan_job s p) x
    simp only [List.foldl_cons]
    refine ⟨b1.trans a1, fun h => b2 (a2 h), ?_⟩
    intro h
    rcases b3 h with h' | h'
    · rcases a3 h' with h'' | h''
      · exact Or.inl h''
      · exact Or.inr (b1.trans h'')
    · exact Or.inr h'

theorem tick_heap (s : Sim) (p : Nat) :
    ((tick s).heap p).reps = (s.heap p).reps - (if fresh_dispatch s = some p then 1 else 0) ∧
    (fresh_dispatch s = some p → ((tick s).heap p).state = states.CPU) ∧
    (((tick s).heap p).state = states.DONE →
      (s.heap p).state = states.DONE ∨ ((tick s).heap p).reps = 0) := by
  obtain ⟨a1, a2, a3⟩ := cpu_phase_reps s p
  obtain ⟨b1, b2, b3⟩ :=
    scan_fold_heap ((cpu_phase s).jobs.take (cpu_phase s).num_jobs.toNat) (cpu_phase s) p
  unfold tick scan
  refine ⟨b1.trans a1, fun h => b2 (a2 h), ?_⟩
  intro h
  rcases b3 h with h' | h'
  · exact Or.inl (a3 h')
  · exact Or.inr h'

theorem tick_DoneZero (s : Sim) (hz : DoneZero s) : DoneZero (tick s) := by
  intro p hp
  obtain ⟨a1, a2, a3⟩ := tick_heap s p
  rcases a3 hp with h | h
  · rw [a1, hz p h]
    by_cases hf : fresh_dispatch s = some p
    · have := a2 hf
      rw [hp] at this
      cases this
    · simp [hf]
  · exact h

theorem fresh_dispatch_mem (s : Sim) (hi : Inv s) (p : Nat) (h : fresh_dispatch s = some p) :
    p ∈ s.jobs := by
  unfold fresh_dispatch at h
  cases hd : dispatch_state s with
  | none => simp [hd] at h
  | some d =>
    simp only [hd, Option.some_bind] at h
    obtain ⟨d1, _, _, d4, _⟩ := dispatch_state_inv s d hi hd
    unfold decremented at h
    cases hq : d.rtr_queue with
    | nil => simp [hq] at h
    | cons n rest =>
      simp only [hq] at h
      split_ifs at h
      have := (d1.2.2.1 n.job).1 (by simp [hq])
      rw [← d4, ← Option.some.inj h]
      exact this.1

theorem sum_indicator (l : List Nat) (hnd : l.Nodup) (o : Option Nat)
    (ho : ∀ p, o = some p → p ∈ l) :
    (l.map fun p => if o = some p then (1 : Int) else 0).sum
      = if o = none then 0 else 1 := by
  cases o with
  | none => simp
  | some a =>
    have ha := ho a rfl
    simp only [Option.some.injEq]
    induction l with
    | nil => cases ha
    | cons x l ih =>
      obtain ⟨hx, hnd'⟩ := List.nodup_cons.1 hnd
      simp only [List.map_cons, List.sum_cons]
      by_cases hxa : a = x
      · subst hxa
        have : (l.map fun p => if a = p then (1 : Int) else 0).sum = 0 := by
          apply List.sum_eq_zero
          intro y hy
          obtain ⟨p, hp, rfl⟩ := List.mem_map.1 hy
          have : a ≠ p := fun e => hx (e ▸ hp)
          simp [this]
        simp [this]
      · have hal : a ∈ l := by
          rcases List.mem_cons.1 ha with e | e
          · exact absurd e hxa
          · exact e
        rw [ih hnd' (fun p hp => by cases hp; exact hal) hal]
        simp [hxa]

theorem sum_map_sub (l : List Nat) (f g : Nat → Int) :
    (l.map fun p => f p - g p).sum = (l.map f).sum - (l.map g).sum := by
  induction l with
  | nil => simp
  | cons x l ih =>
    simp only [List.map_cons, List.sum_cons, ih]
    ring

theorem tick_reps_sum (s : Sim) (hi : Inv s) :
    ((tick s).jobs.map fun p => ((tick s).heap p).reps).sum
      = (s.jobs.map fun p => (s.heap p).reps).sum
        - (if fresh_dispatch s = none then 0 else 1) := by
  rw [(tick_frame s).2.1]
  have e : (s.jobs.map fun p => ((tick s).heap p).reps)
      = s.jobs.map fun p =>
          (s.heap p).reps - (if fresh_dispatch s = some p then 1 else 0) := by
    apply List.map_congr_left
    intro p _
    exact (tick_heap s p).1
  rw [e, sum_map_sub,
    sum_indicator s.jobs hi.1.1 (fresh_dispatch s) (fresh_dispatch_mem s hi)]

theorem run_loop_reps (fuel : Nat) : ∀ (s s' : Sim), Inv s → DoneZero s →
    run_loop fuel s = some s' →
    Inv s' ∧ DoneZero s' ∧ ¬ s'.finished_jobs < s'.num_jobs ∧
    (s'.jobs.map fun p => (s'.heap p).reps).sum
      = (s.jobs.map fun p => (s.heap p).reps).sum - reps_decrements fuel s := by
  induction fuel with
  | zero => intro s s' _ _ h; simp [run_loop] at h
  | succ n ih =>
    intro s s' hi hz h
    have hti := tick_inv s hi
    have htz := tick_DoneZero s hz
    have hsum := tick_reps_sum s hi
    simp only [run_loop] at h
    simp only [reps_decrements]
    split_ifs at h with hf
    · obtain ⟨r1, r2, r3, r4⟩ := ih { tick s with time := (tick s).time + 1 } s'
        (Inv_time (tick s) ((tick s).time + 1) hti) htz h
      refine ⟨r1, r2, r3, ?_⟩
      simp only [hf, if_true]
      simp only [] at r4
      rw [r4, hsum]
      ring
    · simp only [Option.some.injEq] at h
      subst h
      refine ⟨hti, htz, hf, ?_⟩
      simp only [hf, if_false]
      rw [hsum]
      ring

/-! ## The claims about the run loop -/

/-- C5: for every list of input lines in which each job has `cpu_burst_length ≥ 1`,
`io_burst_length ≥ 0` and `reps ≥ 1`, and for each of the four algorithms, the run
loop reaches its `break` after finitely many iterations; in the state at the
`break` every job of the array `jobs` is `DONE`, `finished_jobs` equals
`num_jobs`, and the array holds exactly the jobs loaded. -/
theorem run_terminates (alg_id : algs) (recs : List record)
    (hpre : ∀ r ∈ recs, 1 ≤ r.cpu_burst_length ∧ 0 ≤ r.io_burst_length ∧ 1 ≤ r.reps) :
    ∃ fuel s', run_loop fuel (load_jobs alg_id recs) = some s' ∧
      (∀ p ∈ s'.jobs, (s'.heap p).state = states.DONE) ∧
      s'.finished_jobs = s'.num_jobs ∧ s'.num_jobs = recs.length ∧
      (∀ p, p ∈ s'.jobs ↔ p < recs.length) := by
  obtain ⟨l1, l2, l3, l4, _⟩ := load_jobs_spec alg_id recs
  have hok : AllOK (load_jobs alg_id recs).jobs (load_jobs alg_id recs).heap :=
    l4 JobOK (fun r hr => job_of_ok r (hpre r hr))
  have hnn := remaining_sum_nonneg hok
  obtain ⟨s', r1, r2, r3, r4, r5⟩ := run_loop_terminates
    (remaining_sum (load_jobs alg_id recs).jobs (load_jobs alg_id recs).heap).toNat
    (load_jobs alg_id recs) l1 hok (by omega)
  obtain ⟨f1, f2⟩ := finished_all_done s' r2 r3
  exact ⟨_, s', r1, f2, f1, r5.trans l2, fun p => by rw [r4]; exact l3 p⟩

/-- Witness of C5: the sample job and the shortest job, under round-robin. -/
theorem run_terminates_witness :
    (∀ r ∈ [sample_record, unit_record],
      1 ≤ r.cpu_burst_length ∧ 0 ≤ r.io_burst_length ∧ 1 ≤ r.reps) ∧
    ∃ fuel s', run_loop fuel (load_jobs algs.RR [sample_record, unit_record]) = some s' ∧
      (∀ p ∈ s'.jobs, (s'.heap p).state = states.DONE) ∧
      s'.finished_jobs = s'.num_jobs ∧
      s'.num_jobs = ([sample_record, unit_record] : List record).length ∧
      (∀ p, p ∈ s'.jobs ↔ p < ([sample_record, unit_record] : List record).length) :=
  ⟨by decide, run_terminates algs.RR [sample_record, unit_record] (by decide)⟩

/-- C6: `set_next_job` lowers the `reps` of the job it pops by one exactly when
that job's `burst_countdown` is `≤ 0` and changes no other `reps`; over a whole
tick a job's `reps` goes down by one if it is the job dispatched in that way
during the tick and is unchanged otherwise; a job that turns `DONE` during a tick
has `reps = 0`; and when the run of a loaded job set reaches its `break`, every
job has `reps = 0` and the number of decrements made during the run equals the
sum of the `reps` of the input lines. -/
theorem reps_conservation (alg_id : algs) (recs : List record) :
    (∀ (s : Sim) (p : Nat), ((set_next_job s).2.heap p).reps
        = (s.heap p).reps - (if decremented s = some p then 1 else 0)) ∧
    (∀ (s : Sim) (p : Nat), ((tick s).heap p).reps
        = (s.heap p).reps - (if fresh_dispatch s = some p then 1 else 0)) ∧
    (∀ (s : Sim) (p : Nat), (s.heap p).state ≠ states.DONE →
        ((tick s).heap p).state = states.DONE → ((tick s).heap p).reps = 0) ∧
    (∀ (fuel : Nat) (s' : Sim), run_loop fuel (load_jobs alg_id recs) = some s' →
        (∀ p ∈ s'.jobs, (s'.heap p).reps = 0) ∧
        reps_decrements fuel (load_jobs alg_id recs) = (recs.map record.reps).sum) := by
  refine ⟨set_next_job_reps, fun s p => (tick_heap s p).1, ?_, ?_⟩
  · intro s p h1 h2
    rcases (tick_heap s p).2.2 h2 with h | h
    · exact absurd h h1
    · exact h
  · intro fuel s' hrun
    obtain ⟨l1, _, _, _, l5⟩ := load_jobs_spec alg_id recs
    have hz : DoneZero (load_jobs alg_id recs) := by
      intro p hp
      have hr : ((load_jobs alg_id recs).heap p).state = states.RTR :=
        (load_fold_spec recs (init alg_id) (init_LoadInv alg_id)).1.2.2.2.2.1 p
      rw [hr] at hp
      cases hp
    obtain ⟨r1, r2, r3, r4⟩ := run_loop_reps fuel _ s' l1 hz hrun
    obtain ⟨_, f2⟩ := finished_all_done s' r1 r3
    have hall : ∀ p ∈ s'.jobs, (s'.heap p).reps = 0 := fun p hp => r2 p (f2 p hp)
    refine ⟨hall, ?_⟩
    have h0 : (s'.jobs.map fun p => (s'.heap p).reps).sum = 0 := by
      apply List.sum_eq_zero
      intro x hx
      obtain ⟨p, hp, rfl⟩ := List.mem_map.1 hx
      exact hall p hp
    have h5 := l5 job_t.reps
    have h6 : (recs.map fun r => (job_of r).reps) = recs.map record.reps := by
      apply List.map_congr_left
      intro r _
      rfl
    rw [h0, h5, h6] at r4
    linarith

/-- Witness of C6: the run of the sample job under FCFS reaches its `break` within
6 iterations and makes exactly one decrement. -/
theorem reps_conservation_witness :
    run_loop 6 (load_jobs algs.FCFS [sample_record])
      = some (tick { tick { tick { tick { tick { tick (load_jobs algs.FCFS [sample_record])
          with time := 2 } with time := 3 } with time := 4 } with time := 5 }
          with time := 6 }) ∧
    reps_decrements 6 (load_jobs algs.FCFS [sample_record]) = 1 :=
  ⟨rfl, ((reps_conservation algs.FCFS [sample_record]).2.2.2 6 _ rfl).2⟩

/-- C7: in every state at the end of a tick of the run of a loaded job set, the
array `jobs` holds exactly the loaded jobs and at most one of them is in state
`CPU`: if `active` is set, it points to a job of the array in state `CPU` and no
other job of the array is in state `CPU`; if `active` is `NULL`, no job of the
array is in state `CPU`. -/
theorem one_running (alg_id : algs) (recs : List record) (s : Sim)
    (h : TickEnd (load_jobs alg_id recs) s) :
    (∀ p, p ∈ s.jobs ↔ p < recs.length) ∧
    (∀ a, s.active = some a →
      a ∈ s.jobs ∧ (s.heap a).state = states.CPU ∧
      ∀ p ∈ s.jobs, (s.heap p).state = states.CPU → p = a) ∧
    (s.active = none → ∀ p ∈ s.jobs, (s.heap p).state ≠ states.CPU) := by
  obtain ⟨_, _, hact⟩ := TickEnd_inv _ s (load_jobs_inv alg_id recs) h
  refine ⟨TickEnd_jobs_loaded alg_id recs s h, ?_, ?_⟩
  · intro a ha
    obtain ⟨h1, h2⟩ := (hact a).1 ha
    refine ⟨h1, h2, ?_⟩
    intro p hp hc
    have := (hact p).2 ⟨hp, hc⟩
    rw [ha] at this
    exact (Option.some.inj this).symm
  · intro hn p hp hc
    have := (hact p).2 ⟨hp, hc⟩
    rw [hn] at this
    cases this

/-- Witness of C7: the end of the first tick after loading the sample job and the
shortest job under FCFS. -/
theorem one_running_witness :
    TickEnd (load_jobs algs.FCFS [sample_record, unit_record])
      (tick (load_jobs algs.FCFS [sample_record, unit_record])) ∧
    ((tick (load_jobs algs.FCFS [sample_record, unit_record])).active = none →
      ∀ p ∈ (tick (load_jobs algs.FCFS [sample_record, unit_record])).jobs,
        ((tick (load_jobs algs.FCFS [sample_record, unit_record])).heap p).state
          ≠ states.CPU) :=
  ⟨TickEnd.first,
   (one_running algs.FCFS [sample_record, unit_record] _ TickEnd.first).2.2⟩

/-- C8: in every state at the end of a tick of the run of a loaded job set, the
array `jobs` holds exactly the loaded jobs, the ready queue holds only jobs of
the array, and a job of the array occurs in the queue exactly once if its state
is `RTR` and not at all otherwise. -/
theorem queue_holds_ready (alg_id : algs) (recs : List record) (s : Sim)
    (h : TickEnd (load_jobs alg_id recs) s) :
    (∀ p, p ∈ s.jobs ↔ p < recs.length) ∧
    (∀ p ∈ s.rtr_queue.map node_t.job, p ∈ s.jobs) ∧
    (∀ p ∈ s.jobs, (s.rtr_queue.map node_t.job).count p
      = if (s.heap p).state = states.RTR then 1 else 0) ∧
    (∀ p ∈ s.jobs, (s.heap p).state ≠ states.RTR → p ∉ s.rtr_queue.map node_t.job) ∧
    (∀ p ∈ s.jobs, (s.heap p).state = states.RTR → p ∈ s.rtr_queue.map node_t.job) := by
  obtain ⟨⟨_, h2, h3, _⟩, _, _⟩ := TickEnd_inv _ s (load_jobs_inv alg_id recs) h
  refine ⟨TickEnd_jobs_loaded alg_id recs s h, fun p hp => ((h3 p).1 hp).1, ?_,
    fun p _ hne hm => hne ((h3 p).1 hm).2, fun p hp hr => (h3 p).2 ⟨hp, hr⟩⟩
  intro p hp
  by_cases hr : (s.heap p).state = states.RTR
  · rw [if_pos hr]
    exact List.count_eq_one_of_mem h2 ((h3 p).2 ⟨hp, hr⟩)
  · rw [if_neg hr]
    exact List.count_eq_zero_of_not_mem (fun hm => hr ((h3 p).1 hm).2)

/-- Witness of C8: the end of the first tick after loading the sample job and the
shortest job under SJF. -/
theorem queue_holds_ready_witness :
    TickEnd (load_jobs algs.SJF [sample_record, unit_record])
      (tick (load_jobs algs.SJF [sample_record, unit_record])) ∧
    (∀ p ∈ (tick (load_jobs algs.SJF [sample_record, unit_record])).rtr_queue.map node_t.job,
      p ∈ (tick (load_jobs algs.SJF [sample_record, unit_record])).jobs) :=
  ⟨TickEnd.first,
   (queue_holds_ready algs.SJF [sample_record, unit_record] _ TickEnd.first).2.1⟩

/-! ## Steps of one job, start-of-tick states and further invariants -/

theorem TickStart_inv (s0 s : Sim) (h0 : Inv s0) (h : TickStart s0 s) : Inv s := by
  induction h with
  | init => exact h0
  | next s _ _ ih => exact Inv_time _ _ (tick_inv s ih)

theorem TickStart_end (s0 s : Sim) (h : TickStart s0 s) : TickEnd s0 (tick s) := by
  induction h with
  | init => exact TickEnd.first
  | next s _ hf ih => exact TickEnd.next (tick s) ih hf

theorem TickEnd_start (s0 e : Sim) (h : TickEnd s0 e) : ∃ s, TickStart s0 s ∧ e = tick s := by
  induction h with
  | first => exact ⟨s0, TickStart.init, rfl⟩
  | next e _ hf ih =>
    obtain ⟨s, hs, rfl⟩ := ih
    exact ⟨_, TickStart.next s hs hf, rfl⟩

theorem TickStart_frame (s0 s : Sim) (h : TickStart s0 s) :
    s.alg_id = s0.alg_id ∧ s.jobs = s0.jobs ∧ s.num_jobs = s0.num_jobs := by
  induction h with
  | init => exact ⟨rfl, rfl, rfl⟩
  | next s _ _ ih =>
    obtain ⟨h1, h2, h3, _⟩ := tick_frame s
    exact ⟨h1.trans ih.1, h2.trans ih.2.1, h3.trans ih.2.2⟩

theorem cpu_phase_idle (s : Sim) :
    (s.active = none → s.rtr_queue = [] →
      (cpu_phase s).cpu_idle_time = s.cpu_idle_time + 1 ∧
      (cpu_phase s).cpu_busy_time = s.cpu_busy_time) ∧
    (¬ (s.active = none ∧ s.rtr_queue = []) →
      (cpu_phase s).cpu_idle_time = s.cpu_idle_time) := by
  constructor
  · intro ha hq
    have h : (set_next_job s).1 = none := (set_next_job_none_iff s).2 hq
    simp [cpu_phase, ha, h, set_next_job_frame]
  · intro hn
    unfold cpu_phase
    cases ha : s.active with
    | none =>
      have hq : s.rtr_queue ≠ [] := fun hq => hn ⟨ha, hq⟩
      have h : (set_next_job s).1 ≠ none := fun h => hq ((set_next_job_none_iff s).1 h)
      simp [h, set_next_job_frame]
    | some a =>
      simp only []
      split_ifs <;> simp [set_next_job_frame]

theorem dispatch_state_cases (s : Sim) :
    (s.active = none ∧ dispatch_state s = some s) ∨
    (∃ a, s.active = some a ∧ (s.heap a).burst_countdown - 1 = 0 ∧
      dispatch_state s
        = some { s with heap := Function.update s.heap a (blocked (s.heap a)) }) ∨
    (∃ a, s.active = some a ∧ (s.heap a).burst_countdown - 1 ≠ 0 ∧
      (s.heap a).quant_countdown - 1 = 0 ∧
      dispatch_state s
        = some { s with
            heap := Function.update s.heap a (preempted (s.heap a)),
            rtr_queue := push s.alg_id s.time
              (Function.update s.heap a (preempted (s.heap a))) s.rtr_queue a }) ∨
    (∃ a, s.active = some a ∧ (s.heap a).burst_countdown - 1 ≠ 0 ∧
      (s.heap a).quant_countdown - 1 ≠ 0 ∧ dispatch_state s = none ∧
      (cpu_phase s).heap = Function.update s.heap a (ran (s.heap a)) ∧
      (cpu_phase s).rtr_queue = s.rtr_queue ∧ (cpu_phase s).active = some a) := by
  cases ha : s.active with
  | none => left; exact ⟨rfl, by simp [dispatch_state, ha]⟩
  | some a =>
    right
    by_cases h1 : (s.heap a).burst_countdown - 1 = 0
    · left; exact ⟨a, rfl, h1, by simp [dispatch_state, ha, h1, blocked]⟩
    · by_cases h2 : (s.heap a).quant_countdown - 1 = 0
      · right; left; exact ⟨a, rfl, h1, h2, by simp [dispatch_state, ha, h1, h2, preempted]⟩
      · right; right
        exact ⟨a, rfl, h1, h2, by simp [dispatch_state, ha, h1, h2],
          by simp [cpu_phase, ha, h1, h2, ran], by simp [cpu_phase, ha, h1, h2],
          by simp [cpu_phase, ha, h1, h2]⟩

theorem set_next_job_steps (d : Sim) (hq : QInv d.jobs d.rtr_queue d.heap d.finished_jobs)
    (p : Nat) :
    Relation.ReflTransGen (CpuStep d.alg_id d.time) (d.heap p) ((set_next_job d).2.heap p) := by
  cases hqq : d.rtr_queue with
  | nil =>
    rw [(set_next_job_nil d hqq).2.1]
  | cons n rest =>
    rw [(set_next_job_cons d n rest hqq).2.1]
    by_cases hp : p = n.job
    · subst hp
      rw [Function.update_same]
      have hn := (hq.2.2.1 n.job).1 (by simp [hqq])
      exact Relation.ReflTransGen.single (CpuStep.dispatch _ hn.2)
    · rw [Function.update_noteq hp]

theorem cpu_phase_steps (s : Sim) (hi : Inv s) (p : Nat) :
    Relation.ReflTransGen (CpuStep s.alg_id s.time) (s.heap p) ((cpu_phase s).heap p) := by
  have hdisp : ∀ d, dispatch_state s = some d →
      Relation.ReflTransGen (CpuStep s.alg_id s.time) (s.heap p) (d.heap p) →
      Relation.ReflTransGen (CpuStep s.alg_id s.time) (s.heap p) ((cpu_phase s).heap p) := by
    intro d hd h1
    obtain ⟨d1, _, _, _, _, _, d7, d8⟩ := dispatch_state_inv s d hi hd
    have h2 := set_next_job_steps d d1 p
    rw [d7, d8] at h2
    rw [(cpu_phase_dispatch s d hd).1]
    exact Relation.ReflTransGen.trans h1 h2
  rcases dispatch_state_cases s with ⟨_, h⟩ | ⟨a, ha, h1, h⟩ | ⟨a, ha, h1, h2, h⟩ |
      ⟨a, ha, h1, h2, _, c1, _, _⟩
  · exact hdisp s h Relation.ReflTransGen.refl
  · apply hdisp _ h
    by_cases hp : p = a
    · subst hp
      simp only [Function.update_same]
      exact Relation.ReflTransGen.single (CpuStep.block _ ((hi.2.2 p).1 ha).2 h1)
    · simp only [Function.update_noteq hp]
      exact Relation.ReflTransGen.refl
  · apply hdisp _ h
    by_cases hp : p = a
    · subst hp
      simp only [Function.update_same]
      exact Relation.ReflTransGen.single (CpuStep.preempt _ ((hi.2.2 p).1 ha).2 h1 h2)
    · simp only [Function.update_noteq hp]
      exact Relation.ReflTransGen.refl
  · rw [c1]
    by_cases hp : p = a
    · subst hp
      rw [Function.update_same]
      exact Relation.ReflTransGen.single (CpuStep.run _ ((hi.2.2 p).1 ha).2 h1 h2)
    · rw [Function.update_noteq hp]

theorem scan_job_self (s : Sim) (p : Nat) :
    (scan_job s p).heap p = scanned s.time (s.heap p) := by
  unfold scanned
  rcases scan_job_cases s p with ⟨h1, h2, c1, _, _⟩ | ⟨h1, h2, h3, c1, _, _⟩ |
      ⟨h1, h2, h3, c1, _, _⟩ | ⟨h1, c1, _, _⟩ | ⟨h1, h2, c1, _, _⟩
  · rw [c1]; simp [h1, h2]
  · rw [c1]; simp [h1, h2, h3]
  · rw [c1]; simp [h1, h2, h3]
  · rw [c1]; simp [h1]
  · rw [c1]; simp [h1, h2]

theorem scan_fold_self (l : List Nat) : ∀ (s : Sim) (p : Nat), l.Nodup →
    (l.foldl scan_job s).heap p = if p ∈ l then scanned s.time (s.heap p) else s.heap p := by
  induction l with
  | nil => intro s p _; simp
  | cons x l ih =>
    intro s p hnd
    obtain ⟨hx, hnd'⟩ := List.nodup_cons.1 hnd
    simp only [List.foldl_cons]
    rw [ih (scan_job s x) p hnd', (scan_job_frame s x).2.2.2.2.1]
    by_cases hp : p = x
    · subst hp
      simp [hx, scan_job_self]
    · simp [hp, scan_job_heap_other s x p hp]

theorem tick_heap_eq (s : Sim) (hi : Inv s) (p : Nat) (hp : p ∈ s.jobs) :
    (tick s).heap p = scanned s.time ((cpu_phase s).heap p) := by
  have hci := cpu_phase_inv s hi
  obtain ⟨_, f2, _, _, f5⟩ := cpu_phase_frame s
  unfold tick scan
  rw [scan_list _ hci, scan_fold_self _ _ p hci.1.1, f5, f2, if_pos hp]

theorem steps_preserve {alg_id : algs} {t : Int} (K : job_t → Prop)
    (hc : ∀ j j', K j → CpuStep alg_id t j j' → K j') {j j' : job_t}
    (h : Relation.ReflTransGen (CpuStep alg_id t) j j') (hj : K j) : K j' := by
  induction h with
  | refl => exact hj
  | tail _ hstep ih => exact hc _ _ ih hstep

theorem tick_preserves (K : job_t → Prop) (s : Sim) (hi : Inv s) (p : Nat) (hp : p ∈ s.jobs)
    (hc : ∀ j j', K j → CpuStep s.alg_id s.time j j' → K j')
    (hs : ∀ j, K j → K (scanned s.time j)) (h : K (s.heap p)) : K ((tick s).heap p) := by
  rw [tick_heap_eq s hi p hp]
  exact hs _ (steps_preserve K hc (cpu_phase_steps s hi p) h)

/-- A job not on the CPU and not ready is not touched by the first part of the tick. -/
theorem cpu_phase_untouched (s : Sim) (hi : Inv s) (p : Nat)
    (h1 : (s.heap p).state ≠ states.CPU) (h2 : (s.heap p).state ≠ states.RTR) :
    (cpu_phase s).heap p = s.heap p := by
  refine steps_preserve (fun x => x = s.heap p) ?_ (cpu_phase_steps s hi p) rfl
  intro j j' hj hstep
  subst hj
  cases hstep with
  | run h => exact absurd h h1
  | block h => exact absurd h h1
  | preempt h => exact absurd h h1
  | dispatch h => exact absurd h h2

theorem cpu_phase_wait (s : Sim) (hi : Inv s) (p : Nat) :
    ((cpu_phase s).heap p).wait_time = (s.heap p).wait_time ∧
    ((cpu_phase s).heap p).end_time = (s.heap p).end_time := by
  refine steps_preserve
    (fun x => x.wait_time = (s.heap p).wait_time ∧ x.end_time = (s.heap p).end_time) ?_
    (cpu_phase_steps s hi p) ⟨rfl, rfl⟩
  intro j j' hj hstep
  cases hstep <;> exact hj

theorem cpu_phase_not_done (s : Sim) (hi : Inv s) (p : Nat)
    (h : (s.heap p).state ≠ states.DONE) : ((cpu_phase s).heap p).state ≠ states.DONE := by
  refine steps_preserve (fun x => x.state ≠ states.DONE) ?_ (cpu_phase_steps s hi p) h
  intro j j' _ hstep
  cases hstep <;> simp [ran, blocked, preempted, dispatched, *]

theorem scanned_done (t : Int) (j : job_t) (h : j.state ≠ states.DONE)
    (hd : (scanned t j).state = states.DONE) :
    (scanned t j).end_time = t ∧ j.state = states.IO_ ∧ j.burst_countdown = 0 ∧ j.reps = 0 := by
  unfold scanned at hd ⊢
  by_cases h1 : j.state = states.IO_
  · by_cases h2 : j.burst_countdown = 0
    · by_cases h3 : j.reps = 0
      · simp [h1, h2, h3]
      · simp [h1, h2, h3] at hd
    · simp [h1, h2] at hd
  · by_cases h4 : j.state = states.RTR
    · simp [h1, h4] at hd
    · simp [h1, h4] at hd
      exact absurd hd h

theorem TimeOK_mono (t t' : Int) (j : job_t) (h : TimeOK t j) (ht : t ≤ t') : TimeOK t' j := by
  obtain ⟨h1, h2, h3⟩ := h
  refine ⟨?_, h2, ?_⟩
  · rcases h1 with h | h
    · exact Or.inl h
    · exact Or.inr ⟨h.1, le_trans h.2 ht⟩
  · intro hd
    exact ⟨(h3 hd).1, le_trans (h3 hd).2 ht⟩

theorem TimeOK_step (alg_id : algs) (t : Int) (ht : 1 ≤ t) (j j' : job_t) (h : TimeOK t j)
    (hstep : CpuStep alg_id t j j') : TimeOK t j' := by
  obtain ⟨h1, h2, h3⟩ := h
  cases hstep with
  | run hs _ _ =>
    have := h2 (by rw [hs]; decide)
    exact ⟨h1, fun _ => this, fun hd => by simp [ran, hs] at hd⟩
  | block hs _ =>
    have := h2 (by rw [hs]; decide)
    exact ⟨h1, fun _ => this, fun hd => by simp [blocked] at hd⟩
  | preempt hs _ _ =>
    have := h2 (by rw [hs]; decide)
    exact ⟨h1, fun _ => this, fun hd => by simp [preempted] at hd⟩
  | dispatch hs =>
    have hst : 1 ≤ (dispatched alg_id t j).start_time ∧ (dispatched alg_id t j).start_time ≤ t := by
      simp only [dispatched]
      split_ifs with h0
      · exact ⟨ht, le_refl _⟩
      · rcases h1 with h | h
        · exact absurd h h0
        · exact h
    exact ⟨Or.inr hst, fun _ => hst.1, fun hd => by simp [dispatched] at hd⟩

theorem TimeOK_scanned (t : Int) (j : job_t) (h : TimeOK t j) : TimeOK t (scanned t j) := by
  obtain ⟨h1, h2, h3⟩ := h
  unfold scanned
  split_ifs with hio hb hr hrtr
  · have := h2 (by rw [hio]; decide)
    refine ⟨h1, fun _ => this, fun _ => ?_⟩
    rcases h1 with h | h
    · simp only [] ; omega
    · exact ⟨h.2, le_refl _⟩
  · exact ⟨h1, fun hn => absurd rfl hn, fun hd => by simp at hd⟩
  · exact ⟨h1, fun _ => h2 (by rw [hio]; decide), fun hd => by simp [hio] at hd⟩
  · exact ⟨h1, fun hn => absurd hrtr hn, fun hd => by simp [hrtr] at hd⟩
  · exact ⟨h1, h2, h3⟩

theorem tick_time_ok (s : Sim) (hi : Inv s) (ht : 1 ≤ s.time)
    (h : ∀ p ∈ s.jobs, TimeOK s.time (s.heap p)) :
    ∀ p ∈ (tick s).jobs, TimeOK (tick s).time ((tick s).heap p) := by
  obtain ⟨_, f2, _, f4⟩ := tick_frame s
  rw [f4, f2]
  intro p hp
  exact tick_preserves (TimeOK s.time) s hi p hp
    (fun j j' hj hstep => TimeOK_step _ _ ht j j' hj hstep)
    (fun j hj => TimeOK_scanned _ j hj) (h p hp)

theorem TickStart_time (alg_id : algs) (recs : List record) (s : Sim)
    (h : TickStart (load_jobs alg_id recs) s) :
    1 ≤ s.time ∧ ∀ p ∈ s.jobs, TimeOK s.time (s.heap p) := by
  induction h with
  | init =>
    obtain ⟨_, _, _, l4, _⟩ := load_jobs_spec alg_id recs
    rw [(load_jobs_frame alg_id recs).2.2.2.1]
    refine ⟨le_refl _, l4 (TimeOK 1) (fun r _ => ?_)⟩
    exact ⟨Or.inl rfl, fun hn => absurd rfl hn, fun hd => by simp [job_of, calloc_job] at hd⟩
  | next s hs _ ih =>
    have hi := TickStart_inv _ s (load_jobs_inv alg_id recs) hs
    have hk := tick_time_ok s hi ih.1 ih.2
    have f4 := (tick_frame s).2.2.2
    refine ⟨by simp only []; linarith [ih.1], ?_⟩
    intro p hp
    exact TimeOK_mono _ _ _ (hk p hp) (by simp only []; linarith)

theorem TickEnd_time (alg_id : algs) (recs : List record) (s : Sim)
    (h : TickEnd (load_jobs alg_id recs) s) :
    1 ≤ s.time ∧ ∀ p ∈ s.jobs, TimeOK s.time (s.heap p) := by
  obtain ⟨s1, hs1, rfl⟩ := TickEnd_start _ s h
  have hi := TickStart_inv _ s1 (load_jobs_inv alg_id recs) hs1
  obtain ⟨h1, h2⟩ := TickStart_time alg_id recs s1 hs1
  exact ⟨by rw [(tick_frame s1).2.2.2]; exact h1, tick_time_ok s1 hi h1 h2⟩

theorem tick_done_fixed (s : Sim) (hi : Inv s) (p : Nat) (hp : p ∈ s.jobs) :
    ((s.heap p).state = states.DONE → (tick s).heap p = s.heap p) ∧
    ((s.heap p).state ≠ states.DONE → ((tick s).heap p).state = states.DONE →
      ((tick s).heap p).end_time = s.time) := by
  rw [tick_heap_eq s hi p hp]
  constructor
  · intro hd
    rw [cpu_phase_untouched s hi p (by rw [hd]; decide) (by rw [hd]; decide)]
    simp [scanned, hd]
  · intro hnd hd
    exact (scanned_done _ _ (cpu_phase_not_done s hi p hnd) hd).1

theorem NegQuant_step (alg_id : algs) (ha : alg_id ≠ algs.RR) (t : Int) (j j' : job_t)
    (h : NegQuant j) (hstep : CpuStep alg_id t j j') : NegQuant j' := by
  cases hstep with
  | run hs _ _ =>
    have := h hs
    intro _
    simp only [ran]
    linarith
  | block hs _ => intro hc; simp [blocked] at hc
  | preempt hs _ _ => intro hc; simp [preempted] at hc
  | dispatch hs => intro _; simp [dispatched, ha]

theorem scanned_cases (t : Int) (j : job_t) :
    (j.state = states.IO_ ∧ j.burst_countdown ≠ 0 ∧
      scanned t j = { j with burst_countdown := j.burst_countdown - 1 }) ∨
    (j.state = states.IO_ ∧ j.burst_countdown = 0 ∧ j.reps = 0 ∧
      scanned t j = { j with burst_countdown := -1, state := states.DONE, end_time := t }) ∨
    (j.state = states.IO_ ∧ j.burst_countdown = 0 ∧ j.reps ≠ 0 ∧
      scanned t j
        = { j with burst_countdown := -1, state := states.RTR,
                   wait_time := j.wait_time + 1 }) ∨
    (j.state = states.RTR ∧ scanned t j = { j with wait_time := j.wait_time + 1 }) ∨
    (j.state ≠ states.IO_ ∧ j.state ≠ states.RTR ∧ scanned t j = j) := by
  unfold scanned
  by_cases h1 : j.state = states.IO_
  · by_cases h2 : j.burst_countdown = 0
    · by_cases h3 : j.reps = 0
      · right; left; exact ⟨h1, h2, h3, by simp [h1, h2, h3]⟩
      · right; right; left; exact ⟨h1, h2, h3, by simp [h1, h2, h3]⟩
    · left; exact ⟨h1, h2, by simp [h1, h2]⟩
  · by_cases h4 : j.state = states.RTR
    · right; right; right; left; exact ⟨h4, by simp [h1, h4]⟩
    · right; right; right; right; exact ⟨h1, h4, by simp [h1, h4]⟩

theorem NegQuant_scanned (t : Int) (j : job_t) (h : NegQuant j) : NegQuant (scanned t j) := by
  intro hc
  rcases scanned_cases t j with ⟨h1, _, e⟩ | ⟨h1, _, _, e⟩ | ⟨h1, _, _, e⟩ | ⟨h1, e⟩ |
      ⟨_, _, e⟩ <;> rw [e] at hc ⊢ <;> simp_all [NegQuant]

theorem TickStart_negquant (alg_id : algs) (ha : alg_id ≠ algs.RR) (recs : List record)
    (s : Sim) (h : TickStart (load_jobs alg_id recs) s) :
    ∀ p ∈ s.jobs, NegQuant (s.heap p) := by
  induction h with
  | init =>
    obtain ⟨_, _, _, l4, _⟩ := load_jobs_spec alg_id recs
    exact l4 NegQuant (fun r _ hc => by simp [job_of, calloc_job] at hc)
  | next s hs _ ih =>
    have hi := TickStart_inv _ s (load_jobs_inv alg_id recs) hs
    have halg : s.alg_id = alg_id :=
      (TickStart_frame _ s hs).1.trans (load_jobs_frame alg_id recs).1
    intro p hp
    have hp' : p ∈ s.jobs := by
      have := (tick_frame s).2.1
      simp only [] at hp
      rw [this] at hp
      exact hp
    exact tick_preserves NegQuant s hi p hp'
      (fun j j' hj hstep => NegQuant_step _ (by rw [halg]; exact ha) _ j j' hj hstep)
      (fun j hj => NegQuant_scanned _ j hj) (ih p hp')

theorem cpu_phase_active (s : Sim) (hi : Inv s) (a : Nat) (ha : s.active = some a) :
    ((s.heap a).burst_countdown - 1 = 0 → (cpu_phase s).heap a = blocked (s.heap a)) ∧
    ((s.heap a).burst_countdown - 1 ≠ 0 → (s.heap a).quant_countdown - 1 ≠ 0 →
      (cpu_phase s).heap a = ran (s.heap a) ∧ (cpu_phase s).active = some a ∧
      (cpu_phase s).rtr_queue = s.rtr_queue) := by
  have hblock : ∀ d, dispatch_state s = some d → d.heap a = blocked (s.heap a) →
      (cpu_phase s).heap a = blocked (s.heap a) := by
    intro d hd hda
    obtain ⟨d1, _, _, _, _, _, d7, d8⟩ := dispatch_state_inv s d hi hd
    rw [(cpu_phase_dispatch s d hd).1, ← hda]
    refine steps_preserve (fun x => x = d.heap a) ?_ (set_next_job_steps d d1 a) rfl
    intro j j' hj hstep
    subst hj
    rw [hda] at hstep
    cases hstep with
    | run h => simp [blocked] at h
    | block h => simp [blocked] at h
    | preempt h => simp [blocked] at h
    | dispatch h => simp [blocked] at h
  rcases dispatch_state_cases s with ⟨h0, _⟩ | ⟨a', ha', h1, h⟩ | ⟨a', ha', h1, h2, _⟩ |
      ⟨a', ha', h1, h2, _, c1, c2, c3⟩
  · rw [ha] at h0; cases h0
  · rw [ha] at ha'; cases ha'
    exact ⟨fun _ => hblock _ h (by simp), fun hn => absurd h1 hn⟩
  · rw [ha] at ha'; cases ha'
    exact ⟨fun h0 => absurd h0 h1, fun _ hn => absurd h2 hn⟩
  · rw [ha] at ha'; cases ha'
    exact ⟨fun h0 => absurd h0 h1, fun _ _ => ⟨by rw [c1]; simp, c3, c2⟩⟩

theorem Stuck_step (alg_id : algs) (t : Int) (j j' : job_t) (h : Stuck j)
    (hstep : CpuStep alg_id t j j') : Stuck j' := by
  obtain ⟨h1, h2, h3⟩ := h
  cases hstep with
  | run hs _ _ =>
    exact ⟨by simp [ran, hs], h2, fun _ => h3 (Or.inl hs)⟩
  | block hs _ =>
    exact ⟨by simp [blocked], h2, fun _ => h3 (Or.inl hs)⟩
  | preempt hs _ _ =>
    exact ⟨by simp [preempted], h2, fun _ => h3 (Or.inl hs)⟩
  | dispatch hs =>
    by_cases hb : j.burst_countdown ≤ 0
    · refine ⟨by simp [dispatched], ?_, fun _ => ?_⟩ <;>
        simp only [dispatched, hb, if_true] <;> linarith
    · have := h3 (Or.inr (Or.inr (not_le.1 hb)))
      refine ⟨by simp [dispatched], ?_, fun _ => ?_⟩ <;>
        simp only [dispatched, hb, if_false] <;> linarith

theorem Stuck_scanned (t : Int) (j : job_t) (h : Stuck j) : Stuck (scanned t j) := by
  obtain ⟨h1, h2, h3⟩ := h
  rcases scanned_cases t j with ⟨s1, _, e⟩ | ⟨s1, _, s3, e⟩ | ⟨s1, _, _, e⟩ | ⟨s1, e⟩ |
      ⟨_, _, e⟩
  · rw [e]
    exact ⟨by simp [s1], h2, fun _ => h3 (Or.inr (Or.inl s1))⟩
  · have := h3 (Or.inr (Or.inl s1))
    rw [s3] at this
    exact absurd this (lt_irrefl _)
  · rw [e]
    exact ⟨by simp, h2, fun _ => h3 (Or.inr (Or.inl s1))⟩
  · rw [e]
    refine ⟨by simp [s1], h2, ?_⟩
    intro hh
    simp only [s1] at hh
    rcases hh with hh | hh | hh
    · cases hh
    · cases hh
    · exact h3 (Or.inr (Or.inr hh))
  · rw [e]
    exact ⟨h1, h2, h3⟩

theorem load_fold_heap (recs : List record) : ∀ (s : Sim), 0 ≤ s.num_jobs →
    (∀ p < s.num_jobs.toNat, (recs.foldl load_line s).heap p = s.heap p) ∧
    (∀ (i : Nat) (r : record), recs[i]? = some r →
      (recs.foldl load_line s).heap (s.num_jobs.toNat + i) = job_of r) := by
  induction recs with
  | nil => intro s _; exact ⟨fun _ _ => rfl, fun i r h => by simp at h⟩
  | cons r0 recs ih =>
    intro s hs
    have hn : (load_line s r0).num_jobs = s.num_jobs + 1 := rfl
    have hsucc : (s.num_jobs + 1).toNat = s.num_jobs.toNat + 1 := by omega
    obtain ⟨i1, i2⟩ := ih (load_line s r0) (by rw [hn]; omega)
    rw [hn, hsucc] at i1 i2
    have hheap : ∀ p, p ≠ s.num_jobs.toNat → (load_line s r0).heap p = s.heap p := by
      intro p hp
      simp [load_line, Function.update_noteq hp]
    have hnew : (load_line s r0).heap s.num_jobs.toNat = job_of r0 := by
      simp [load_line]
    simp only [List.foldl_cons]
    constructor
    · intro p hp
      rw [i1 p (by omega), hheap p (by omega)]
    · intro i r hr
      cases i with
      | zero =>
        simp only [List.getElem?_cons_zero, Option.some.injEq] at hr
        subst hr
        rw [Nat.add_zero, i1 _ (by omega), hnew]
      | succ i =>
        simp only [List.getElem?_cons_succ] at hr
        have := i2 i r hr
        rw [show s.num_jobs.toNat + (i + 1) = s.num_jobs.toNat + 1 + i by omega]
        exact this

/-- The job at address `i` after loading is the job of the `i`-th line. -/
theorem load_jobs_heap (alg_id : algs) (recs : List record) (i : Nat) (r : record)
    (hr : recs[i]? = some r) :
    (load_jobs alg_id recs).heap i = job_of r ∧ i ∈ (load_jobs alg_id recs).jobs := by
  have h := (load_fold_heap recs (init alg_id) (by simp [init])).2 i r hr
  have h0 : (init alg_id).num_jobs.toNat = 0 := by simp [init]
  rw [h0, Nat.zero_add] at h
  refine ⟨h, ?_⟩
  rw [(load_jobs_spec alg_id recs).2.2.1 i]
  by_contra hlt
  rw [List.getElem?_eq_none (not_lt.1 hlt)] at hr
  cases hr

theorem TickStart_stuck (alg_id : algs) (recs : List record) (i : Nat) (r : record)
    (hr : recs[i]? = some r) (hreps : r.reps ≤ 0) (s : Sim)
    (h : TickStart (load_jobs alg_id recs) s) : i ∈ s.jobs ∧ Stuck (s.heap i) := by
  induction h with
  | init =>
    obtain ⟨h1, h2⟩ := load_jobs_heap alg_id recs i r hr
    refine ⟨h2, ?_⟩
    rw [h1]
    refine ⟨by simp [job_of, calloc_job], hreps, ?_⟩
    intro hh
    simp [job_of, calloc_job] at hh
  | next s hs _ ih =>
    have hi := TickStart_inv _ s (load_jobs_inv alg_id recs) hs
    refine ⟨by simp only []; rw [(tick_frame s).2.1]; exact ih.1, ?_⟩
    exact tick_preserves Stuck s hi i ih.1 (fun j j' hj hstep => Stuck_step _ _ j j' hj hstep)
      (fun j hj => Stuck_scanned _ j hj) ih.2

theorem stuck_unfinished (s : Sim) (hi : Inv s) (i : Nat) (hm : i ∈ s.jobs)
    (hs : (s.heap i).state ≠ states.DONE) : s.finished_jobs < s.num_jobs := by
  by_contra hf
  exact hs ((finished_all_done s hi hf).2 i hm)

theorem run_loop_stuck (fuel : Nat) : ∀ (s : Sim) (i : Nat), Inv s → i ∈ s.jobs →
    Stuck (s.heap i) → run_loop fuel s = none := by
  induction fuel with
  | zero => intro s i _ _ _; rfl
  | succ n ih =>
    intro s i hi hm hs
    have hti := tick_inv s hi
    have hm' : i ∈ (tick s).jobs := by rw [(tick_frame s).2.1]; exact hm
    have hst := tick_preserves Stuck s hi i hm
      (fun j j' hj hstep => Stuck_step _ _ j j' hj hstep)
      (fun j hj => Stuck_scanned _ j hj) hs
    have hf := stuck_unfinished (tick s) hti i hm' hst.1
    rw [run_loop]
    simp only [hf, if_true]
    exact ih _ i (Inv_time _ _ hti) hm' hst

theorem scanned_io_wait (t : Int) (j : job_t) (h1 : j.state = states.IO_)
    (h2 : j.burst_countdown ≠ 0) :
    scanned t j = { j with burst_countdown := j.burst_countdown - 1 } := by
  simp [scanned, h1, h2]

theorem scanned_wait (t : Int) (j : job_t) :
    (scanned t j).wait_time
      = j.wait_time + (if (scanned t j).state = states.RTR then 1 else 0) ∧
    ((scanned t j).state = states.RTR ↔
      j.state = states.RTR ∨
      (j.state = states.IO_ ∧ j.burst_countdown = 0 ∧ j.reps ≠ 0)) := by
  rcases scanned_cases t j with ⟨s1, s2, e⟩ | ⟨s1, s2, s3, e⟩ | ⟨s1, s2, s3, e⟩ | ⟨s1, e⟩ |
      ⟨s1, s2, e⟩
  · rw [e]; simp [s1, s2]
  · rw [e]; simp [s1, s2, s3]
  · rw [e]; simp [s1, s2, s3]
  · rw [e]; simp [s1]
  · rw [e]; simp [s1, s2]

theorem tick_wait (s : Sim) (hi : Inv s) (p : Nat) (hp : p ∈ s.jobs) :
    ((tick s).heap p).wait_time
      = (s.heap p).wait_time + (if ((tick s).heap p).state = states.RTR then 1 else 0) := by
  rw [tick_heap_eq s hi p hp, (scanned_wait _ _).1, (cpu_phase_wait s hi p).1]

theorem run_loop_wait (fuel : Nat) : ∀ (s s' : Sim), Inv s → run_loop fuel s = some s' →
    ∀ p ∈ s.jobs, (s'.heap p).wait_time = (s.heap p).wait_time + ready_ticks fuel s p := by
  induction fuel with
  | zero => intro s s' _ h; simp [run_loop] at h
  | succ n ih =>
    intro s s' hi h p hp
    have hti := tick_inv s hi
    have hw := tick_wait s hi p hp
    have hp' : p ∈ (tick s).jobs := by rw [(tick_frame s).2.1]; exact hp
    simp only [run_loop] at h
    simp only [ready_ticks]
    split_ifs at h with hf
    · have := ih { tick s with time := (tick s).time + 1 } s'
        (Inv_time (tick s) ((tick s).time + 1) hti) h p hp'
      simp only [hf, if_true]
      simp only [] at this
      rw [this, hw]
      ring
    · simp only [Option.some.injEq] at h
      subst h
      simp only [hf, if_false]
      rw [hw]
      ring

theorem run_loop_jobs (fuel : Nat) : ∀ (s s' : Sim), run_loop fuel s = some s' →
    s'.jobs = s.jobs := by
  induction fuel with
  | zero => intro s s' h; simp [run_loop] at h
  | succ n ih =>
    intro s s' h
    simp only [run_loop] at h
    split_ifs at h with hf
    · exact (ih _ _ h).trans (tick_frame s).2.1
    · simp only [Option.some.injEq] at h
      subst h
      exact (tick_frame s).2.1

theorem io_wait_step (e : Sim) (hi : Inv e) (p : Nat) (hp : p ∈ e.jobs) (j : job_t)
    (hj : j.state = states.IO_) (h : e.heap p = j) :
    (tick { e with time := e.time + 1 }).heap p = scanned (e.time + 1) j := by
  have hi' := Inv_time e (e.time + 1) hi
  rw [tick_heap_eq _ hi' p hp]
  have hun := cpu_phase_untouched { e with time := e.time + 1 } hi' p
    (by simp only []; rw [h, hj]; decide) (by simp only []; rw [h, hj]; decide)
  rw [hun]
  simp only []
  rw [h]

theorem io_burst_run (alg_id : algs) (recs : List record) (s : Sim)
    (hs : TickStart (load_jobs alg_id recs) s) (p : Nat) (hp : p ∈ s.jobs) (j : job_t)
    (hj : j.state = states.IO_) (L : Nat) (hL : j.burst_countdown = L)
    (h0 : (cpu_phase s).heap p = j) :
    ∀ i, i < L →
      TickEnd (load_jobs alg_id recs) (later s i) ∧ (later s i).time = s.time + i ∧
      (later s i).jobs = s.jobs ∧
      (later s i).heap p = { j with burst_countdown := (L : Int) - 1 - i } := by
  have hi := TickStart_inv _ s (load_jobs_inv alg_id recs) hs
  intro i
  induction i with
  | zero =>
    intro hlt
    refine ⟨TickStart_end _ s hs, by simp [later, (tick_frame s).2.2.2], (tick_frame s).2.1, ?_⟩
    simp only [later]
    rw [tick_heap_eq s hi p hp, h0]
    have hne : j.burst_countdown ≠ 0 := by rw [hL]; exact_mod_cast (by omega : L ≠ 0)
    rw [scanned_io_wait _ j hj hne, hL]
    simp
  | succ i ih =>
    intro hlt
    obtain ⟨a1, a2, a3, a4⟩ := ih (by omega)
    have hie := TickEnd_inv _ _ (load_jobs_inv alg_id recs) a1
    have hpe : p ∈ (later s i).jobs := by rw [a3]; exact hp
    have hunf : (later s i).finished_jobs < (later s i).num_jobs :=
      stuck_unfinished _ hie p hpe (by rw [a4]; simp [hj])
    refine ⟨TickEnd.next _ a1 hunf, ?_, ?_, ?_⟩
    · simp only [later]
      rw [(tick_frame _).2.2.2]
      simp only []
      rw [a2]; push_cast; ring
    · simp only [later]
      rw [(tick_frame _).2.1]
      exact a3
    · simp only [later]
      rw [io_wait_step (later s i) hie p hpe _ (by simp [hj]) a4]
      have hne : (L : Int) - 1 - i ≠ 0 := by omega
      rw [scanned_io_wait _ _ (by simp [hj]) (by simpa using hne)]
      simp only [job_t.mk.injEq, true_and, and_true]
      push_cast
      ring

theorem push_mem (alg_id : algs) (time : Int) (heap : Nat → job_t) (q : List node_t)
    (j : Nat) (e : node_t) (he : e ∈ push alg_id time heap q j) :
    e = { priority := getpri alg_id time (heap j), job := j } ∨ e ∈ q := by
  obtain ⟨pre, post, h1, h2, _, _⟩ := push_decomp alg_id time heap q j
  rw [h2] at he
  rw [h1]
  simp only [List.mem_append, List.mem_cons] at he ⊢
  tauto

/-- A job whose rank is above every rank in the queue is linked in at the tail. -/
theorem push_tail (alg_id : algs) (time : Int) (heap : Nat → job_t) (q : List node_t)
    (j : Nat) (h : ∀ e ∈ q, e.priority < getpri alg_id time (heap j)) :
    push alg_id time heap q j
      = q ++ [{ priority := getpri alg_id time (heap j), job := j }] := by
  obtain ⟨pre, post, h1, h2, _, h4⟩ := push_decomp alg_id time heap q j
  cases post with
  | nil => rw [h2, h1]; simp
  | cons x xs =>
    have hx := h4 x rfl
    have := h x (by rw [h1]; simp)
    exact absurd hx (not_le.2 this)

theorem set_next_job_queue (s : Sim) (e : node_t) (he : e ∈ (set_next_job s).2.rtr_queue) :
    e ∈ s.rtr_queue := by
  cases hq : s.rtr_queue with
  | nil => rw [(set_next_job_nil s hq).2.2] at he; cases he
  | cons n rest =>
    rw [(set_next_job_cons s n rest hq).2.2] at he
    exact List.mem_cons_of_mem _ he

theorem cpu_phase_queue_rr (s : Sim) (hrr : s.alg_id = algs.RR) (e : node_t)
    (he : e ∈ (cpu_phase s).rtr_queue) : e ∈ s.rtr_queue ∨ e.priority = s.time := by
  rcases dispatch_state_cases s with ⟨_, h⟩ | ⟨a, _, _, h⟩ | ⟨a, _, _, _, h⟩ |
      ⟨a, _, _, _, _, _, c2, _⟩
  · rw [(cpu_phase_dispatch s s h).2.1] at he
    exact Or.inl (set_next_job_queue s e he)
  · rw [(cpu_phase_dispatch s _ h).2.1] at he
    have := set_next_job_queue _ e he
    exact Or.inl this
  · rw [(cpu_phase_dispatch s _ h).2.1] at he
    have := set_next_job_queue _ e he
    simp only [] at this
    rcases push_mem _ _ _ _ _ e this with h' | h'
    · right; rw [h']; simp [getpri, hrr]
    · exact Or.inl h'
  · rw [c2] at he; exact Or.inl he

theorem scan_job_queue_rr (s : Sim) (hrr : s.alg_id = algs.RR) (p : Nat) (e : node_t)
    (he : e ∈ (scan_job s p).rtr_queue) : e ∈ s.rtr_queue ∨ e.priority = s.time := by
  rcases scan_job_cases s p with ⟨_, _, _, c2, _⟩ | ⟨_, _, _, _, c2, _⟩ |
      ⟨_, _, _, _, c2, _⟩ | ⟨_, _, c2, _⟩ | ⟨_, _, _, c2, _⟩
  · rw [c2] at he; exact Or.inl he
  · rw [c2] at he; exact Or.inl he
  · rw [c2] at he
    rcases push_mem _ _ _ _ _ e he with h' | h'
    · right; rw [h']; simp [getpri, hrr]
    · exact Or.inl h'
  · rw [c2] at he; exact Or.inl he
  · rw [c2] at he; exact Or.inl he

theorem scan_fold_queue_rr (l : List Nat) : ∀ (s : Sim), s.alg_id = algs.RR →
    ∀ e ∈ (l.foldl scan_job s).rtr_queue, e ∈ s.rtr_queue ∨ e.priority = s.time := by
  induction l with
  | nil => intro s _ e he; exact Or.inl he
  | cons p l ih =>
    intro s hrr e he
    obtain ⟨f1, _, _, _, f5, _, _⟩ := scan_job_frame s p
    simp only [List.foldl_cons] at he
    rcases ih (scan_job s p) (f1.trans hrr) e he with h | h
    · exact scan_job_queue_rr s hrr p e h
    · exact Or.inr (h.trans f5)

theorem tick_queue_rr (s : Sim) (hrr : s.alg_id = algs.RR) (e : node_t)
    (he : e ∈ (tick s).rtr_queue) : e ∈ s.rtr_queue ∨ e.priority = s.time := by
  obtain ⟨f1, _, _, _, f5⟩ := cpu_phase_frame s
  unfold tick scan at he
  rcases scan_fold_queue_rr _ (cpu_phase s) (f1.trans hrr) e he with h | h
  · exact cpu_phase_queue_rr s hrr e h
  · exact Or.inr (h.trans f5)

theorem load_fold_queue_rr (recs : List record) : ∀ (s : Sim), s.alg_id = algs.RR →
    s.time = 1 → (∀ e ∈ s.rtr_queue, e.priority = 1) →
    ∀ e ∈ (recs.foldl load_line s).rtr_queue, e.priority = 1 := by
  induction recs with
  | nil => intro s _ _ h; exact h
  | cons r recs ih =>
    intro s hrr ht h
    simp only [List.foldl_cons]
    apply ih (load_line s r) hrr ht
    intro e he
    simp only [load_line] at he
    rcases push_mem _ _ _ _ _ e he with h' | h'
    · rw [h']; simp [getpri, hrr, ht]
    · exact h e h'

theorem TickStart_queue_rr (recs : List record) (s : Sim)
    (h : TickStart (load_jobs algs.RR recs) s) :
    s.alg_id = algs.RR ∧ (∀ e ∈ s.rtr_queue, e.priority ≤ s.time) ∧
    (s.active ≠ none → ∀ e ∈ s.rtr_queue, e.priority < s.time) := by
  induction h with
  | init =>
    obtain ⟨f1, f2, _, f4, _, _⟩ := load_jobs_frame algs.RR recs
    have hq := load_fold_queue_rr recs (init algs.RR) rfl rfl (by simp [init])
    refine ⟨f1, ?_, fun hn => absurd f2 hn⟩
    intro e he
    rw [f4]
    exact le_of_eq (hq e he)
  | next s _ _ ih =>
    obtain ⟨i1, i2, _⟩ := ih
    have hlt : ∀ e ∈ (tick s).rtr_queue, e.priority < s.time + 1 := by
      intro e he
      rcases tick_queue_rr s i1 e he with h' | h'
      · have := i2 e h'; linarith
      · linarith
    have ht := (tick_frame s).2.2.2
    refine ⟨(tick_frame s).1.trans i1, ?_, fun _ => ?_⟩
    · intro e he
      simp only [] at he ⊢
      rw [ht]
      exact le_of_lt (hlt e he)
    · intro e he
      simp only [] at he ⊢
      rw [ht]
      exact hlt e he

theorem tick_start_reach (s0 : Sim) (n : Nat) : ∀ s, tick_start s0 n = some s →
    TickStart s0 s := by
  induction n with
  | zero =>
    intro s h
    simp only [tick_start, Option.some.injEq] at h
    subst h
    exact TickStart.init
  | succ n ih =>
    intro s h
    simp only [tick_start] at h
    cases hn : tick_start s0 n with
    | none => rw [hn] at h; cases h
    | some s1 =>
      rw [hn] at h
      simp only [] at h
      split_ifs at h with hf
      simp only [Option.some.injEq] at h
      subst h
      exact TickStart.next s1 (ih s1 hn) hf

theorem tick_start_succ (s0 : Sim) (n : Nat) (s : Sim) (h : tick_start s0 n = some s)
    (hf : (tick s).finished_jobs < (tick s).num_jobs) :
    tick_start s0 (n + 1) = some { tick s with time := (tick s).time + 1 } := by
  simp [tick_start, h, hf]

/-- With one job in the array, `active` and the queue are determined by its state. -/
theorem single_job_shape (s : Sim) (hi : Inv s) (hj : s.jobs = [0]) :
    ((s.heap 0).state = states.CPU → s.active = some 0) ∧
    ((s.heap 0).state ≠ states.CPU → s.active = none) ∧
    ((s.heap 0).state ≠ states.RTR → s.rtr_queue = []) := by
  obtain ⟨⟨_, _, h3, _⟩, _, hact⟩ := hi
  refine ⟨fun h => (hact 0).2 ⟨by rw [hj]; simp, h⟩, ?_, ?_⟩
  · intro h
    cases ha : s.active with
    | none => rfl
    | some a =>
      obtain ⟨h1, h2⟩ := (hact a).1 ha
      rw [hj] at h1
      simp only [List.mem_singleton] at h1
      subst h1
      exact absurd h2 h
  · intro h
    cases hq : s.rtr_queue with
    | nil => rfl
    | cons n rest =>
      obtain ⟨h1, h2⟩ := (h3 n.job).1 (by rw [hq]; simp)
      rw [hj] at h1
      simp only [List.mem_singleton] at h1
      rw [h1] at h2
      exact absurd h2 h

/-- A preempted job that finds the queue empty is dispatched again at once. -/
theorem cpu_phase_preempt_alone (s : Sim) (a : Nat) (ha : s.active = some a)
    (h1 : (s.heap a).burst_countdown - 1 ≠ 0) (h2 : (s.heap a).quant_countdown - 1 = 0)
    (hq : s.rtr_queue = []) :
    (cpu_phase s).heap a = dispatched s.alg_id s.time (preempted (s.heap a)) ∧
    (cpu_phase s).active = some a ∧ (cpu_phase s).rtr_queue = [] := by
  rcases dispatch_state_cases s with ⟨h0, _⟩ | ⟨a', ha', hb, _⟩ | ⟨a', ha', _, _, h⟩ |
      ⟨a', ha', _, hn, _⟩
  · rw [ha] at h0; cases h0
  · rw [ha] at ha'; cases ha'; exact absurd hb h1
  · rw [ha] at ha'; cases ha'
    obtain ⟨c1, c2, c3⟩ := cpu_phase_dispatch s _ h
    have hcons := set_next_job_cons _ _ [] (show
      ({ s with
          heap := Function.update s.heap a (preempted (s.heap a)),
          rtr_queue := push s.alg_id s.time
            (Function.update s.heap a (preempted (s.heap a))) s.rtr_queue a } : Sim).rtr_queue
        = { priority := getpri s.alg_id s.time
              (Function.update s.heap a (preempted (s.heap a)) a), job := a } :: [] by
      simp [hq, push])
    rw [c1, c2, c3, hcons.1, hcons.2.1, hcons.2.2]
    simp
  · rw [ha] at ha'; cases ha'; exact absurd h2 hn

theorem scanned_cpu (t : Int) (j : job_t) (h : j.state = states.CPU) : scanned t j = j := by
  simp [scanned, h]

theorem dispatched_kept (alg_id : algs) (t : Int) (j : job_t)
    (h : ¬ j.burst_countdown ≤ 0) :
    (dispatched alg_id t j).burst_countdown = j.burst_countdown ∧
    (dispatched alg_id t j).reps = j.reps := by
  simp [dispatched, h]

theorem dispatched_fresh (alg_id : algs) (t : Int) (j : job_t) (h : j.burst_countdown ≤ 0) :
    (dispatched alg_id t j).burst_countdown = j.cpu_burst_length ∧
    (dispatched alg_id t j).reps = j.reps - 1 := by
  simp [dispatched, h]

theorem dispatched_fields (alg_id : algs) (t : Int) (j : job_t) :
    (dispatched alg_id t j).state = states.CPU ∧
    (dispatched alg_id t j).quant_countdown = (if alg_id = algs.RR then 10 else -1) ∧
    (dispatched alg_id t j).start_time = (if j.start_time = 0 then t else j.start_time) ∧
    (dispatched alg_id t j).cpu_burst_length = j.cpu_burst_length ∧
    (dispatched alg_id t j).io_burst_length = j.io_burst_length ∧
    (dispatched alg_id t j).wait_time = j.wait_time ∧
    (dispatched alg_id t j).end_time = j.end_time :=
  ⟨rfl, rfl, rfl, rfl, rfl, rfl, rfl⟩

theorem rr_alone_step (s0 : Sim) (C k : Nat) (s : Sim) (hs : TickStart s0 s) (h0 : Inv s0)
    (hP : AloneOnCpu C k s) (hk : 1 ≤ k) (hkC : k ≤ C) :
    (quantum_expired s = true ↔ k % 10 = 0 ∧ k < C) ∧
    s.active = some 0 ∧ s.rtr_queue = [] ∧
    (k < C →
      (cpu_phase s).active = some 0 ∧ ((cpu_phase s).heap 0).state = states.CPU ∧
      ((cpu_phase s).heap 0).burst_countdown = (C : Int) - k ∧
      ((cpu_phase s).heap 0).reps = 0 ∧
      (k % 10 = 0 → ((cpu_phase s).heap 0).quant_countdown = 10) ∧
      (tick s).finished_jobs < (tick s).num_jobs ∧
      AloneOnCpu C (k + 1) { tick s with time := (tick s).time + 1 }) ∧
    (k = C →
      ((cpu_phase s).heap 0).state = states.IO_ ∧ (cpu_phase s).active = none ∧
      ((cpu_phase s).heap 0).reps = 0 ∧ ((tick s).heap 0).state ≠ states.CPU ∧
      ((tick s).heap 0).state ≠ states.RTR ∧ ((tick s).heap 0).reps = 0) := by
  obtain ⟨p1, p2, p3, p4, p5, p6, p7⟩ := hP
  have hi := TickStart_inv s0 s h0 hs
  have hmem : (0 : Nat) ∈ s.jobs := by rw [p2]; simp
  obtain ⟨sh1, _, sh3⟩ := single_job_shape s hi p2
  have hact := sh1 p4
  have hq := sh3 (by rw [p4]; decide)
  have hmod : ((k - 1) % 10 = 9 ↔ k % 10 = 0) := by omega
  have hb : (s.heap 0).burst_countdown - 1 = 0 ↔ k = C := by rw [p5]; omega
  have hqc : (s.heap 0).quant_countdown - 1 = 0 ↔ k % 10 = 0 := by rw [p6]; omega
  have hheap := tick_heap_eq s hi 0 hmem
  refine ⟨?_, hact, hq, ?_, ?_⟩
  · simp only [quantum_expired, hact, decide_eq_true_eq, ne_eq, hb, hqc]
    omega
  · intro hlt
    have hb' : (s.heap 0).burst_countdown - 1 ≠ 0 := fun h => by
      have := hb.1 h; omega
    have key : (cpu_phase s).active = some 0 ∧ ((cpu_phase s).heap 0).state = states.CPU ∧
        ((cpu_phase s).heap 0).burst_countdown = (C : Int) - k ∧
        ((cpu_phase s).heap 0).reps = 0 ∧
        ((cpu_phase s).heap 0).quant_countdown = 10 - ((k % 10 : Nat) : Int) ∧
        (k % 10 = 0 → ((cpu_phase s).heap 0).quant_countdown = 10) := by
      by_cases hm : k % 10 = 0
      · obtain ⟨c1, c2, _⟩ := cpu_phase_preempt_alone s 0 hact hb' (hqc.2 hm) hq
        have hpos : ¬ ((preempted (s.heap 0)).burst_countdown ≤ 0) := by
          simp only [preempted, p5]; omega
        obtain ⟨e1, e2⟩ := dispatched_kept s.alg_id s.time _ hpos
        have e3 : (dispatched s.alg_id s.time (preempted (s.heap 0))).quant_countdown = 10 := by
          rw [(dispatched_fields s.alg_id s.time (preempted (s.heap 0))).2.1, if_pos p1]
        rw [c1]
        refine ⟨c2, rfl, ?_, ?_, ?_, fun _ => e3⟩
        · rw [e1]; simp only [preempted, p5]; ring
        · rw [e2]; exact p7
        · rw [e3, hm]; simp
      · obtain ⟨c1, c2, _⟩ := (cpu_phase_active s hi 0 hact).2 hb' (fun h => hm (hqc.1 h))
        rw [c1]
        refine ⟨c2, p4, ?_, p7, ?_, fun h => absurd h hm⟩
        · simp only [ran, p5]; ring
        · simp only [ran, p6]; omega
    obtain ⟨k1, k2, k3, k4, k5, k6⟩ := key
    have hts : (tick s).heap 0 = (cpu_phase s).heap 0 := by
      rw [hheap, scanned_cpu _ _ k2]
    have hti := tick_inv s hi
    obtain ⟨f1, f2, _, f4⟩ := tick_frame s
    refine ⟨k1, k2, k3, k4, k6, ?_, ?_⟩
    · exact stuck_unfinished (tick s) hti 0 (by rw [f2]; exact hmem) (by rw [hts, k2]; decide)
    · refine ⟨f1.trans p1, f2.trans p2, ?_, ?_, ?_, ?_, ?_⟩
      · simp only []; rw [f4, p3]; push_cast; ring
      · simp only []; rw [hts]; exact k2
      · simp only []; rw [hts, k3]; push_cast; ring
      · simp only []; rw [hts, k5]; simp
      · simp only []; rw [hts]; exact k4
  · intro heq
    have hblk := (cpu_phase_active s hi 0 hact).1 (hb.2 heq)
    have hci := cpu_phase_inv s hi
    obtain ⟨_, g2, _⟩ := single_job_shape (cpu_phase s) hci
      ((cpu_phase_frame s).2.1.trans p2)
    have hst : ((cpu_phase s).heap 0).state = states.IO_ := by rw [hblk]; rfl
    have hr : ((cpu_phase s).heap 0).reps = 0 := by rw [hblk]; exact p7
    refine ⟨hst, g2 (by rw [hst]; decide), hr, ?_⟩
    rw [hheap]
    rcases scanned_cases s.time ((cpu_phase s).heap 0) with ⟨_, _, e⟩ | ⟨_, _, _, e⟩ |
        ⟨_, _, h3, _⟩ | ⟨h1, _⟩ | ⟨h1, _, _⟩
    · rw [e]; simp [hst, hr]
    · rw [e]; simp [hr]
    · exact absurd hr h3
    · rw [hst] at h1; cases h1
    · exact absurd hst h1

/-- A tick that starts with a free CPU and a non-empty queue dispatches the first
job of the queue. -/
theorem cpu_phase_idle_dispatch (s : Sim) (ha : s.active = none) (n : node_t)
    (rest : List node_t) (hq : s.rtr_queue = n :: rest) :
    (cpu_phase s).heap = Function.update s.heap n.job
      (dispatched s.alg_id s.time (s.heap n.job)) ∧
    (cpu_phase s).rtr_queue = rest ∧ (cpu_phase s).active = some n.job := by
  have hd : dispatch_state s = some s := by simp [dispatch_state, ha]
  obtain ⟨c1, c2, c3⟩ := cpu_phase_dispatch s s hd
  obtain ⟨d1, d2, d3⟩ := set_next_job_cons s n rest hq
  exact ⟨c1.trans d2, c2.trans d3, c3.trans d1⟩

theorem OffCpu_tick (s : Sim) (hi : Inv s) (h : OffCpu s) :
    s.active = none ∧ quantum_expired s = false ∧
    OffCpu { tick s with time := (tick s).time + 1 } := by
  obtain ⟨h1, h2, h3, h4⟩ := h
  have hact := (single_job_shape s hi h1).2.1 h2
  refine ⟨hact, by simp [quantum_expired, hact], (tick_frame s).2.1.trans h1, ?_⟩
  simp only []
  rw [tick_heap_eq s hi 0 (by rw [h1]; simp), cpu_phase_untouched s hi 0 h2 h3]
  rcases scanned_cases s.time (s.heap 0) with ⟨a1, _, e⟩ | ⟨_, _, _, e⟩ | ⟨_, _, a3, _⟩ |
      ⟨a1, _⟩ | ⟨_, _, e⟩
  · rw [e]; simp [a1, h4]
  · rw [e]; simp [h4]
  · exact absurd h4 a3
  · exact absurd a1 h3
  · rw [e]; exact ⟨h2, h3, h4⟩

theorem rr_alone_first (r : record) (C : Nat) (hc : r.cpu_burst_length = C)
    (hr : r.reps = 1) :
    quantum_expired (load_jobs algs.RR [r]) = false ∧
    ∃ s, tick_start (load_jobs algs.RR [r]) 1 = some s ∧ AloneOnCpu C 1 s := by
  have hi := load_jobs_inv algs.RR [r]
  have hj : (load_jobs algs.RR [r]).jobs = [0] := by
    simp [load_jobs, load_line, init, push]
  have hq : (load_jobs algs.RR [r]).rtr_queue = { priority := 1, job := 0 } :: [] := by
    simp [load_jobs, load_line, init, push, getpri]
  have hh : (load_jobs algs.RR [r]).heap 0 = job_of r := by
    simp [load_jobs, load_line, init]
  obtain ⟨f1, f2, _, f4, _, _⟩ := load_jobs_frame algs.RR [r]
  obtain ⟨c1, _, _⟩ := cpu_phase_idle_dispatch _ f2 _ _ hq
  have hc0 : (cpu_phase (load_jobs algs.RR [r])).heap 0
      = dispatched algs.RR 1 (job_of r) := by
    rw [c1, f1, f4, hh]; simp
  have hfresh : (job_of r).burst_countdown ≤ 0 := by simp [job_of, calloc_job]
  obtain ⟨e1, e2⟩ := dispatched_fresh algs.RR 1 (job_of r) hfresh
  have ht : (tick (load_jobs algs.RR [r])).heap 0 = dispatched algs.RR 1 (job_of r) := by
    rw [tick_heap_eq _ hi 0 (by rw [hj]; simp), f4, hc0, scanned_cpu _ _ rfl]
  obtain ⟨g1, g2, _, g4⟩ := tick_frame (load_jobs algs.RR [r])
  have hunf := stuck_unfinished _ (tick_inv _ hi) 0 (by rw [g2, hj]; simp)
    (by rw [ht]; simp [dispatched])
  refine ⟨by simp [quantum_expired, f2], _, tick_start_succ _ 0 _ rfl hunf, ?_⟩
  refine ⟨g1.trans f1, g2.trans hj, ?_, ?_, ?_, ?_, ?_⟩
  · simp only []; rw [g4, f4]; norm_num
  · simp only []; rw [ht]; rfl
  · simp only []; rw [ht, e1]; simp [job_of, hc]
  · simp only []; rw [ht]; simp [dispatched]
  · simp only []; rw [ht, e2]; simp [job_of, hr]

theorem rr_alone_run (r : record) (C : Nat) (hc : r.cpu_burst_length = C)
    (hr : r.reps = 1) : ∀ k, 1 ≤ k → k ≤ C →
    ∃ s, tick_start (load_jobs algs.RR [r]) k = some s ∧ AloneOnCpu C k s := by
  intro k hk
  induction k, hk using Nat.le_induction with
  | base => intro _; exact (rr_alone_first r C hc hr).2
  | succ k hk ih =>
    intro hkC
    obtain ⟨s, h1, h2⟩ := ih (by omega)
    have hs := tick_start_reach _ k s h1
    obtain ⟨_, _, _, h3, _⟩ :=
      rr_alone_step _ C k s hs (load_jobs_inv algs.RR [r]) h2 hk (by omega)
    obtain ⟨_, _, _, _, _, hunf, hP⟩ := h3 (by omega)
    exact ⟨_, tick_start_succ _ k s h1 hunf, hP⟩

theorem rr_alone_after (r : record) (C : Nat) (hC : 1 ≤ C) (hc : r.cpu_burst_length = C)
    (hr : r.reps = 1) : ∀ m,
    tick_start (load_jobs algs.RR [r]) (C + 1 + m) = none ∨
    ∃ s, tick_start (load_jobs algs.RR [r]) (C + 1 + m) = some s ∧ OffCpu s := by
  intro m
  induction m with
  | zero =>
    obtain ⟨s, h1, h2⟩ := rr_alone_run r C hc hr C hC (le_refl _)
    have hs := tick_start_reach _ C s h1
    obtain ⟨_, _, _, _, h4⟩ :=
      rr_alone_step _ C C s hs (load_jobs_inv algs.RR [r]) h2 hC (le_refl _)
    obtain ⟨_, _, _, a1, a2, a3⟩ := h4 rfl
    by_cases hf : (tick s).finished_jobs < (tick s).num_jobs
    · right
      exact ⟨_, tick_start_succ _ C s h1 hf, (tick_frame s).2.1.trans h2.2.1, a1, a2, a3⟩
    · left
      simp [tick_start, h1, hf]
  | succ m ih =>
    rcases ih with h | ⟨s, h1, h2⟩
    · left
      rw [show C + 1 + (m + 1) = (C + 1 + m) + 1 by omega]
      simp [tick_start, h]
    · have hs := tick_start_reach _ _ s h1
      have hi := TickStart_inv _ s (load_jobs_inv algs.RR [r]) hs
      rw [show C + 1 + (m + 1) = (C + 1 + m) + 1 by omega]
      by_cases hf : (tick s).finished_jobs < (tick s).num_jobs
      · right
        exact ⟨_, tick_start_succ _ _ s h1 hf, (OffCpu_tick s hi h2).2.2⟩
      · left
        simp [tick_start, h1, hf]

theorem rr_alone_count (r : record) (C : Nat) (hC : 1 ≤ C) (hc : r.cpu_burst_length = C)
    (hr : r.reps = 1) :
    (∀ n, 1 ≤ n → n ≤ C → preempt_count (load_jobs algs.RR [r]) n = (n - 1) / 10) ∧
    (∀ m, preempt_count (load_jobs algs.RR [r]) (C + 1 + m) = (C - 1) / 10) := by
  have h1 : ∀ n, 1 ≤ n → n ≤ C →
      preempt_count (load_jobs algs.RR [r]) n = (n - 1) / 10 := by
    intro n hn
    induction n, hn using Nat.le_induction with
    | base =>
      intro _
      simp [preempt_count, tick_start, (rr_alone_first r C hc hr).1]
    | succ n hn ih =>
      intro hle
      obtain ⟨s, a1, a2⟩ := rr_alone_run r C hc hr n hn (by omega)
      have hs := tick_start_reach _ n s a1
      obtain ⟨hexp, _⟩ :=
        rr_alone_step _ C n s hs (load_jobs_inv algs.RR [r]) a2 hn (by omega)
      rw [preempt_count, ih (by omega), a1]
      simp only []
      by_cases hm : n % 10 = 0
      · rw [if_pos (hexp.2 ⟨hm, by omega⟩)]; omega
      · have : ¬ quantum_expired s = true := fun h => hm (hexp.1 h).1
        rw [if_neg this]; omega
  refine ⟨h1, ?_⟩
  intro m
  induction m with
  | zero =>
    obtain ⟨s, a1, a2⟩ := rr_alone_run r C hc hr C hC (le_refl _)
    have hs := tick_start_reach _ C s a1
    obtain ⟨hexp, _⟩ :=
      rr_alone_step _ C C s hs (load_jobs_inv algs.RR [r]) a2 hC (le_refl _)
    have : ¬ quantum_expired s = true := fun h => by
      have := (hexp.1 h).2; omega
    rw [Nat.add_zero, preempt_count, h1 C hC (le_refl _), a1]
    simp only []
    rw [if_neg this]
    rfl
  | succ m ih =>
    rw [show C + 1 + (m + 1) = (C + 1 + m) + 1 by omega, preempt_count, ih]
    rcases rr_alone_after r C hC hc hr m with h | ⟨s, a1, a2⟩
    · rw [h]
      rfl
    · have hs := tick_start_reach _ _ s a1
      have hi := TickStart_inv _ s (load_jobs_inv algs.RR [r]) hs
      rw [a1]
      simp only []
      rw [(OffCpu_tick s hi a2).2.1]
      simp

theorem two_jobs_shape (s : Sim) (hi : Inv s) (hj : s.jobs = [0, 1])
    (h0 : (s.heap 0).state = states.CPU) (h1 : (s.heap 1).state = states.RTR) :
    s.active = some 0 ∧ 1 ∈ s.rtr_queue.map node_t.job ∧
    ∃ n rest, s.rtr_queue = n :: rest ∧ n.job = 1 := by
  obtain ⟨⟨_, _, h3, _⟩, _, hact⟩ := hi
  have hm : 1 ∈ s.rtr_queue.map node_t.job := (h3 1).2 ⟨by rw [hj]; simp, h1⟩
  refine ⟨(hact 0).2 ⟨by rw [hj]; simp, h0⟩, hm, ?_⟩
  cases hq : s.rtr_queue with
  | nil => rw [hq] at hm; cases hm
  | cons n rest =>
    refine ⟨n, rest, rfl, ?_⟩
    obtain ⟨a1, a2⟩ := (h3 n.job).1 (by rw [hq]; simp)
    rw [hj] at a1
    simp only [List.mem_cons, List.mem_singleton, List.not_mem_nil, or_false] at a1
    rcases a1 with a1 | a1
    · rw [a1, h0] at a2; cases a2
    · exact a1

theorem scanned_rtr (t : Int) (j : job_t) (h : j.state = states.RTR) :
    (scanned t j).state = states.RTR ∧ (scanned t j).start_time = j.start_time := by
  simp [scanned, h]

theorem fcfs_pair_step (s0 : Sim) (cA k : Nat) (s : Sim) (hs : TickStart s0 s) (h0 : Inv s0)
    (hP : FirstOnCpu cA k s) :
    s.active = some 0 ∧ 1 ∈ s.rtr_queue.map node_t.job ∧
    (k < cA →
      ((cpu_phase s).heap 0).state = states.CPU ∧ (cpu_phase s).active = some 0 ∧
      ((tick s).heap 1).state = states.RTR ∧
      (tick s).finished_jobs < (tick s).num_jobs ∧
      FirstOnCpu cA (k + 1) { tick s with time := (tick s).time + 1 }) ∧
    (k = cA →
      ((cpu_phase s).heap 0).state = states.IO_ ∧ (cpu_phase s).active = some 1 ∧
      ((cpu_phase s).heap 1).state = states.CPU ∧
      ((cpu_phase s).heap 1).start_time = (cA : Int) + 1 ∧
      (tick s).active = some 1 ∧ ((tick s).heap 1).state = states.CPU ∧
      ((tick s).heap 1).start_time = (cA : Int) + 1) := by
  obtain ⟨p1, p2, p3, p4, p5, p6, p7, p8⟩ := hP
  have hi := TickStart_inv s0 s h0 hs
  obtain ⟨hact, hmem, n, rest, hq, hn⟩ := two_jobs_shape s hi p2 p4 p7
  have hm0 : (0 : Nat) ∈ s.jobs := by rw [p2]; simp
  have hm1 : (1 : Nat) ∈ s.jobs := by rw [p2]; simp
  have hb : (s.heap 0).burst_countdown - 1 = 0 ↔ k = cA := by rw [p5]; omega
  refine ⟨hact, hmem, ?_, ?_⟩
  · intro hlt
    have hb' : (s.heap 0).burst_countdown - 1 ≠ 0 := fun h => by
      have := hb.1 h; omega
    rcases dispatch_state_cases s with ⟨a0, _⟩ | ⟨a', ha', hbb, _⟩ | ⟨a', ha', _, hqq, _⟩ |
        ⟨a', ha', _, _, _, c1, _, c3⟩
    · rw [hact] at a0; cases a0
    · rw [hact] at ha'; cases ha'; exact absurd hbb hb'
    · rw [hact] at ha'; cases ha'; exfalso; linarith
    · rw [hact] at ha'; cases ha'
      have e0 : (cpu_phase s).heap 0 = ran (s.heap 0) := by rw [c1]; simp
      have e1 : (cpu_phase s).heap 1 = s.heap 1 := by rw [c1]; simp
      have t0 : (tick s).heap 0 = ran (s.heap 0) := by
        rw [tick_heap_eq s hi 0 hm0, e0, scanned_cpu _ _ (by simpa [ran] using p4)]
      have t1 : (tick s).heap 1 = scanned s.time (s.heap 1) := by
        rw [tick_heap_eq s hi 1 hm1, e1]
      obtain ⟨r1, r2⟩ := scanned_rtr s.time (s.heap 1) p7
      obtain ⟨f1, f2, _, f4⟩ := tick_frame s
      refine ⟨by rw [e0]; simpa [ran] using p4, c3, by rw [t1]; exact r1, ?_, ?_⟩
      · exact stuck_unfinished (tick s) (tick_inv s hi) 0 (by rw [f2]; exact hm0)
          (by rw [t0]; simp [ran, p4])
      · refine ⟨f1.trans p1, f2.trans p2, ?_, ?_, ?_, ?_, ?_, ?_⟩
        · simp only []; rw [f4, p3]; push_cast; ring
        · simp only []; rw [t0]; simpa [ran] using p4
        · simp only []; rw [t0]; simp only [ran, p5]; push_cast; ring
        · simp only []; rw [t0]; simp only [ran]; linarith
        · simp only []; rw [t1]; exact r1
        · simp only []; rw [t1, r2]; exact p8
  · intro heq
    rcases dispatch_state_cases s with ⟨a0, _⟩ | ⟨a', ha', _, h⟩ | ⟨a', ha', hbb, _, _⟩ |
        ⟨a', ha', hbb, _, _⟩
    · rw [hact] at a0; cases a0
    · rw [hact] at ha'; cases ha'
      obtain ⟨c1, _, c3⟩ := cpu_phase_dispatch s _ h
      obtain ⟨d1, d2, _⟩ := set_next_job_cons _ n rest (show
        ({ s with heap := Function.update s.heap 0 (blocked (s.heap 0)) } : Sim).rtr_queue
          = n :: rest from hq)
      rw [hn] at d1 d2
      simp only [] at d2
      have e0 : (cpu_phase s).heap 0 = blocked (s.heap 0) := by
        rw [c1, d2]; simp
      have e1 : (cpu_phase s).heap 1 = dispatched s.alg_id s.time (s.heap 1) := by
        rw [c1, d2]; simp
      have est : ((cpu_phase s).heap 1).start_time = (cA : Int) + 1 := by
        rw [e1, (dispatched_fields _ _ _).2.2.1, if_pos p8, p3, heq]
      have ecpu : ((cpu_phase s).heap 1).state = states.CPU := by rw [e1]; rfl
      have t1 : (tick s).heap 1 = (cpu_phase s).heap 1 := by
        rw [tick_heap_eq s hi 1 hm1, scanned_cpu _ _ ecpu]
      have hti := tick_inv s hi
      refine ⟨by rw [e0]; rfl, c3.trans d1, ecpu, est, ?_, by rw [t1]; exact ecpu,
        by rw [t1]; exact est⟩
      exact (hti.2.2 1).2 ⟨by rw [(tick_frame s).2.1]; exact hm1, by rw [t1]; exact ecpu⟩
    · rw [hact] at ha'; cases ha'; exact absurd (hb.2 heq) hbb
    · rw [hact] at ha'; cases ha'; exact absurd (hb.2 heq) hbb

theorem fcfs_pair_first (rA rB : record) (cA : Nat) (hcA : rA.cpu_burst_length = cA) :
    ((tick (load_jobs algs.FCFS [rA, rB])).heap 0).state = states.CPU ∧
    ((tick (load_jobs algs.FCFS [rA, rB])).heap 0).start_time = 1 ∧
    (tick (load_jobs algs.FCFS [rA, rB])).active = some 0 ∧
    ((tick (load_jobs algs.FCFS [rA, rB])).heap 1).state = states.RTR ∧
    1 ∈ (tick (load_jobs algs.FCFS [rA, rB])).rtr_queue.map node_t.job ∧
    ∃ s, tick_start (load_jobs algs.FCFS [rA, rB]) 1 = some s ∧ FirstOnCpu cA 1 s := by
  have hi := load_jobs_inv algs.FCFS [rA, rB]
  have hj : (load_jobs algs.FCFS [rA, rB]).jobs = [0, 1] := by
    simp [load_jobs, load_line, init, push, link_after, getpri]
  have hq : (load_jobs algs.FCFS [rA, rB]).rtr_queue
      = { priority := -1, job := 0 } :: [{ priority := -1, job := 1 }] := by
    simp [load_jobs, load_line, init, push, link_after, getpri]
  have hh0 : (load_jobs algs.FCFS [rA, rB]).heap 0 = job_of rA := by
    simp [load_jobs, load_line, init]
  have hh1 : (load_jobs algs.FCFS [rA, rB]).heap 1 = job_of rB := by
    simp [load_jobs, load_line, init]
  obtain ⟨f1, f2, _, f4, _, _⟩ := load_jobs_frame algs.FCFS [rA, rB]
  obtain ⟨c1, _, _⟩ := cpu_phase_idle_dispatch _ f2 _ _ hq
  have hc0 : (cpu_phase (load_jobs algs.FCFS [rA, rB])).heap 0
      = dispatched algs.FCFS 1 (job_of rA) := by
    rw [c1, f1, f4, hh0]; simp
  have hc1 : (cpu_phase (load_jobs algs.FCFS [rA, rB])).heap 1 = job_of rB := by
    rw [c1, hh1.symm]; simp
  have hfresh : (job_of rA).burst_countdown ≤ 0 := by simp [job_of, calloc_job]
  obtain ⟨e1, _⟩ := dispatched_fresh algs.FCFS 1 (job_of rA) hfresh
  have ht0 : (tick (load_jobs algs.FCFS [rA, rB])).heap 0
      = dispatched algs.FCFS 1 (job_of rA) := by
    rw [tick_heap_eq _ hi 0 (by rw [hj]; simp), f4, hc0, scanned_cpu _ _ rfl]
  have ht1 : (tick (load_jobs algs.FCFS [rA, rB])).heap 1 = scanned 1 (job_of rB) := by
    rw [tick_heap_eq _ hi 1 (by rw [hj]; simp), f4, hc1]
  obtain ⟨r1, r2⟩ := scanned_rtr 1 (job_of rB) rfl
  obtain ⟨g1, g2, _, g4⟩ := tick_frame (load_jobs algs.FCFS [rA, rB])
  have hti := tick_inv _ hi
  have hunf := stuck_unfinished _ hti 0 (by rw [g2, hj]; simp)
    (by rw [ht0]; simp [dispatched])
  have hshape := two_jobs_shape _ hti (g2.trans hj) (by rw [ht0]; rfl) (by rw [ht1]; exact r1)
  refine ⟨by rw [ht0]; rfl, by rw [ht0]; simp [dispatched, job_of, calloc_job], hshape.1,
    by rw [ht1]; exact r1, hshape.2.1, _, tick_start_succ _ 0 _ rfl hunf, ?_⟩
  refine ⟨g1.trans f1, g2.trans hj, ?_, ?_, ?_, ?_, ?_, ?_⟩
  · simp only []; rw [g4, f4]; norm_num
  · simp only []; rw [ht0]; rfl
  · simp only []; rw [ht0, e1]; simp [job_of, hcA]
  · simp only []; rw [ht0]; simp [dispatched]
  · simp only []; rw [ht1]; exact r1
  · simp only []; rw [ht1, r2]; rfl

theorem fcfs_pair_run (rA rB : record) (cA : Nat) (hcA : rA.cpu_burst_length = cA) :
    ∀ k, 1 ≤ k → k ≤ cA →
    ∃ s, tick_start (load_jobs algs.FCFS [rA, rB]) k = some s ∧ FirstOnCpu cA k s := by
  intro k hk
  induction k, hk using Nat.le_induction with
  | base => intro _; exact (fcfs_pair_first rA rB cA hcA).2.2.2.2.2
  | succ k hk ih =>
    intro hkC
    obtain ⟨s, h1, h2⟩ := ih (by omega)
    have hs := tick_start_reach _ k s h1
    obtain ⟨_, _, h3, _⟩ :=
      fcfs_pair_step _ cA k s hs (load_jobs_inv algs.FCFS [rA, rB]) h2
    obtain ⟨_, _, _, hunf, hP⟩ := h3 (by omega)
    exact ⟨_, tick_start_succ _ k s h1 hunf, hP⟩

/-- A push with rank `t` into a queue that is `tl` followed by entries of rank
`t`, where every rank in `tl` is below `t`, leaves `tl` in front and all the
entries of rank `t` behind it. -/
theorem push_behind (alg_id : algs) (time : Int) (heap : Nat → job_t)
    (tl rest : List node_t) (j : Nat) (n : node_t)
    (hlow : ∀ e ∈ tl, e.priority < getpri alg_id time (heap j))
    (hn : n ∈ rest) (heq : ∀ e ∈ rest, e.priority = getpri alg_id time (heap j)) :
    ∃ rest', push alg_id time heap (tl ++ rest) j = tl ++ rest' ∧ n ∈ rest' ∧
      ∀ e ∈ rest', e.priority = getpri alg_id time (heap j) := by
  obtain ⟨pre, post, h1, h2, _, h4⟩ := push_decomp alg_id time heap (tl ++ rest) j
  rcases List.append_eq_append_iff.1 h1 with ⟨c', e1, e2⟩ | ⟨a', e1, e2⟩
  · refine ⟨c' ++ { priority := getpri alg_id time (heap j), job := j } :: post, ?_, ?_, ?_⟩
    · rw [h2, e1, List.append_assoc]
    · rw [e2] at hn
      simp only [List.mem_append, List.mem_cons] at hn ⊢
      tauto
    · intro e he
      simp only [List.mem_append, List.mem_cons] at he
      rcases he with he | rfl | he
      · exact heq e (by rw [e2]; simp [he])
      · rfl
      · exact heq e (by rw [e2]; simp [he])
  · cases a' with
    | nil =>
      simp only [List.append_nil] at e1
      simp only [List.nil_append] at e2
      refine ⟨{ priority := getpri alg_id time (heap j), job := j } :: rest, ?_, ?_, ?_⟩
      · rw [h2, e1, e2]
      · exact List.mem_cons_of_mem _ hn
      · intro e he
        rcases List.mem_cons.1 he with rfl | he
        · rfl
        · exact heq e he
    | cons x xs =>
      have hx := h4 x (by rw [e2]; rfl)
      have := hlow x (by rw [e1]; simp)
      exact absurd hx (not_le.2 this)

theorem scan_job_behind (s : Sim) (hrr : s.alg_id = algs.RR) (p : Nat)
    (tl rest : List node_t) (n : node_t) (hlow : ∀ e ∈ tl, e.priority < s.time)
    (hq : s.rtr_queue = tl ++ rest) (hn : n ∈ rest) (heq : ∀ e ∈ rest, e.priority = s.time) :
    ∃ rest', (scan_job s p).rtr_queue = tl ++ rest' ∧ n ∈ rest' ∧
      ∀ e ∈ rest', e.priority = s.time := by
  rcases scan_job_cases s p with ⟨_, _, _, c2, _⟩ | ⟨_, _, _, _, c2, _⟩ |
      ⟨_, _, _, _, c2, _⟩ | ⟨_, _, c2, _⟩ | ⟨_, _, _, c2, _⟩
  · exact ⟨rest, by rw [c2, hq], hn, heq⟩
  · exact ⟨rest, by rw [c2, hq], hn, heq⟩
  · have hg : ∀ hp : Nat → job_t, getpri s.alg_id s.time (hp p) = s.time := by
      intro hp; simp [getpri, hrr]
    rw [c2, hq]
    have := push_behind s.alg_id s.time
      (Function.update s.heap p
        { s.heap p with burst_countdown := -1, state := states.RTR }) tl rest p n
      (by intro e he; rw [hg]; exact hlow e he) hn (by intro e he; rw [hg]; exact heq e he)
    rw [hg] at this
    exact this
  · exact ⟨rest, by rw [c2, hq], hn, heq⟩
  · exact ⟨rest, by rw [c2, hq], hn, heq⟩

theorem scan_fold_behind (l : List Nat) (tl : List node_t) (n : node_t) :
    ∀ (s : Sim) (rest : List node_t), s.alg_id = algs.RR →
    (∀ e ∈ tl, e.priority < s.time) → s.rtr_queue = tl ++ rest → n ∈ rest →
    (∀ e ∈ rest, e.priority = s.time) →
    ∃ rest', (l.foldl scan_job s).rtr_queue = tl ++ rest' ∧ n ∈ rest' ∧
      ∀ e ∈ rest', e.priority = s.time := by
  induction l with
  | nil => intro s rest _ _ hq hn heq; exact ⟨rest, hq, hn, heq⟩
  | cons p l ih =>
    intro s rest hrr hlow hq hn heq
    obtain ⟨f1, _, _, _, f5, _, _⟩ := scan_job_frame s p
    obtain ⟨r1, g1, g2, g3⟩ := scan_job_behind s hrr p tl rest n hlow hq hn heq
    simp only [List.foldl_cons]
    have := ih (scan_job s p) r1 (f1.trans hrr) (by rw [f5]; exact hlow) g1 g2
      (by rw [f5]; exact g3)
    rw [f5] at this
    exact this

/-- The first part of the loop body on a tick whose quantum branch is taken: the
active job is linked in with `push` and the queue is popped. -/
theorem cpu_phase_preempt (s : Sim) (a : Nat) (ha : s.active = some a)
    (h1 : (s.heap a).burst_countdown - 1 ≠ 0) (h2 : (s.heap a).quant_countdown - 1 = 0) :
    (cpu_phase s).heap
      = (set_next_job { s with
          heap := Function.update s.heap a (preempted (s.heap a)),
          rtr_queue := push s.alg_id s.time
            (Function.update s.heap a (preempted (s.heap a))) s.rtr_queue a }).2.heap ∧
    (cpu_phase s).rtr_queue
      = (set_next_job { s with
          heap := Function.update s.heap a (preempted (s.heap a)),
          rtr_queue := push s.alg_id s.time
            (Function.update s.heap a (preempted (s.heap a))) s.rtr_queue a }).2.rtr_queue ∧
    (cpu_phase s).active
      = (set_next_job { s with
          heap := Function.update s.heap a (preempted (s.heap a)),
          rtr_queue := push s.alg_id s.time
            (Function.update s.heap a (preempted (s.heap a))) s.rtr_queue a }).1 ∧
    (cpu_phase s).cpu_busy_time = s.cpu_busy_time + 1 := by
  refine ⟨?_, ?_, ?_, ?_⟩ <;>
    simp [cpu_phase, ha, h1, h2, preempted, set_next_job_frame]

/-! ## The claims about ranking, dispatch order, timing and accounting -/

/-- C11: for every job and every tick, `getpri` returns the constant -1 under FCFS,
the job's `priority` under static priority, `cpu_burst_length * reps` (with the
job's current `reps`) under SJF, and the current tick under round-robin.  It is
a function of the algorithm, the tick and the job record alone, and returns a
number only, so it cannot change the job. -/
theorem getpri_spec (time : Int) (j : job_t) :
    getpri algs.FCFS time j = -1 ∧
    getpri algs.PS time j = j.priority ∧
    getpri algs.SJF time j = j.cpu_burst_length * j.reps ∧
    getpri algs.RR time j = time := by
  simp [getpri]

/-- C12: one job with `cpu_burst_length = C ≥ 1` and `reps = 1` under round-robin.
At the start of tick `k + 1`, for `1 ≤ k ≤ C` (the `k`-th tick the job spends on
the CPU), the job is active with countdown `C - k + 1` and `reps = 0`.  That tick
takes the quantum-expiry branch exactly when `k` is a multiple of 10 and `k < C`;
the job is then dispatched again at once with its countdown `C - k` kept, `reps`
still 0 and a quantum of 10.  For `k < C` the job stays on the CPU, and on the
`C`-th tick it goes to state `IO`.  Over the whole run the quantum-expiry branch
is taken exactly `(C - 1) / 10` times. -/
theorem rr_single_job (r : record) (C : Nat) (hC : 1 ≤ C) (hc : r.cpu_burst_length = C)
    (hr : r.reps = 1) :
    (∀ k, 1 ≤ k → k ≤ C →
      ∃ s, tick_start (load_jobs algs.RR [r]) k = some s ∧ s.time = (k : Int) + 1 ∧
        s.active = some 0 ∧ s.rtr_queue = [] ∧ (s.heap 0).state = states.CPU ∧
        (s.heap 0).burst_countdown = (C : Int) - k + 1 ∧ (s.heap 0).reps = 0 ∧
        (quantum_expired s = true ↔ k % 10 = 0 ∧ k < C) ∧
        (k < C →
          (cpu_phase s).active = some 0 ∧ ((cpu_phase s).heap 0).state = states.CPU ∧
          ((cpu_phase s).heap 0).burst_countdown = (C : Int) - k ∧
          ((cpu_phase s).heap 0).reps = 0 ∧
          (k % 10 = 0 → ((cpu_phase s).heap 0).quant_countdown = 10)) ∧
        (k = C →
          ((cpu_phase s).heap 0).state = states.IO_ ∧ (cpu_phase s).active = none)) ∧
    (∀ n, C + 1 ≤ n → preempt_count (load_jobs algs.RR [r]) n = (C - 1) / 10) := by
  constructor
  · intro k hk hkC
    obtain ⟨s, h1, h2⟩ := rr_alone_run r C hc hr k hk hkC
    have hs := tick_start_reach _ k s h1
    obtain ⟨a1, a2, a3, a4, a5⟩ :=
      rr_alone_step _ C k s hs (load_jobs_inv algs.RR [r]) h2 hk hkC
    obtain ⟨_, _, p3, p4, p5, _, p7⟩ := h2
    refine ⟨s, h1, p3, a2, a3, p4, p5, p7, a1, ?_, ?_⟩
    · intro hlt
      obtain ⟨b1, b2, b3, b4, b5, _, _⟩ := a4 hlt
      exact ⟨b1, b2, b3, b4, b5⟩
    · intro heq
      obtain ⟨b1, b2, _⟩ := a5 heq
      exact ⟨b1, b2⟩
  · intro n hn
    obtain ⟨m, rfl⟩ := Nat.exists_eq_add_of_le hn
    exact (rr_alone_count r C hC hc hr).2 m

/-- Witness of C12: a CPU burst of 25 ticks is preempted twice. -/
theorem rr_single_job_witness :
    1 ≤ 25 ∧ long_record.cpu_burst_length = ((25 : Nat) : Int) ∧ long_record.reps = 1 ∧
    preempt_count (load_jobs algs.RR [long_record]) 26 = 2 :=
  ⟨by decide, rfl, rfl, (rr_single_job long_record 25 (by decide) rfl rfl).2 26 (by decide)⟩

/-- C13: two jobs A (address 0) then B (address 1) loaded under FCFS, A with
`cpu_burst_length = cA`.  At the end of tick 1, A is active with `start_time = 1`
and B is ready and in the queue.  At the start of tick `k + 1`, for
`1 ≤ k ≤ cA`, A is active with countdown `cA - k + 1` and B is ready, in the
queue and not yet started; for `k < cA` A stays on the CPU and B stays ready, and
on tick `cA + 1` A goes to state `IO` and B is dispatched with
`start_time = cA + 1`.  For two jobs with CPU burst 3, IO burst 2 and one
repetition the run ends with start and end times 1 and 6 for A, 4 and 9 for B. -/
theorem fcfs_two_jobs (rA rB : record) (cA : Nat) (hcA : rA.cpu_burst_length = cA) :
    (((tick (load_jobs algs.FCFS [rA, rB])).heap 0).state = states.CPU ∧
      ((tick (load_jobs algs.FCFS [rA, rB])).heap 0).start_time = 1 ∧
      (tick (load_jobs algs.FCFS [rA, rB])).active = some 0 ∧
      ((tick (load_jobs algs.FCFS [rA, rB])).heap 1).state = states.RTR ∧
      1 ∈ (tick (load_jobs algs.FCFS [rA, rB])).rtr_queue.map node_t.job) ∧
    (∀ k, 1 ≤ k → k ≤ cA →
      ∃ s, tick_start (load_jobs algs.FCFS [rA, rB]) k = some s ∧ s.time = (k : Int) + 1 ∧
        s.active = some 0 ∧ (s.heap 0).state = states.CPU ∧
        (s.heap 0).burst_countdown = (cA : Int) - k + 1 ∧
        (s.heap 1).state = states.RTR ∧ (s.heap 1).start_time = 0 ∧
        1 ∈ s.rtr_queue.map node_t.job ∧
        (k < cA →
          ((cpu_phase s).heap 0).state = states.CPU ∧ (cpu_phase s).active = some 0 ∧
          ((tick s).heap 1).state = states.RTR) ∧
        (k = cA →
          ((cpu_phase s).heap 0).state = states.IO_ ∧ (cpu_phase s).active = some 1 ∧
          ((cpu_phase s).heap 1).state = states.CPU ∧
          ((cpu_phase s).heap 1).start_time = (cA : Int) + 1 ∧
          (tick s).active = some 1 ∧ ((tick s).heap 1).state = states.CPU ∧
          ((tick s).heap 1).start_time = (cA : Int) + 1)) ∧
    (run_loop 9 (load_jobs algs.FCFS [sample_record, second_record])).map
      (fun s => ((s.heap 0).start_time, (s.heap 0).end_time,
                 (s.heap 1).start_time, (s.heap 1).end_time))
      = some (1, 6, 4, 9) := by
  refine ⟨?_, ?_, by decide⟩
  · obtain ⟨a1, a2, a3, a4, a5, _⟩ := fcfs_pair_first rA rB cA hcA
    exact ⟨a1, a2, a3, a4, a5⟩
  · intro k hk hkC
    obtain ⟨s, h1, h2⟩ := fcfs_pair_run rA rB cA hcA k hk hkC
    have hs := tick_start_reach _ k s h1
    obtain ⟨a1, a2, a3, a4⟩ :=
      fcfs_pair_step _ cA k s hs (load_jobs_inv algs.FCFS [rA, rB]) h2
    obtain ⟨_, _, p3, p4, p5, _, p7, p8⟩ := h2
    refine ⟨s, h1, p3, a1, p4, p5, p7, p8, a2, ?_, a4⟩
    intro hlt
    obtain ⟨b1, b2, b3, _, _⟩ := a3 hlt
    exact ⟨b1, b2, b3⟩

/-- Witness of C13: two jobs with CPU burst 3; B is dispatched on tick 4. -/
theorem fcfs_two_jobs_witness :
    sample_record.cpu_burst_length = ((3 : Nat) : Int) ∧
    ∃ s, tick_start (load_jobs algs.FCFS [sample_record, second_record]) 3 = some s ∧
      s.time = 4 ∧ (cpu_phase s).active = some 1 ∧
      ((cpu_phase s).heap 1).start_time = 4 := by
  refine ⟨rfl, ?_⟩
  obtain ⟨s, h1, h2, _, _, _, _, _, _, _, h3⟩ :=
    (fcfs_two_jobs sample_record second_record 3 rfl).2.1 3 (by decide) (by decide)
  obtain ⟨_, a2, _, a4, _⟩ := h3 rfl
  exact ⟨s, h1, h2, a2, a4⟩

/-- C14: at the end of every tick of the run of a loaded job set, every job that is
`DONE` has `1 ≤ start_time ≤ end_time ≤ time`; and if the loop goes on, the next
tick leaves the record of every done job as it is, and a job that turns `DONE`
in it gets `end_time = time + 1`, the new clock value, which is at least the
`end_time` of every job done before. -/
theorem end_times (alg_id : algs) (recs : List record) (s : Sim)
    (h : TickEnd (load_jobs alg_id recs) s) :
    (∀ p ∈ s.jobs, (s.heap p).state = states.DONE →
      1 ≤ (s.heap p).start_time ∧ (s.heap p).start_time ≤ (s.heap p).end_time ∧
      (s.heap p).end_time ≤ s.time) ∧
    (s.finished_jobs < s.num_jobs → ∀ p ∈ s.jobs,
      ((s.heap p).state = states.DONE →
        (tick { s with time := s.time + 1 }).heap p = s.heap p) ∧
      ((s.heap p).state ≠ states.DONE →
        ((tick { s with time := s.time + 1 }).heap p).state = states.DONE →
        ((tick { s with time := s.time + 1 }).heap p).end_time = s.time + 1 ∧
        ∀ q ∈ s.jobs, (s.heap q).state = states.DONE →
          (s.heap q).end_time ≤ ((tick { s with time := s.time + 1 }).heap p).end_time)) := by
  obtain ⟨_, hk⟩ := TickEnd_time alg_id recs s h
  have hi := TickEnd_inv _ s (load_jobs_inv alg_id recs) h
  have hdone : ∀ p ∈ s.jobs, (s.heap p).state = states.DONE →
      1 ≤ (s.heap p).start_time ∧ (s.heap p).start_time ≤ (s.heap p).end_time ∧
      (s.heap p).end_time ≤ s.time := by
    intro p hp hd
    obtain ⟨_, k2, k3⟩ := hk p hp
    exact ⟨k2 (by rw [hd]; decide), (k3 hd).1, (k3 hd).2⟩
  refine ⟨hdone, ?_⟩
  intro _ p hp
  obtain ⟨d1, d2⟩ := tick_done_fixed { s with time := s.time + 1 }
    (Inv_time s (s.time + 1) hi) p hp
  refine ⟨d1, ?_⟩
  intro hnd hd
  have he := d2 hnd hd
  refine ⟨he, ?_⟩
  intro q hq hqd
  rw [he]
  have := (hdone q hq hqd).2.2
  simp only []
  linarith

/-- Witness of C14: the end of the first tick after loading the sample job. -/
theorem end_times_witness :
    TickEnd (load_jobs algs.FCFS [sample_record]) (tick (load_jobs algs.FCFS [sample_record])) ∧
    ∀ p ∈ (tick (load_jobs algs.FCFS [sample_record])).jobs,
      ((tick (load_jobs algs.FCFS [sample_record])).heap p).state = states.DONE →
      1 ≤ ((tick (load_jobs algs.FCFS [sample_record])).heap p).start_time ∧
      ((tick (load_jobs algs.FCFS [sample_record])).heap p).start_time
        ≤ ((tick (load_jobs algs.FCFS [sample_record])).heap p).end_time ∧
      ((tick (load_jobs algs.FCFS [sample_record])).heap p).end_time
        ≤ (tick (load_jobs algs.FCFS [sample_record])).time :=
  ⟨TickEnd.first, (end_times algs.FCFS [sample_record] _ TickEnd.first).1⟩

/-- C15: under FCFS, static priority and SJF, at the start and at the end of every
tick of the run of a loaded job set the active job has a negative
`quant_countdown`; the quantum-expiry branch is not taken; and after the first
part of the loop body the job that was active is either still active and in
state `CPU` (its countdown has not reached 0) or in state `IO` with its
countdown having reached 0: it never goes from `CPU` to `RTR`. -/
theorem no_preemption (alg_id : algs) (halg : alg_id ≠ algs.RR) (recs : List record)
    (s : Sim) (h : TickStart (load_jobs alg_id recs) s) :
    (∀ a, s.active = some a → (s.heap a).quant_countdown < 0) ∧
    (∀ a, (tick s).active = some a → ((tick s).heap a).quant_countdown < 0) ∧
    quantum_expired s = false ∧
    (∀ a, s.active = some a →
      ((s.heap a).burst_countdown - 1 ≠ 0 ∧ (cpu_phase s).active = some a ∧
        ((cpu_phase s).heap a).state = states.CPU) ∨
      ((s.heap a).burst_countdown - 1 = 0 ∧
        ((cpu_phase s).heap a).state = states.IO_)) := by
  have hi := TickStart_inv _ s (load_jobs_inv alg_id recs) h
  have hn := TickStart_negquant alg_id halg recs s h
  have hq : ∀ a, s.active = some a → (s.heap a).quant_countdown < 0 := by
    intro a ha
    obtain ⟨h1, h2⟩ := (hi.2.2 a).1 ha
    exact hn a h1 h2
  refine ⟨hq, ?_, ?_, ?_⟩
  · intro a ha
    have hti := tick_inv s hi
    obtain ⟨h1, h2⟩ := (hti.2.2 a).1 ha
    have halg' : s.alg_id = alg_id :=
      (TickStart_frame _ s h).1.trans (load_jobs_frame alg_id recs).1
    rw [(tick_frame s).2.1] at h1
    exact tick_preserves NegQuant s hi a h1
      (fun j j' hj hstep => NegQuant_step _ (by rw [halg']; exact halg) _ j j' hj hstep)
      (fun j hj => NegQuant_scanned _ j hj) (hn a h1) h2
  · unfold quantum_expired
    cases ha : s.active with
    | none => rfl
    | some a =>
      have := hq a ha
      simp only [decide_eq_false_iff_not, not_and]
      intro _
      linarith
  · intro a ha
    have hqa := hq a ha
    obtain ⟨c1, c2⟩ := cpu_phase_active s hi a ha
    have hst := ((hi.2.2 a).1 ha).2
    by_cases hb : (s.heap a).burst_countdown - 1 = 0
    · right
      exact ⟨hb, by rw [c1 hb]; rfl⟩
    · left
      obtain ⟨e1, e2, _⟩ := c2 hb (by linarith)
      exact ⟨hb, e2, by rw [e1]; exact hst⟩

/-- Witness of C15: the start of the second tick of the sample job under SJF. -/
theorem no_preemption_witness :
    algs.SJF ≠ algs.RR ∧
    TickStart (load_jobs algs.SJF [sample_record])
      { tick (load_jobs algs.SJF [sample_record]) with
        time := (tick (load_jobs algs.SJF [sample_record])).time + 1 } ∧
    quantum_expired
      { tick (load_jobs algs.SJF [sample_record]) with
        time := (tick (load_jobs algs.SJF [sample_record])).time + 1 } = false :=
  ⟨by decide, TickStart.next _ TickStart.init (by decide),
   (no_preemption algs.SJF (by decide) [sample_record] _
      (TickStart.next _ TickStart.init (by decide))).2.2.1⟩

/-- C16: a tick that starts with `active = NULL` and an empty ready queue
increments `cpu_idle_time` by exactly 1 and leaves `cpu_busy_time` unchanged;
every other tick leaves `cpu_idle_time` unchanged; and at the start of every tick
of the run of a loaded job set `active` is `NULL` exactly when no job of the
array is in state `CPU`. -/
theorem idle_accounting (alg_id : algs) (recs : List record) :
    (∀ s : Sim, s.active = none → s.rtr_queue = [] →
      (tick s).cpu_idle_time = s.cpu_idle_time + 1 ∧
      (tick s).cpu_busy_time = s.cpu_busy_time) ∧
    (∀ s : Sim, ¬ (s.active = none ∧ s.rtr_queue = []) →
      (tick s).cpu_idle_time = s.cpu_idle_time) ∧
    (∀ s : Sim, TickStart (load_jobs alg_id recs) s →
      (s.active = none ↔ ∀ p ∈ s.jobs, (s.heap p).state ≠ states.CPU)) := by
  have hscan : ∀ s : Sim, (tick s).cpu_idle_time = (cpu_phase s).cpu_idle_time ∧
      (tick s).cpu_busy_time = (cpu_phase s).cpu_busy_time := by
    intro s
    obtain ⟨_, _, _, _, _, h6, h7⟩ :=
      scan_fold_frame ((cpu_phase s).jobs.take (cpu_phase s).num_jobs.toNat) (cpu_phase s)
    exact ⟨h7, h6⟩
  refine ⟨?_, ?_, ?_⟩
  · intro s ha hq
    rw [(hscan s).1, (hscan s).2]
    exact (cpu_phase_idle s).1 ha hq
  · intro s hn
    rw [(hscan s).1]
    exact (cpu_phase_idle s).2 hn
  · intro s hs
    obtain ⟨_, _, hact⟩ := TickStart_inv _ s (load_jobs_inv alg_id recs) hs
    constructor
    · intro hn p hp hc
      have := (hact p).2 ⟨hp, hc⟩
      rw [hn] at this
      cases this
    · intro hall
      cases ha : s.active with
      | none => rfl
      | some a =>
        exact absurd ((hact a).1 ha).2 (hall a ((hact a).1 ha).1)

/-- C17: let a job `p` be active at the start of a tick `t` of the run of a loaded job
set, with its CPU burst ending on this tick, and let `L ≥ 0` be its
`io_burst_length`.  Then it is put in state `IO` with countdown `L` on tick `t`;
at the end of each tick `t + i` with `i < L` it is in state `IO` with countdown
`L - 1 - i` and the loop goes on; and at the end of tick `t + L` its countdown is
-1 and it is `DONE` with `end_time = t + L` if its `reps` is 0, and otherwise in
state `RTR` and in the ready queue. -/
theorem io_burst (alg_id : algs) (recs : List record) (s : Sim)
    (hs : TickStart (load_jobs alg_id recs) s) (p : Nat) (hact : s.active = some p)
    (hb : (s.heap p).burst_countdown - 1 = 0) (L : Nat)
    (hL : (s.heap p).io_burst_length = L) :
    (cpu_phase s).heap p = blocked (s.heap p) ∧
    (∀ i, i < L →
      TickEnd (load_jobs alg_id recs) (later s i) ∧ (later s i).time = s.time + i ∧
      ((later s i).heap p).state = states.IO_ ∧
      ((later s i).heap p).burst_countdown = (L : Int) - 1 - i ∧
      (later s i).finished_jobs < (later s i).num_jobs) ∧
    TickEnd (load_jobs alg_id recs) (later s L) ∧ (later s L).time = s.time + L ∧
    ((later s L).heap p).burst_countdown = -1 ∧
    ((s.heap p).reps = 0 →
      ((later s L).heap p).state = states.DONE ∧
      ((later s L).heap p).end_time = s.time + L) ∧
    ((s.heap p).reps ≠ 0 →
      ((later s L).heap p).state = states.RTR ∧
      p ∈ (later s L).rtr_queue.map node_t.job) := by
  have hi := TickStart_inv _ s (load_jobs_inv alg_id recs) hs
  have hp : p ∈ s.jobs := ((hi.2.2 p).1 hact).1
  have hblk := (cpu_phase_active s hi p hact).1 hb
  have hrun := io_burst_run alg_id recs s hs p hp (blocked (s.heap p)) rfl L
    (by simp [blocked, hL]) hblk
  refine ⟨hblk, ?_, ?_⟩
  · intro i hlt
    obtain ⟨a1, a2, a3, a4⟩ := hrun i hlt
    have hie := TickEnd_inv _ _ (load_jobs_inv alg_id recs) a1
    refine ⟨a1, a2, by rw [a4]; rfl, by rw [a4], ?_⟩
    exact stuck_unfinished _ hie p (by rw [a3]; exact hp) (by rw [a4]; simp [blocked])
  · have hfinal : TickEnd (load_jobs alg_id recs) (later s L) ∧
        (later s L).time = s.time + L ∧ (later s L).jobs = s.jobs ∧
        (later s L).heap p
          = scanned (s.time + L) { blocked (s.heap p) with burst_countdown := 0 } := by
      cases L with
      | zero =>
        refine ⟨TickStart_end _ s hs, by simp [later, (tick_frame s).2.2.2],
          (tick_frame s).2.1, ?_⟩
        simp only [later]
        rw [tick_heap_eq s hi p hp, hblk]
        have : blocked (s.heap p) = { blocked (s.heap p) with burst_countdown := 0 } := by
          simp [blocked, hL]
        rw [← this]
        simp
      | succ n =>
        obtain ⟨a1, a2, a3, a4⟩ := hrun n (by omega)
        have hie := TickEnd_inv _ _ (load_jobs_inv alg_id recs) a1
        have hpe : p ∈ (later s n).jobs := by rw [a3]; exact hp
        have hunf : (later s n).finished_jobs < (later s n).num_jobs :=
          stuck_unfinished _ hie p hpe (by rw [a4]; simp [blocked])
        refine ⟨TickEnd.next _ a1 hunf, ?_, ?_, ?_⟩
        · simp only [later]
          rw [(tick_frame _).2.2.2]
          simp only []
          rw [a2]; push_cast; ring
        · simp only [later]
          rw [(tick_frame _).2.1]
          exact a3
        · simp only [later]
          rw [io_wait_step (later s n) hie p hpe _ (by simp [blocked]) a4, a2]
          have e1 : ((n + 1 : Nat) : Int) - 1 - n = 0 := by push_cast; ring
          have e2 : s.time + (n : Int) + 1 = s.time + ((n + 1 : Nat) : Int) := by
            push_cast; ring
          rw [e1, e2]
    obtain ⟨f1, f2, f3, f4⟩ := hfinal
    have hie := TickEnd_inv _ _ (load_jobs_inv alg_id recs) f1
    refine ⟨f1, f2, ?_, ?_, ?_⟩
    · rw [f4]
      by_cases hr : (s.heap p).reps = 0 <;> simp [scanned, blocked, hr]
    · intro hr
      rw [f4]
      simp [scanned, blocked, hr]
    · intro hr
      have hst : ((later s L).heap p).state = states.RTR := by
        rw [f4]
        simp [scanned, blocked, hr]
      exact ⟨hst, (hie.1.2.2.1 p).2 ⟨by rw [f3]; exact hp, hst⟩⟩

/-- Witness of C17: a job with CPU burst 1 and IO burst 2 is active at the start of
tick 2, goes to IO on that tick and is done at the end of tick 4. -/
theorem io_burst_witness :
    TickStart (load_jobs algs.FCFS [short_cpu_record])
      { tick (load_jobs algs.FCFS [short_cpu_record]) with
        time := (tick (load_jobs algs.FCFS [short_cpu_record])).time + 1 } ∧
    ((later { tick (load_jobs algs.FCFS [short_cpu_record]) with
        time := (tick (load_jobs algs.FCFS [short_cpu_record])).time + 1 } 2).heap 0).state
      = states.DONE ∧
    ((later { tick (load_jobs algs.FCFS [short_cpu_record]) with
        time := (tick (load_jobs algs.FCFS [short_cpu_record])).time + 1 } 2).heap 0).end_time
      = 4 :=
  ⟨TickStart.next _ TickStart.init (by decide),
   ((io_burst algs.FCFS [short_cpu_record] _ (TickStart.next _ TickStart.init (by decide))
      0 (by decide) (by decide) 2 (by decide)).2.2.2.2.2.1 (by decide)).1,
   ((io_burst algs.FCFS [short_cpu_record] _ (TickStart.next _ TickStart.init (by decide))
      0 (by decide) (by decide) 2 (by decide)).2.2.2.2.2.1 (by decide)).2⟩

/-- C18: one iteration of the inner loop adds exactly 1 to `wait_time` if the job is
in state `RTR` after it (it was ready before, or its IO burst has just ended with
repetitions left) and nothing otherwise; during a tick of the run of a loaded job
set the first part of the loop body leaves `wait_time` alone, each job of the
array is scanned once, and so `wait_time` goes up by 1 exactly for the jobs that
are in state `RTR` at the end of the tick; and at the `break` the `wait_time` of
every job is the number of ticks at whose end it was in state `RTR`. -/
theorem wait_accounting (alg_id : algs) (recs : List record) :
    (∀ (t : Int) (j : job_t),
      (scanned t j).wait_time
        = j.wait_time + (if (scanned t j).state = states.RTR then 1 else 0) ∧
      ((scanned t j).state = states.RTR ↔
        j.state = states.RTR ∨
        (j.state = states.IO_ ∧ j.burst_countdown = 0 ∧ j.reps ≠ 0))) ∧
    (∀ s, TickStart (load_jobs alg_id recs) s → ∀ p ∈ s.jobs,
      ((cpu_phase s).heap p).wait_time = (s.heap p).wait_time ∧
      (tick s).heap p = scanned s.time ((cpu_phase s).heap p) ∧
      ((tick s).heap p).wait_time
        = (s.heap p).wait_time
          + (if ((tick s).heap p).state = states.RTR then 1 else 0)) ∧
    (∀ (fuel : Nat) (s' : Sim), run_loop fuel (load_jobs alg_id recs) = some s' →
      ∀ p ∈ s'.jobs,
        (s'.heap p).wait_time = ready_ticks fuel (load_jobs alg_id recs) p) := by
  refine ⟨scanned_wait, ?_, ?_⟩
  · intro s hs p hp
    have hi := TickStart_inv _ s (load_jobs_inv alg_id recs) hs
    exact ⟨(cpu_phase_wait s hi p).1, tick_heap_eq s hi p hp, tick_wait s hi p hp⟩
  · intro fuel s' hrun p hp
    obtain ⟨l1, _, _, l4, _⟩ := load_jobs_spec alg_id recs
    rw [run_loop_jobs fuel _ _ hrun] at hp
    have h0 : ((load_jobs alg_id recs).heap p).wait_time = 0 :=
      l4 (fun j => j.wait_time = 0) (fun r _ => rfl) p hp
    rw [run_loop_wait fuel _ s' l1 hrun p hp, h0, zero_add]

/-- C19: under round-robin, take a start-of-tick state of the run of a loaded job
set in which a job is active and its quantum is about to expire (after the two
decrements its burst countdown is not 0 and its quantum countdown is 0).  Then
every entry of the ready queue has a rank strictly below the current tick and is
another job; the call of `push` for the active job appends it at the tail with
the current tick as its rank; the first part of the loop body leaves as `active`
and as queue what `pop` returns on that appended queue, and counts the tick as
busy.  When the queue held `hd :: tl`, the loop body dispatches `hd`, leaves the
queue `tl` followed by the expired job, whose record has state `RTR`, and at the
end of the tick the queue is still `tl` followed by entries of rank `time`, the
expired job among them.  When the queue was empty the expired job is popped
again at once and runs on with a new quantum. -/
theorem rr_requeue_at_tail (recs : List record) (s : Sim)
    (hs : TickStart (load_jobs algs.RR recs) s) (a : Nat) (ha : s.active = some a)
    (h1 : (s.heap a).burst_countdown - 1 ≠ 0) (h2 : (s.heap a).quant_countdown - 1 = 0) :
    quantum_expired s = true ∧
    (∀ e ∈ s.rtr_queue, e.priority < s.time ∧ e.job ≠ a) ∧
    (∀ heap : Nat → job_t, push s.alg_id s.time heap s.rtr_queue a
        = s.rtr_queue ++ [{ priority := s.time, job := a }]) ∧
    pop (s.rtr_queue ++ [{ priority := s.time, job := a }])
        = ((cpu_phase s).active, (cpu_phase s).rtr_queue) ∧
    (cpu_phase s).cpu_busy_time = s.cpu_busy_time + 1 ∧
    (cpu_phase s).cpu_idle_time = s.cpu_idle_time ∧
    (∀ hd tl, s.rtr_queue = hd :: tl →
        (cpu_phase s).active = some hd.job ∧
        (cpu_phase s).rtr_queue = tl ++ [{ priority := s.time, job := a }] ∧
        (cpu_phase s).heap a = preempted (s.heap a) ∧
        (cpu_phase s).heap hd.job = dispatched algs.RR s.time (s.heap hd.job) ∧
        ((tick s).heap a).state = states.RTR ∧
        ((tick s).heap a).wait_time = (s.heap a).wait_time + 1 ∧
        (tick s).active = some hd.job ∧
        ∃ rest, (tick s).rtr_queue = tl ++ rest ∧
          { priority := s.time, job := a } ∈ rest ∧ ∀ e ∈ rest, e.priority = s.time) ∧
    (s.rtr_queue = [] →
        (cpu_phase s).active = some a ∧ (cpu_phase s).rtr_queue = [] ∧
        (cpu_phase s).heap a = dispatched algs.RR s.time (preempted (s.heap a))) := by
  obtain ⟨hrr, _, hlt⟩ := TickStart_queue_rr recs s hs
  have hq := hlt (by rw [ha]; simp)
  have hi := TickStart_inv _ s (load_jobs_inv algs.RR recs) hs
  have hcpu := (hi.2.2 a).1 ha
  have hne : ∀ e ∈ s.rtr_queue, e.job ≠ a := by
    intro e he hea
    have := ((hi.1.2.2.1 e.job).1 (List.mem_map_of_mem _ he)).2
    rw [hea, hcpu.2] at this
    cases this
  have hg : ∀ hp : Nat → job_t, getpri s.alg_id s.time (hp a) = s.time := by
    intro hp; simp [getpri, hrr]
  have hpush : ∀ heap : Nat → job_t, push s.alg_id s.time heap s.rtr_queue a
      = s.rtr_queue ++ [{ priority := s.time, job := a }] := by
    intro heap
    rw [push_tail _ _ _ _ _ (by intro e he; rw [hg]; exact hq e he), hg]
  obtain ⟨c1, c2, c3, c4⟩ := cpu_phase_preempt s a ha h1 h2
  rw [hpush] at c1 c2 c3
  have hidle : (cpu_phase s).cpu_idle_time = s.cpu_idle_time := by
    simp [cpu_phase, ha, h1, h2, set_next_job_frame]
  have hcons : ∀ hd tl, s.rtr_queue = hd :: tl →
      (cpu_phase s).active = some hd.job ∧
      (cpu_phase s).rtr_queue = tl ++ [{ priority := s.time, job := a }] ∧
      (cpu_phase s).heap a = preempted (s.heap a) ∧
      (cpu_phase s).heap hd.job = dispatched algs.RR s.time (s.heap hd.job) := by
    intro hd tl hht
    have hha : hd.job ≠ a := hne hd (by rw [hht]; simp)
    obtain ⟨d1, d2, d3⟩ := set_next_job_cons
      { s with
        heap := Function.update s.heap a (preempted (s.heap a)),
        rtr_queue := s.rtr_queue ++ [{ priority := s.time, job := a }] }
      hd (tl ++ [{ priority := s.time, job := a }]) (by simp [hht])
    refine ⟨c3.trans d1, c2.trans d3, ?_, ?_⟩
    · rw [c1, d2]
      simp only []
      rw [Function.update_noteq (Ne.symm hha), Function.update_same]
    · rw [c1, d2]
      simp only []
      rw [Function.update_same, Function.update_noteq hha, hrr]
  have hnil : s.rtr_queue = [] →
      (cpu_phase s).active = some a ∧ (cpu_phase s).rtr_queue = [] ∧
      (cpu_phase s).heap a = dispatched algs.RR s.time (preempted (s.heap a)) := by
    intro hht
    obtain ⟨d1, d2, d3⟩ := set_next_job_cons
      { s with
        heap := Function.update s.heap a (preempted (s.heap a)),
        rtr_queue := s.rtr_queue ++ [{ priority := s.time, job := a }] }
      { priority := s.time, job := a } [] (by simp [hht])
    refine ⟨c3.trans d1, c2.trans d3, ?_⟩
    rw [c1, d2]
    simp only []
    rw [Function.update_same, Function.update_same, hrr]
  refine ⟨by simp [quantum_expired, ha, h1, h2], fun e he => ⟨hq e he, hne e he⟩, hpush, ?_,
    c4, hidle, ?_, hnil⟩
  · cases hht : s.rtr_queue with
    | nil =>
      obtain ⟨e1, e2, _⟩ := hnil hht
      rw [e1, e2]; rfl
    | cons hd tl =>
      obtain ⟨e1, e2, _⟩ := hcons hd tl hht
      rw [e1, e2]; rfl
  · intro hd tl hht
    obtain ⟨e1, e2, e3, e4⟩ := hcons hd tl hht
    obtain ⟨f1, f2, _, _, f5⟩ := cpu_phase_frame s
    have hsc := tick_heap_eq s hi a hcpu.1
    rw [e3] at hsc
    have hact : (tick s).active = some hd.job := by
      unfold tick scan
      rw [(scan_fold_frame _ (cpu_phase s)).2.2.1, e1]
    have hb := scan_fold_behind ((cpu_phase s).jobs.take (cpu_phase s).num_jobs.toNat) tl
      { priority := s.time, job := a } (cpu_phase s) [{ priority := s.time, job := a }]
      (f1.trans hrr) (by intro e he; rw [f5]; exact (hq e (by rw [hht]; simp [he])))
      e2 (by simp) (by intro e he; rw [f5, List.mem_singleton.1 he])
    rw [f5] at hb
    refine ⟨e1, e2, e3, e4, ?_, ?_, hact, hb⟩
    · rw [hsc]; simp [scanned, preempted]
    · rw [hsc]; simp [scanned, preempted]

/-- Witness of C19: three jobs with CPU burst 25 under round-robin; at the start of
tick 11 job 0 is active with its quantum about to expire and the queue holds jobs
2 and 1 with rank 1; the first part of the loop body dispatches job 2 and leaves
job 1 followed by job 0 with rank 11. -/
theorem rr_requeue_at_tail_witness :
    TickStart (load_jobs algs.RR [long_record, long_record, long_record])
      (Nat.iterate advance 10 (load_jobs algs.RR [long_record, long_record, long_record])) ∧
    (Nat.iterate advance 10
      (load_jobs algs.RR [long_record, long_record, long_record])).active = some 0 ∧
    (Nat.iterate advance 10
      (load_jobs algs.RR [long_record, long_record, long_record])).rtr_queue
      = [{ priority := 1, job := 2 }, { priority := 1, job := 1 }] ∧
    (cpu_phase (Nat.iterate advance 10
      (load_jobs algs.RR [long_record, long_record, long_record]))).active = some 2 ∧
    (cpu_phase (Nat.iterate advance 10
      (load_jobs algs.RR [long_record, long_record, long_record]))).rtr_queue
      = [{ priority := 1, job := 1 }, { priority := 11, job := 0 }] :=
  ⟨tick_start_reach _ 10 _ rfl, by decide, by decide,
   ((rr_requeue_at_tail [long_record, long_record, long_record] _
      (tick_start_reach _ 10 _ rfl) 0 (by decide) (by decide) (by decide)).2.2.2.2.2.2.1
      { priority := 1, job := 2 } [{ priority := 1, job := 1 }] (by decide)).1,
   ((rr_requeue_at_tail [long_record, long_record, long_record] _
      (tick_start_reach _ 10 _ rfl) 0 (by decide) (by decide) (by decide)).2.2.2.2.2.2.1
      { priority := 1, job := 2 } [{ priority := 1, job := 1 }] (by decide)).2.1⟩

/-- C20: a job loaded from a line with `reps ≤ 0` is at the start and at the end of
every tick of the run not `DONE`, has `reps ≤ 0`, and `reps < 0` while it is on
the CPU or in IO; a tick that dispatches it with a fresh burst lowers its `reps`
by one more; the test `finished_jobs < num_jobs` holds at the end of every tick;
and the run loop does not reach its `break`, whatever the fuel.  The bounds on
`cpu_burst_length` and `io_burst_length` of the claim are not needed. -/
theorem nonpositive_reps_never_done (alg_id : algs) (recs : List record) (i : Nat)
    (r : record) (hr : recs[i]? = some r) (hreps : r.reps ≤ 0) :
    (∀ s, TickStart (load_jobs alg_id recs) s →
      i ∈ s.jobs ∧ (s.heap i).state ≠ states.DONE ∧ (s.heap i).reps ≤ 0 ∧
      ((s.heap i).state = states.CPU ∨ (s.heap i).state = states.IO_ → (s.heap i).reps < 0) ∧
      (fresh_dispatch s = some i → ((tick s).heap i).reps = (s.heap i).reps - 1)) ∧
    (∀ s, TickEnd (load_jobs alg_id recs) s →
      (s.heap i).state ≠ states.DONE ∧ (s.heap i).reps ≤ 0 ∧
      ((s.heap i).state = states.CPU ∨ (s.heap i).state = states.IO_ → (s.heap i).reps < 0) ∧
      s.finished_jobs < s.num_jobs) ∧
    (∀ fuel, run_loop fuel (load_jobs alg_id recs) = none) := by
  refine ⟨?_, ?_, ?_⟩
  · intro s hs
    obtain ⟨h1, h2, h3, h4⟩ := TickStart_stuck alg_id recs i r hr hreps s hs
    refine ⟨h1, h2, h3, ?_, ?_⟩
    · rintro (h | h)
      · exact h4 (Or.inl h)
      · exact h4 (Or.inr (Or.inl h))
    · intro hf
      rw [(tick_heap s i).1, if_pos hf]
  · intro e he
    obtain ⟨s, hs, rfl⟩ := TickEnd_start _ e he
    have hi := TickStart_inv _ s (load_jobs_inv alg_id recs) hs
    obtain ⟨h1, h2⟩ := TickStart_stuck alg_id recs i r hr hreps s hs
    obtain ⟨k1, k2, k3⟩ := tick_preserves Stuck s hi i h1
      (fun j j' hj hstep => Stuck_step _ _ j j' hj hstep)
      (fun j hj => Stuck_scanned _ j hj) h2
    refine ⟨k1, k2, ?_, ?_⟩
    · rintro (h | h)
      · exact k3 (Or.inl h)
      · exact k3 (Or.inr (Or.inl h))
    · exact stuck_unfinished (tick s) (tick_inv s hi) i
        (by rw [(tick_frame s).2.1]; exact h1) k1
  · intro fuel
    obtain ⟨h1, h2⟩ := TickStart_stuck alg_id recs i r hr hreps _ TickStart.init
    exact run_loop_stuck fuel _ i (load_jobs_inv alg_id recs) h1 h2

/-- Witness of C20: a single line with `reps = 0`; the run never ends. -/
theorem nonpositive_reps_never_done_witness :
    [no_reps_record][0]? = some no_reps_record ∧ no_reps_record.reps ≤ 0 ∧
    ∀ fuel, run_loop fuel (load_jobs algs.FCFS [no_reps_record]) = none :=
  ⟨rfl, by decide,
   (nonpositive_reps_never_done algs.FCFS [no_reps_record] 0 no_reps_record rfl
      (by decide)).2.2⟩

end Project2
